import Mathlib

/-!
Verification of the uniweb runtime core against its specification.

The JavaScript sources are shallowly embedded: JS values become the
inductive type JSVal, property access / truthiness / spread follow the
ECMAScript semantics for the fragment the sources use, and fallible
operations (property access on null or undefined, calling .map on a
non-array) return Option, with none standing for a thrown TypeError.
Numbers are modelled as integers (no claim involves float arithmetic,
and none of the embedded code does arithmetic on content values).
Arrays and objects compare as JS references do in the one place the
sources compare them (Array.prototype.includes): two distinct
structures are never equal; theorems that rely on includes therefore
restrict option lists to primitive values, where structural and
reference-free SameValueZero semantics coincide.
-/

/-- A JavaScript value, as used by the runtime sources. -/
inductive JSVal where
  | undef
  | null
  | bool (b : Bool)
  | num (n : Int)
  | str (s : String)
  | arr (xs : List JSVal)
  | obj (fields : List (String × JSVal))

/-- JS truthiness: undefined, null, false, 0 and the empty string are falsy;
every array and object (including empty ones) is truthy. -/
def truthy : JSVal → Bool
  | .undef => false
  | .null => false
  | .bool b => b
  | .num n => n != 0
  | .str s => s ≠ ""
  | .arr _ => true
  | .obj _ => true

/-- The JS expression v op d with op the logical-or operator: v when truthy, else d. -/
def orDefault (v d : JSVal) : JSVal :=
  if truthy v then v else d

/-- Constructor tests. -/
def isUndef : JSVal → Bool
  | .undef => true
  | _ => false

def isNullish : JSVal → Bool
  | .undef => true
  | .null => true
  | _ => false

def isArr : JSVal → Bool
  | .arr _ => true
  | _ => false

def isObjV : JSVal → Bool
  | .obj _ => true
  | _ => false

def isStrV : JSVal → Bool
  | .str _ => true
  | _ => false

/-- The JS test typeof v === the string object: true for null, arrays and plain objects. -/
def jsTypeofObj : JSVal → Bool
  | .null => true
  | .arr _ => true
  | .obj _ => true
  | _ => false

/-- A primitive value (not an array or object). Array.prototype.includes compares
objects and arrays by reference; a freshly built structure is never reference-equal
to anything, so structural equality is exact only on primitives. -/
def isPrim : JSVal → Bool
  | .arr _ => false
  | .obj _ => false
  | _ => true

/-- First-occurrence association lookup in an object field list,
returning undefined for a missing key (as JS property reads do). -/
def fieldsGet : List (String × JSVal) → String → JSVal
  | [], _ => .undef
  | (k, v) :: fs, key => if k = key then v else fieldsGet fs key

/-- Property read v.key on a value already known not to be nullish.
Reads of named (non-index) properties on primitives yield undefined. -/
def getF : JSVal → String → JSVal
  | .obj fs, key => fieldsGet fs key
  | _, _ => JSVal.undef

/-- Throwing property read v.key: none models the TypeError raised by
property access on null or undefined. -/
def getFT (v : JSVal) (key : String) : Option JSVal :=
  if isNullish v then none else some (getF v key)

/-- Optional-chaining read v?.[key]: undefined instead of a throw on nullish v. -/
def getFC (v : JSVal) (key : String) : JSVal :=
  if isNullish v then .undef else getF v key

/-- Assignment to a property: update the first occurrence of the key,
or append the key at the end (JS property-creation order). -/
def fieldsSet : List (String × JSVal) → String → JSVal → List (String × JSVal)
  | [], key, v => [(key, v)]
  | (k, w) :: fs, key, v =>
      if k = key then (key, v) :: fs else (k, w) :: fieldsSet fs key v

/-- The statement o[key] = v for an object o (the sources only assign into objects). -/
def setField : JSVal → String → JSVal → JSVal
  | .obj fs, key, v => .obj (fieldsSet fs key v)
  | o, _, _ => o

/-- Object.entries, and the own-enumerable entries taken by object spread:
an object gives its field list, an array its index-keyed elements, a string
its index-keyed characters, and other primitives give nothing. -/
def jsEntries : JSVal → List (String × JSVal)
  | .obj fs => fs
  | .arr xs => (xs.enum).map (fun p => (toString p.1, p.2))
  | .str s => ((s.toList).enum).map (fun p => (toString p.1, .str (String.mk [p.2])))
  | _ => []

/-- The expression with spread syntax building a fresh object from v
(empty for nullish v, index-keyed for arrays and strings). -/
def spreadObj (v : JSVal) : JSVal :=
  .obj (jsEntries v)

/-- SameValueZero equality as used by Array.prototype.includes, restricted to
the structural fragment: primitives compare by value; arrays and objects
compare by reference, and a value flowing in from parsed content or a schema
default is never reference-equal to a schema option, so those compare false. -/
def jsEqSVZ : JSVal → JSVal → Bool
  | .undef, .undef => true
  | .null, .null => true
  | .bool a, .bool b => a = b
  | .num a, .num b => a = b
  | .str a, .str b => a = b
  | _, _ => false

/-- Array.prototype.includes over jsEqSVZ. -/
def jsIncludes (xs : List JSVal) (v : JSVal) : Bool :=
  xs.any (fun x => jsEqSVZ x v)

/-! ### prepare-props.js: guaranteeItemStructure and guaranteeContentStructure -/

/-- The field names and defaults of guaranteeItemStructure, in source order
(prepare-props.js lines 17 to 36). -/
def itemFieldNames : List (String × JSVal) :=
  [ ("title", .str ""), ("pretitle", .str ""), ("subtitle", .str ""),
    ("paragraphs", .arr []), ("links", .arr []), ("imgs", .arr []),
    ("lists", .arr []), ("icons", .arr []), ("videos", .arr []),
    ("buttons", .arr []), ("data", .obj []), ("cards", .arr []),
    ("documents", .arr []), ("forms", .arr []), ("quotes", .arr []),
    ("headings", .arr []) ]

/-- guaranteeItemStructure (prepare-props.js lines 17 to 36): build the flat
item object field by field as item.f or default. Property access on a nullish
item throws, hence the Option. -/
def guaranteeItemStructure (item : JSVal) : Option JSVal :=
  if isNullish item then none
  else some (.obj (itemFieldNames.map (fun p => (p.1, orDefault (getF item p.1) p.2))))

/-- Option-valued map over the elements of a list. -/
def mapOpt (f : JSVal → Option JSVal) : List JSVal → Option (List JSVal)
  | [] => some []
  | x :: xs => do
      let y ← f x
      let ys ← mapOpt f xs
      pure (y :: ys)

/-- The JS expression (v or-else empty-array).map f: throws (none) when the
selected value is truthy but not an array. -/
def mapAsArr (f : JSVal → Option JSVal) (v : JSVal) : Option JSVal :=
  match orDefault v (.arr []) with
  | .arr xs => (mapOpt f xs).map .arr
  | _ => none

/-- guaranteeContentStructure (prepare-props.js lines 45 to 81): also in source
order, including the fields the spec does not list (subtitle2, alignment,
insets, raw). -/
def guaranteeContentStructure (parsedContent : JSVal) : Option JSVal := do
  let content := orDefault parsedContent (.obj [])
  let items ← mapAsArr guaranteeItemStructure (getF content "items")
  pure (.obj
    [ ("title", orDefault (getF content "title") (.str "")),
      ("pretitle", orDefault (getF content "pretitle") (.str "")),
      ("subtitle", orDefault (getF content "subtitle") (.str "")),
      ("subtitle2", orDefault (getF content "subtitle2") (.str "")),
      ("alignment", orDefault (getF content "alignment") .null),
      ("paragraphs", orDefault (getF content "paragraphs") (.arr [])),
      ("links", orDefault (getF content "links") (.arr [])),
      ("imgs", orDefault (getF content "imgs") (.arr [])),
      ("lists", orDefault (getF content "lists") (.arr [])),
      ("icons", orDefault (getF content "icons") (.arr [])),
      ("videos", orDefault (getF content "videos") (.arr [])),
      ("insets", orDefault (getF content "insets") (.arr [])),
      ("buttons", orDefault (getF content "buttons") (.arr [])),
      ("data", orDefault (getF content "data") (.obj [])),
      ("cards", orDefault (getF content "cards") (.arr [])),
      ("documents", orDefault (getF content "documents") (.arr [])),
      ("forms", orDefault (getF content "forms") (.arr [])),
      ("quotes", orDefault (getF content "quotes") (.arr [])),
      ("headings", orDefault (getF content "headings") (.arr [])),
      ("items", items),
      ("sequence", orDefault (getF content "sequence") (.arr [])),
      ("raw", getF content "raw") ])

/-! ### prepare-props.js: applySchemaToObject, applySchemaToValue, applySchemas

The source recursion descends into sub-schemas reached by property reads, so
it is not structural. It is embedded with a fuel parameter; nesting strictly
shrinks the schema, so fuel exceeding the schema size never runs out
(lemma AF_fuel below), and the exported definitions fix that fuel. -/

mutual

/-- Structural size of a JS value; strings weigh their length so that the
index-keyed entries of a string are smaller than the string itself. -/
def jsSize : JSVal → Nat
  | .arr xs => 1 + jsSizeL xs
  | .obj fs => 1 + jsSizeF fs
  | .str s => 1 + 2 * s.length
  | _ => 1

/-- Size of an element list. -/
def jsSizeL : List JSVal → Nat
  | [] => 0
  | x :: xs => 1 + jsSize x + jsSizeL xs

/-- Size of a field list. -/
def jsSizeF : List (String × JSVal) → Nat
  | [] => 0
  | (_, v) :: fs => 1 + jsSize v + jsSizeF fs
end

/-- Test whether a JS value is a given string. -/
def isStrEqV (v : JSVal) (s : String) : Bool :=
  match v with
  | .str t => t = s
  | _ => false

/-- The value transform of one iteration of the field loop of
applySchemaToObject (prepare-props.js lines 98 to 128). The loop body reads
and assigns only result[field], so it is embedded as a transform of that one
value together with a flag recording whether any assignment happened; the
rec argument of the later stages stands for the recursive
applySchemaToObject. This definition covers the first two stages: default
fill for a missing value (lines 99 to 105, with fieldDef.default read as
undefined on a non-object fieldDef) and one-of repair when the value is not
among the declared options (lines 107 to 115, skipped unless
fieldDef.options is an array). -/
def pfDefOpts (fd v : JSVal) : JSVal × Bool :=
  let d := getF fd "default"
  let s1 : JSVal × Bool := if isUndef v && !(isUndef d) then (d, true) else (v, false)
  match getF fd "options" with
  | .arr os =>
      if !(isUndef s1.1) && !(jsIncludes os s1.1) && !(isUndef d) then (d, true) else s1
  | _ => s1

/-- Stages three and four of the loop body: the nested object sub-schema
(prepare-props.js lines 117 to 120) and the array element sub-schema, which
throws when the truthy value is not an array (lines 122 to 127). -/
def pfNest (rec : JSVal → JSVal → Option JSVal) (fd : JSVal) (s2 : JSVal × Bool) :
    Option (JSVal × Bool) :=
  let ty := getF fd "type"
  let sub := getF fd "schema"
  let s3opt : Option (JSVal × Bool) :=
    if isStrEqV ty "object" && truthy sub && truthy s2.1 then
      (rec s2.1 sub).map (fun w => (w, true))
    else some s2
  s3opt.bind (fun s3 =>
    let ofv := getF fd "of"
    if isStrEqV ty "array" && truthy ofv && truthy s3.1 then
      if jsTypeofObj ofv then
        match s3.1 with
        | .arr xs => (mapOpt (fun it => rec it ofv) xs).map (fun ys => (JSVal.arr ys, true))
        | _ => none
      else some s3
    else some s3)

/-- The full value transform of one loop iteration, in source stage order. -/
def pfVal (rec : JSVal → JSVal → Option JSVal) (fd : JSVal) (v : JSVal) :
    Option (JSVal × Bool) :=
  pfNest rec fd (pfDefOpts fd v)

/-- One iteration of the field loop of applySchemaToObject: a null fieldDef
throws at the first property read (typeof null is object); otherwise the
value transform pfVal runs on result[field] and, when it assigned, the final
value is written back (assignments in the loop target only result[field], so
the intermediate writes the source performs are not observable). -/
def procField (rec : JSVal → JSVal → Option JSVal) (robj : JSVal)
    (e : String × JSVal) : Option JSVal :=
  match e.2 with
  | .null => none
  | _ =>
      (pfVal rec e.2 (getF robj e.1)).map
        (fun p => if p.2 then setField robj e.1 p.1 else robj)

/-- Fuelled applySchemaToObject: non-objects pass through unchanged
(prepare-props.js lines 92 to 94); an object is copied by spread and each
schema entry processed in order. -/
def AF : Nat → JSVal → JSVal → Option JSVal
  | 0, _, _ => none
  | f + 1, objv, schema =>
      match objv with
      | .obj _ => List.foldlM (procField (AF f)) (spreadObj objv) (jsEntries schema)
      | _ => some objv

/-- applySchemaToObject (prepare-props.js lines 91 to 131). Nesting strictly
shrinks the schema, so this fuel never runs out. -/
def applySchemaToObject (objv schema : JSVal) : Option JSVal :=
  AF (jsSize schema + 1) objv schema

/-- applySchemaToValue (prepare-props.js lines 140 to 145): map over an array,
apply directly otherwise. -/
def applySchemaToValue (v schema : JSVal) : Option JSVal :=
  match v with
  | .arr xs => (mapOpt (fun it => applySchemaToObject it schema) xs).map .arr
  | _ => applySchemaToObject v schema

/-- applySchemas (prepare-props.js lines 155 to 170): tags without a truthy
schema entry are left untouched; others get applySchemaToValue. -/
def applySchemas (data schemas : JSVal) : Option JSVal :=
  if !(truthy schemas) || !(truthy data) || !(jsTypeofObj data) then
    some (orDefault data (.obj []))
  else
    List.foldlM
      (fun result p =>
        if !(truthy (getF schemas p.1)) then pure result
        else do
          let v ← applySchemaToValue p.2 (getF schemas p.1)
          pure (setField result p.1 v))
      (spreadObj data) (jsEntries data)

/-- The loop body of applySchemas, named for the idempotence development:
one iteration over a [tag, value] entry of the data map. -/
def schStep (schemas : JSVal) (result : JSVal) (p : String × JSVal) : Option JSVal :=
  if !(truthy (getF schemas p.1)) then pure result
  else do
    let v ← applySchemaToValue p.2 (getF schemas p.1)
    pure (setField result p.1 v)

/-- The content-side of prepareProps (prepare-props.js lines 197 to 212):
guarantee the content structure, then apply the schemas to content.data when
both are truthy. -/
def preparePropsContent (parsedContent schemas : JSVal) : Option JSVal := do
  let content ← guaranteeContentStructure parsedContent
  if truthy schemas && truthy (getF content "data") then do
    let d ← applySchemas (getF content "data") schemas
    pure (setField content "data" d)
  else pure content

/-- applyDefaults (prepare-props.js lines 179 to 188): schema defaults
shallow-merged under the given params, params winning. -/
def applyDefaults (params defaults : JSVal) : JSVal :=
  if (jsEntries defaults).isEmpty then orDefault params (.obj [])
  else
    .obj ((jsEntries (orDefault params (.obj []))).foldl
      (fun acc p => fieldsSet acc p.1 p.2) (jsEntries defaults))

/-- No key occurs twice in a field list (JS objects cannot repeat keys). -/
def keysNodup : List (String × JSVal) → Bool
  | [] => true
  | (k, _) :: fs => !(fs.any (fun q => q.1 = k)) && keysNodup fs

/-! ### data-fetcher-client.js: mergeIntoData -/

/-- A strict (non-null) object as tested by the merge policy:
typeof v is object, v is not null and not an array. -/
def isPlainObj : JSVal → Bool
  | .obj _ => true
  | _ => false

/-- Shallow merge of two objects by double spread, incoming keys winning. -/
def objMerge (a b : JSVal) : JSVal :=
  .obj ((jsEntries b).foldl (fun acc p => fieldsSet acc p.1 p.2) (jsEntries a))

/-- mergeIntoData (data-fetcher-client.js lines 108 to 142). The schema key is
a string (an empty one is falsy); nullish fetched data or a falsy key returns
the current map unchanged. -/
def mergeIntoData (currentData fetchedData : JSVal) (schema : String)
    (merge : Bool) : JSVal :=
  if isNullish fetchedData || schema = "" then currentData
  else
    let result := spreadObj currentData
    if merge && !(isUndef (getF result schema)) then
      let existing := getF result schema
      match existing, fetchedData with
      | .arr xs, .arr ys => setField result schema (.arr (xs ++ ys))
      | _, _ =>
          if isPlainObj existing && isPlainObj fetchedData then
            setField result schema (objMerge existing fetchedData)
          else setField result schema fetchedData
    else setField result schema fetchedData

/-! ### BlockRenderer.jsx lines 119 to 130: entity data merged into content.data -/

/-- The entity-data merge of BlockRenderer (BlockRenderer.jsx lines 122 to 130):
copy content.data, then fill from entityData only the keys that are undefined;
with falsy entityData, content.data is left as it is. -/
def mergeEntityData (contentData entityData : JSVal) : JSVal :=
  if truthy entityData then
    ((jsEntries entityData).map Prod.fst).foldl
      (fun merged key =>
        if isUndef (getF merged key) then setField merged key (getF entityData key)
        else merged)
      (spreadObj contentData)
  else contentData

/-! ### core/website.js: Website construction, page lookup, localization

Page objects carry blocks built through the external semantic-parser
collaborator; the claims about Website touch only routes, ordering, titles
and the active page, so a Page is embedded with those fields and its raw
sections kept opaque. -/

/-- One language entry of config.languages. -/
structure LangDef where
  label : String
  value : String

/-- The raw data of one page in the site configuration. -/
structure PageData where
  route : String
  title : Option String := none
  description : Option String := none
  sections : List JSVal := []

/-- The site configuration object destructured by the Website constructor. -/
structure SiteConfig where
  defaultLanguage : Option String := none
  languages : Option (List LangDef) := none

/-- The full constructor input, with each part optional as in JS. -/
structure WebsiteData where
  pages : Option (List PageData) := none
  theme : JSVal := .obj []
  config : Option SiteConfig := none

/-- Page (core/page.js): id, route, title or empty, description or empty;
block construction is the parser collaborator's concern and the raw sections
are kept as data. -/
structure Page where
  id : Nat
  route : String
  title : String
  description : String
  sections : List JSVal

/-- The Page constructor for the fields the claims touch. -/
def Page.make (pd : PageData) (id : Nat) : Page :=
  { id := id
    route := pd.route
    title := pd.title.getD ""
    description := pd.description.getD ""
    sections := pd.sections }

/-- The Website aggregate (core/website.js lines 10 to 36). -/
structure Website where
  headerPage : Option PageData
  footerPage : Option PageData
  pages : List Page
  activePage : Option Page
  pageRoutes : List String
  themeData : JSVal
  config : SiteConfig
  activeLang : String
  langs : List LangDef

/-- The Website constructor (core/website.js lines 10 to 36): find the
reserved header and footer pages, build Page objects from the remaining
pages in order, pick the page routed / or /index or else the first page,
and take language settings from the config. -/
def Website.make (wd : WebsiteData) : Website :=
  let pages := wd.pages.getD []
  let headerPage := pages.find? (fun p => p.route = "/@header")
  let footerPage := pages.find? (fun p => p.route = "/@footer")
  let built := (pages.filter
      (fun p => p.route ≠ "/@header" ∧ p.route ≠ "/@footer")).enum.map
      (fun q => Page.make q.2 q.1)
  let cfg := wd.config.getD {}
  let dl := cfg.defaultLanguage.getD ""
  { headerPage := headerPage
    footerPage := footerPage
    pages := built
    activePage :=
      (built.find? (fun p => p.route = "/" ∨ p.route = "/index")).orElse
        (fun _ => built.head?)
    pageRoutes := built.map (fun p => p.route)
    themeData := wd.theme
    config := cfg
    activeLang := if dl = "" then "en" else dl
    langs := cfg.languages.getD
      [{ label := "English", value := "en" }, { label := "français", value := "fr" }] }

/-- getPage (core/website.js lines 43 to 45): exact route match, first hit. -/
def Website.getPage (w : Website) (route : String) : Option Page :=
  w.pages.find? (fun p => p.route = route)

/-- setActivePage (core/website.js lines 51 to 56): switch only when the
route is known. -/
def Website.setActivePage (w : Website) (route : String) : Website :=
  match w.getPage route with
  | some p => { w with activePage := some p }
  | none => w

/-! ### JSON.parse, modelled for Website.localize

JSON.parse is a JS builtin (an external collaborator of the embedded code).
It is modelled by a recursive-descent parser over the character list, exact
for the JSON fragment the localization values use: objects, arrays, strings
with escapes, integers, booleans and null. Fractional and exponent number
forms are not modelled (no localization value is a float); a parse failure
models a thrown SyntaxError. -/

/-- JSON whitespace. -/
def jsonWsChar (c : Char) : Bool :=
  c = ' ' || c = '\t' || c = '\n' || c = '\r'

/-- Drop leading JSON whitespace. -/
def skipWs (cs : List Char) : List Char :=
  cs.dropWhile jsonWsChar

/-- Decode one single-character string escape. -/
def escChar : Char → Option Char
  | 'n' => some '\n'
  | 't' => some '\t'
  | 'r' => some '\r'
  | 'b' => some (Char.ofNat 8)
  | 'f' => some (Char.ofNat 12)
  | '"' => some '"'
  | '\\' => some '\\'
  | '/' => some '/'
  | _ => none

/-- Hexadecimal digit value. -/
def hexVal (c : Char) : Option Nat :=
  if c.isDigit then some (c.toNat - 48)
  else if 'a' ≤ c ∧ c ≤ 'f' then some (c.toNat - 87)
  else if 'A' ≤ c ∧ c ≤ 'F' then some (c.toNat - 55)
  else none

/-- Parse the body of a JSON string after the opening quote, up to and
including the closing quote. -/
def parseStrBody : List Char → Option (String × List Char)
  | [] => none
  | '"' :: cs => some ("", cs)
  | '\\' :: 'u' :: a :: b :: c :: d :: cs => do
      let ha ← hexVal a
      let hb ← hexVal b
      let hc ← hexVal c
      let hd ← hexVal d
      let p ← parseStrBody cs
      pure (String.mk (Char.ofNat (((ha * 16 + hb) * 16 + hc) * 16 + hd) :: p.1.toList), p.2)
  | '\\' :: e :: cs => do
      let ch ← escChar e
      let p ← parseStrBody cs
      pure (String.mk (ch :: p.1.toList), p.2)
  | c :: cs => do
      let p ← parseStrBody cs
      pure (String.mk (c :: p.1.toList), p.2)

/-- Numeric value of a digit list. -/
def digitsVal (ds : List Char) : Nat :=
  ds.foldl (fun a c => a * 10 + (c.toNat - 48)) 0

/-- Parse a JSON integer (fraction and exponent forms are outside the model). -/
def parseNum (cs : List Char) : Option (JSVal × List Char) :=
  let (neg, cs1) := match cs with
    | '-' :: t => (true, t)
    | _ => (false, cs)
  let ds := cs1.takeWhile Char.isDigit
  let rest := cs1.dropWhile Char.isDigit
  if ds.isEmpty then none
  else match rest with
    | '.' :: _ => none
    | 'e' :: _ => none
    | 'E' :: _ => none
    | _ => some (.num (if neg then -(digitsVal ds : Int) else (digitsVal ds : Int)), rest)

/-- The parser mode: a value, the members of an object being read, or the
elements of an array being read (with the part already read). -/
inductive PMode where
  | val
  | objm (acc : List (String × JSVal))
  | arrm (acc : List JSVal)

/-- Fuelled recursive-descent JSON parser. Every other step consumes input,
so fuel of twice the length suffices. -/
def parseF : Nat → PMode → List Char → Option (JSVal × List Char)
  | 0, _, _ => none
  | f + 1, .val, cs =>
      match skipWs cs with
      | [] => none
      | c :: rest =>
          if c = '"' then (parseStrBody rest).map (fun p => (.str p.1, p.2))
          else if c = '\x7b' then
            match skipWs rest with
            | '\x7d' :: r => some (.obj [], r)
            | r => parseF f (.objm []) r
          else if c = '[' then
            match skipWs rest with
            | ']' :: r => some (.arr [], r)
            | r => parseF f (.arrm []) r
          else if c = 'n' then
            match rest with
            | 'u' :: 'l' :: 'l' :: r => some (.null, r)
            | _ => none
          else if c = 't' then
            match rest with
            | 'r' :: 'u' :: 'e' :: r => some (.bool true, r)
            | _ => none
          else if c = 'f' then
            match rest with
            | 'a' :: 'l' :: 's' :: 'e' :: r => some (.bool false, r)
            | _ => none
          else parseNum (c :: rest)
  | f + 1, .objm acc, cs =>
      match skipWs cs with
      | '"' :: rest => do
          let pk ← parseStrBody rest
          match skipWs pk.2 with
          | ':' :: r2 => do
              let pv ← parseF f .val r2
              match skipWs pv.2 with
              | ',' :: r3 => parseF f (.objm (acc ++ [(pk.1, pv.1)])) r3
              | '\x7d' :: r3 => some (.obj (acc ++ [(pk.1, pv.1)]), r3)
              | _ => none
          | _ => none
      | _ => none
  | f + 1, .arrm acc, cs => do
      let pv ← parseF f .val cs
      match skipWs pv.2 with
      | ',' :: r => parseF f (.arrm (acc ++ [pv.1])) r
      | ']' :: r => some (.arr (acc ++ [pv.1]), r)
      | _ => none

/-- JSON.parse: parse one value and demand only whitespace after it. -/
def jsonParse (s : String) : Option JSVal :=
  match parseF (2 * s.length + 4) .val s.toList with
  | some (v, rest) => if (skipWs rest).isEmpty then some v else none
  | none => none

/-- The test s.startsWith c for a one-character prefix: whether the first
character of s is c. -/
def strHeadIs (s : String) (c : Char) : Bool :=
  match s.toList with
  | [] => false
  | c0 :: _ => c0 = c

/-- The effective language of localize: givenLang when non-empty, else the
active language. -/
def effLang (w : Website) (givenLang : String) : String :=
  if givenLang = "" then w.activeLang else givenLang

/-- The default language of localize: the value of the first configured
language, or en when missing or empty. -/
def defaultLangOf (w : Website) : String :=
  match w.langs.head? with
  | some l => if l.value = "" then "en" else l.value
  | none => "en"

/-- localize (core/website.js lines 111 to 138). A non-array object (or null)
is read by language key with optional-chaining; a string is returned as is
unless it starts with an opening brace or a double quote, in which case it is
parsed as JSON and, when that yields something of typeof object, read by
language key, when it yields a primitive, returned parsed, and when parsing
throws, returned literally; anything else gives the default value. -/
def Website.localize (w : Website) (val : JSVal) (defaultVal : JSVal)
    (givenLang : String) (fallbackDefaultLangVal : Bool) : JSVal :=
  let lang := effLang w givenLang
  let defaultLang := defaultLangOf w
  let byLang := fun (o : JSVal) =>
    if fallbackDefaultLangVal then
      orDefault (getFC o lang) (orDefault (getFC o defaultLang) defaultVal)
    else orDefault (getFC o lang) defaultVal
  match val with
  | .obj _ => byLang val
  | .null => byLang val
  | .str s =>
      if !(strHeadIs s '\x7b') && !(strHeadIs s '"') then val
      else
        match jsonParse s with
        | some o =>
            match o with
            | .obj _ => byLang o
            | .null => byLang o
            | .arr _ => byLang o
            | _ => o
        | none => val
  | _ => defaultVal

/-! ### EntityStore fetch coordination

Modelled from the spec: the EntityStore implementation is not among the
repository sources (only its caller BlockRenderer.jsx lines 69 to 96 is), so
its fetch coordination is modelled from spec section 4.3: a per-key state
machine absent to pending to ready (back to absent on failure), where a
request on an absent key launches the one retrieval, a request on a pending
key attaches to it, and a completion delivers one shared result to every
attached requester. -/

/-- The per-key cache entry: a pending retrieval with its attached
requesters, or resolved data. Absence of an entry is the absent state. -/
inductive EntryState where
  | pending (waiters : List Nat)
  | ready (data : JSVal)

/-- Result of a retrieval. -/
inductive FetchResult where
  | ok (data : JSVal)
  | fail (msg : String)

/-- Observable effects of a step: an underlying retrieval being launched, a
pending retrieval being settled, and a result delivered to one requester. -/
inductive EObs where
  | launched (key : String)
  | settled (key : String)
  | delivered (rid : Nat) (key : String) (res : FetchResult)

/-- External stimuli: a requester asks for a key, or the retrieval for a key
completes with a result. -/
inductive EAction where
  | request (rid : Nat) (key : String)
  | complete (key : String) (res : FetchResult)

/-- The store of cache entries. -/
def EStore := List (String × EntryState)

def storeGet : EStore → String → Option EntryState
  | [], _ => none
  | (k, e) :: s, key => if k = key then some e else storeGet s key

def storeSet : EStore → String → EntryState → EStore
  | [], key, e => [(key, e)]
  | (k, e0) :: s, key, e =>
      if k = key then (key, e) :: s else (k, e0) :: storeSet s key e

def storeDrop : EStore → String → EStore
  | [], _ => []
  | (k, e) :: s, key => if k = key then storeDrop s key else (k, e) :: storeDrop s key

/-- One step of the fetch coordinator. A request for a ready key is answered
at once; for a pending key it attaches to the in-flight retrieval without
launching another; for an absent key it launches the single retrieval. A
completion settles the pending entry, delivers the one result to every
waiter, stores data on success and reverts to absent on failure. -/
def entityStep (s : EStore) : EAction → EStore × List EObs
  | .request rid key =>
      match storeGet s key with
      | some (.pending ws) => (storeSet s key (.pending (rid :: ws)), [])
      | some (.ready d) => (s, [.delivered rid key (.ok d)])
      | none => (storeSet s key (.pending [rid]), [.launched key])
  | .complete key res =>
      match storeGet s key with
      | some (.pending ws) =>
          match res with
          | .ok d =>
              (storeSet s key (.ready d),
               .settled key :: ws.map (fun r => .delivered r key (.ok d)))
          | .fail e =>
              (storeDrop s key,
               .settled key :: ws.map (fun r => .delivered r key (.fail e)))
      | _ => (s, [])

/-- Run a list of actions, collecting the observations in order. -/
def entityRun : EStore → List EAction → EStore × List EObs
  | s, [] => (s, [])
  | s, a :: rest =>
      let p := entityStep s a
      let q := entityRun p.1 rest
      (q.1, p.2 ++ q.2)

/-- Count of retrieval launches for a key in an observation list. -/
def launchCount (key : String) : List EObs → Nat
  | [] => 0
  | .launched k :: rest => (if k = key then 1 else 0) + launchCount key rest
  | _ :: rest => launchCount key rest

/-- Count of settled retrievals for a key in an observation list. -/
def settledCount (key : String) : List EObs → Nat
  | [] => 0
  | .settled k :: rest => (if k = key then 1 else 0) + settledCount key rest
  | _ :: rest => settledCount key rest

/-- One when a retrieval for the key is in flight (entry pending), else zero. -/
def inFlight (s : EStore) (key : String) : Nat :=
  match storeGet s key with
  | some (.pending _) => 1
  | _ => 0

/-! ### Layout.jsx: two-phase initialize-then-render protocol -/

/-- A resolved component descriptor: the declared state defaults read by
Block.initComponent (core block.js lines 264 to 280). -/
structure CompDef where
  blockDefaults : JSVal := .undef
  blockState : JSVal := JSVal.undef

/-- A block as Layout sees it: its declared component name, the resolved
component (null until initialized), and the captured start state. -/
structure RBlock where
  component : String
  Component : Option CompDef := none
  startState : JSVal := .null

/-- Block.initComponent (core block.js lines 264 to 280): memoized
resolution of the component through the runtime registry, then capture of
the declared default local state from blockDefaults or blockState. -/
def RBlock.initComponent (getComponent : String → Option CompDef) (b : RBlock) : RBlock :=
  match b.Component with
  | some _ => b
  | none =>
      match getComponent b.component with
      | none => b
      | some c =>
          let defaults := orDefault c.blockDefaults (.obj [("state", c.blockState)])
          { b with
            Component := some c
            startState :=
              if truthy (getF defaults "state") then spreadObj (getF defaults "state")
              else .null }

/-- An event of the layout protocol: a block initialization or a block render. -/
inductive LayoutEvent where
  | initB (b : RBlock)
  | renderB (b : RBlock)

/-- initializeAllBlocks (Layout.jsx lines 57 to 64): initialize every block
of every non-null group. -/
def initializeAllBlocks (getComponent : String → Option CompDef)
    (blockGroups : List (Option (List RBlock))) : List (Option (List RBlock)) :=
  blockGroups.map (Option.map (List.map (RBlock.initComponent getComponent)))

/-- The event trace of Layout (Layout.jsx lines 73 to 122): phase one runs
initializeAllBlocks over the five areas (header, body, footer, left, right);
phase two renders the initialized blocks. The renderer collaborator mounts
the pre-built elements only after Layout returns, so every render event
follows every initialization event. -/
def layoutTrace (getComponent : String → Option CompDef)
    (header body footer left right : Option (List RBlock)) : List LayoutEvent :=
  let groups := [header, body, footer, left, right]
  let inited := initializeAllBlocks getComponent groups
  inited.flatMap (fun g => (g.getD []).map (fun b => LayoutEvent.initB b)) ++
  inited.flatMap (fun g => (g.getD []).map (fun b => LayoutEvent.renderB b))

/-! ### Predicates supporting the content-structure claims -/

/-- Kinded type test derived from a default value: string defaults demand
strings, array defaults arrays, object defaults objects. -/
def fieldTyped (d : JSVal) : JSVal → Bool :=
  match d with
  | .str _ => isStrV
  | .arr _ => isArr
  | .obj _ => isObjV
  | _ => fun _ => true

/-- An input field is acceptable when falsy (replaced by the default) or of
the declared kind. -/
def okFor (d v : JSVal) : Bool :=
  !(truthy v) || fieldTyped d v

/-- The guaranteed content fields named by the claim, with their defaults
(all of guaranteeContentStructure except items, and except the unclaimed
subtitle2, alignment, insets, raw). -/
def contentClaimFields : List (String × JSVal) :=
  [ ("title", .str ""), ("pretitle", .str ""), ("subtitle", .str ""),
    ("paragraphs", .arr []), ("links", .arr []), ("imgs", .arr []),
    ("lists", .arr []), ("icons", .arr []), ("videos", .arr []),
    ("buttons", .arr []), ("data", .obj []), ("cards", .arr []),
    ("documents", .arr []), ("forms", .arr []), ("quotes", .arr []),
    ("headings", .arr []), ("sequence", .arr []) ]

/-- Item input acceptable one level deep: not nullish, each recognized field
falsy or of its kind. -/
def itemInputOK (it : JSVal) : Bool :=
  !(isNullish it) &&
  itemFieldNames.all (fun p => okFor p.2 (getF it p.1))

/-- Content input acceptable: each recognized flat field falsy or of its
kind, and items, when truthy, an array of acceptable items. -/
def contentInputOK (pc : JSVal) : Bool :=
  let content := orDefault pc (.obj [])
  contentClaimFields.all (fun p => okFor p.2 (getF content p.1)) &&
  (match orDefault (getF content "items") (.arr []) with
   | .arr xs => xs.all itemInputOK
   | _ => false)

/-- Every recognized item field present and of its kind. -/
def itemFieldsTyped (c : JSVal) : Bool :=
  itemFieldNames.all (fun p => fieldTyped p.2 (getF c p.1))

/-- Every claimed content field present (not undefined, not null). -/
def contentClaimPresent (c : JSVal) : Bool :=
  contentClaimFields.all (fun p => !(isNullish (getF c p.1))) &&
  !(isNullish (getF c "items"))

/-- Every claimed content field of its kind, and every item entry flat-field
correct one level deep. -/
def contentClaimTyped (c : JSVal) : Bool :=
  contentClaimFields.all (fun p => fieldTyped p.2 (getF c p.1)) &&
  (match getF c "items" with
   | .arr xs => xs.all itemFieldsTyped
   | _ => false)

/-- Whether a field list holds a key. -/
def hasKey (fs : List (String × JSVal)) (k : String) : Bool :=
  fs.any (fun q => q.1 = k)

/-- The children a value recursion descends into: object fields and array
elements (property reads in the sources only descend through these). -/
def jsChildren : JSVal → List (String × JSVal)
  | .obj fs => fs
  | .arr xs => (xs.enum).map (fun p => (toString p.1, p.2))
  | _ => []

/-- JS-representable value: the own-enumerable entries carry pairwise distinct
keys, recursively through object fields and array elements. Every value a JS
program can build satisfies this: an object literal cannot repeat a key and
array indices are distinct. -/
inductive WFJS : JSVal → Prop where
  | mk : ∀ v, keysNodup (jsEntries v) = true →
      (∀ p ∈ jsChildren v, WFJS p.2) →
      WFJS v

/-! ## Theorems -/

/-! ### Basic value lemmas -/

theorem truthy_not_undef {v : JSVal} (h : truthy v = true) : v ≠ .undef := by
  intro e; subst e; simp [truthy] at h

theorem truthy_not_nullish {v : JSVal} (h : truthy v = true) : isNullish v = false := by
  cases v <;> simp_all [truthy, isNullish]

theorem isNullish_orDefault {v d : JSVal} (hd : isNullish d = false) :
    isNullish (orDefault v d) = false := by
  unfold orDefault
  split
  · next h => exact truthy_not_nullish h
  · exact hd

theorem fieldTyped_orDefault {d v : JSVal} (hok : okFor d v = true)
    (hd : fieldTyped d d = true) : fieldTyped d (orDefault v d) = true := by
  unfold okFor at hok
  unfold orDefault
  split
  · next h => simpa [h] using hok
  · exact hd

theorem mapAsArr_some_arr {f : JSVal → Option JSVal} {v w : JSVal}
    (h : mapAsArr f v = some w) : ∃ ys, w = .arr ys := by
  unfold mapAsArr at h
  split at h
  · next xs e =>
    match hm : mapOpt f xs with
    | none => rw [hm] at h; simp at h
    | some ys => rw [hm] at h; simp at h; exact ⟨ys, h.symm⟩
  · simp at h

@[simp] theorem getF_obj (fs : List (String × JSVal)) (k : String) :
    getF (.obj fs) k = fieldsGet fs k := rfl

theorem gIS_typed {it y : JSVal} (h : itemInputOK it = true)
    (hg : guaranteeItemStructure it = some y) : itemFieldsTyped y = true := by
  unfold itemInputOK at h
  rw [Bool.and_eq_true] at h
  obtain ⟨hn, hflds⟩ := h
  have hn' : isNullish it = false := by simpa using hn
  unfold guaranteeItemStructure at hg
  rw [hn'] at hg
  simp at hg
  subst hg
  simp only [itemFieldNames, List.all, List.foldr, Bool.and_eq_true] at hflds
  obtain ⟨h1, h2, h3, h4, h5, h6, h7, h8, h9, h10, h11, h12, h13, h14, h15, h16, -⟩ := hflds
  simp [itemFieldsTyped, itemFieldNames, fieldsGet]
  refine ⟨?_, ?_, ?_, ?_, ?_, ?_, ?_, ?_, ?_, ?_, ?_, ?_, ?_, ?_, ?_, ?_⟩ <;>
    first
      | exact fieldTyped_orDefault h1 (by rfl)
      | exact fieldTyped_orDefault h2 (by rfl)
      | exact fieldTyped_orDefault h3 (by rfl)
      | exact fieldTyped_orDefault h4 (by rfl)
      | exact fieldTyped_orDefault h5 (by rfl)
      | exact fieldTyped_orDefault h6 (by rfl)
      | exact fieldTyped_orDefault h7 (by rfl)
      | exact fieldTyped_orDefault h8 (by rfl)
      | exact fieldTyped_orDefault h9 (by rfl)
      | exact fieldTyped_orDefault h10 (by rfl)
      | exact fieldTyped_orDefault h11 (by rfl)
      | exact fieldTyped_orDefault h12 (by rfl)
      | exact fieldTyped_orDefault h13 (by rfl)
      | exact fieldTyped_orDefault h14 (by rfl)
      | exact fieldTyped_orDefault h15 (by rfl)
      | exact fieldTyped_orDefault h16 (by rfl)

@[simp] theorem isNullish_orDefault_str (v : JSVal) (s : String) :
    isNullish (orDefault v (.str s)) = false := isNullish_orDefault rfl

@[simp] theorem isNullish_orDefault_arr (v : JSVal) (xs : List JSVal) :
    isNullish (orDefault v (.arr xs)) = false := isNullish_orDefault rfl

@[simp] theorem isNullish_orDefault_obj (v : JSVal) (fs : List (String × JSVal)) :
    isNullish (orDefault v (.obj fs)) = false := isNullish_orDefault rfl

theorem mapOpt_all_typed : ∀ {xs ys : List JSVal}, xs.all itemInputOK = true →
    mapOpt guaranteeItemStructure xs = some ys → ys.all itemFieldsTyped = true := by
  intro xs
  induction xs with
  | nil =>
      intro ys _ hm
      unfold mapOpt at hm
      simp at hm
      subst hm
      rfl
  | cons x xs ih =>
      intro ys h hm
      simp only [List.all_cons, Bool.and_eq_true] at h
      unfold mapOpt at hm
      match hx : guaranteeItemStructure x with
      | none => rw [hx] at hm; simp at hm
      | some y =>
          rw [hx] at hm
          match hxs : mapOpt guaranteeItemStructure xs with
          | none => rw [hxs] at hm; simp at hm
          | some ys' =>
              rw [hxs] at hm
              simp at hm
              subst hm
              simp only [List.all_cons, Bool.and_eq_true]
              exact ⟨gIS_typed h.1 hx, ih h.2 hxs⟩

@[simp] theorem isNullish_arr (xs : List JSVal) : isNullish (.arr xs) = false := rfl

/-- Claim C1 (amended): whenever content normalization succeeds, every
recognized field of the result is present (never undefined or null); and
when every recognized input field (one level deep into items as well) is
falsy or of its declared type, every recognized field of the result is
moreover type-correct. -/
theorem c1_normalized_content_guarantee (pc c : JSVal)
    (h : guaranteeContentStructure pc = some c) :
    contentClaimPresent c = true ∧
    (contentInputOK pc = true → contentClaimTyped c = true) := by
  simp only [guaranteeContentStructure] at h
  match hm : mapAsArr guaranteeItemStructure (getF (orDefault pc (.obj [])) "items") with
  | none => rw [hm] at h; simp at h
  | some items =>
      rw [hm] at h
      simp at h
      subst h
      obtain ⟨ys, hys⟩ := mapAsArr_some_arr hm
      subst hys
      constructor
      · simp [contentClaimPresent, contentClaimFields, fieldsGet]
      · intro hok
        unfold contentInputOK at hok
        rw [Bool.and_eq_true] at hok
        obtain ⟨hfl, hitems⟩ := hok
        unfold mapAsArr at hm
        simp only [contentClaimFields, List.all, List.foldr, Bool.and_eq_true] at hfl
        obtain ⟨g1, g2, g3, g4, g5, g6, g7, g8, g9, g10, g11, g12, g13, g14, g15, g16, g17, -⟩ := hfl
        have hitems' : ys.all itemFieldsTyped = true := by
          match he : orDefault (getF (orDefault pc (.obj [])) "items") (.arr []) with
          | .arr xs =>
              rw [he] at hm hitems
              have hm2 : Option.map JSVal.arr (mapOpt guaranteeItemStructure xs) =
                  some (JSVal.arr ys) := hm
              have hi2 : xs.all itemInputOK = true := hitems
              match hmo : mapOpt guaranteeItemStructure xs with
              | none => rw [hmo] at hm2; simp at hm2
              | some zs =>
                  rw [hmo] at hm2
                  simp at hm2
                  exact hm2 ▸ mapOpt_all_typed hi2 hmo
          | .undef => rw [he] at hm; simp at hm
          | .null => rw [he] at hm; simp at hm
          | .bool b => rw [he] at hm; simp at hm
          | .num n => rw [he] at hm; simp at hm
          | .str s => rw [he] at hm; simp at hm
          | .obj fs => rw [he] at hm; simp at hm
        unfold contentClaimTyped
        rw [Bool.and_eq_true]
        refine ⟨?_, by simp [fieldsGet]; simpa using hitems'⟩
        simp [contentClaimFields, fieldsGet]
        refine ⟨?_, ?_, ?_, ?_, ?_, ?_, ?_, ?_, ?_, ?_, ?_, ?_, ?_, ?_, ?_, ?_, ?_⟩ <;>
          first
            | exact fieldTyped_orDefault g1 (by rfl)
            | exact fieldTyped_orDefault g2 (by rfl)
            | exact fieldTyped_orDefault g3 (by rfl)
            | exact fieldTyped_orDefault g4 (by rfl)
            | exact fieldTyped_orDefault g5 (by rfl)
            | exact fieldTyped_orDefault g6 (by rfl)
            | exact fieldTyped_orDefault g7 (by rfl)
            | exact fieldTyped_orDefault g8 (by rfl)
            | exact fieldTyped_orDefault g9 (by rfl)
            | exact fieldTyped_orDefault g10 (by rfl)
            | exact fieldTyped_orDefault g11 (by rfl)
            | exact fieldTyped_orDefault g12 (by rfl)
            | exact fieldTyped_orDefault g13 (by rfl)
            | exact fieldTyped_orDefault g14 (by rfl)
            | exact fieldTyped_orDefault g15 (by rfl)
            | exact fieldTyped_orDefault g16 (by rfl)
            | exact fieldTyped_orDefault g17 (by rfl)

/-! ### Field read and write lemmas -/

theorem fieldsGet_fieldsSet_same (fs : List (String × JSVal)) (k : String) (v : JSVal) :
    fieldsGet (fieldsSet fs k v) k = v := by
  induction fs with
  | nil => simp [fieldsSet, fieldsGet]
  | cons p fs ih =>
      obtain ⟨k0, v0⟩ := p
      by_cases h : k0 = k
      · subst h; simp [fieldsSet, fieldsGet]
      · simp [fieldsSet, fieldsGet, h, ih]

theorem fieldsGet_fieldsSet_other (fs : List (String × JSVal)) (k k' : String) (v : JSVal)
    (h : k ≠ k') : fieldsGet (fieldsSet fs k v) k' = fieldsGet fs k' := by
  induction fs with
  | nil => simp [fieldsSet, fieldsGet, h]
  | cons p fs ih =>
      obtain ⟨k0, v0⟩ := p
      by_cases h0 : k0 = k
      · subst h0; simp [fieldsSet, fieldsGet, h]
      · simp [fieldsSet, fieldsGet, h0, ih]

theorem getF_setField_same (fs : List (String × JSVal)) (k : String) (v : JSVal) :
    getF (setField (.obj fs) k v) k = v := by
  simp [setField, fieldsGet_fieldsSet_same]

theorem getF_setField_other (fs : List (String × JSVal)) (k k' : String) (v : JSVal)
    (h : k ≠ k') : getF (setField (.obj fs) k v) k' = fieldsGet fs k' := by
  simp [setField, fieldsGet_fieldsSet_other _ _ _ _ h]

theorem fieldsSet_self (fs : List (String × JSVal)) (k : String)
    (h : fieldsGet fs k ≠ .undef) : fieldsSet fs k (fieldsGet fs k) = fs := by
  induction fs with
  | nil => simp [fieldsGet] at h
  | cons p fs ih =>
      obtain ⟨k0, v0⟩ := p
      by_cases h0 : k0 = k
      · subst h0; simp [fieldsGet, fieldsSet]
      · simp [fieldsGet, h0] at h
        simp [fieldsSet, fieldsGet, h0, ih h]

theorem setField_self (fs : List (String × JSVal)) (k : String)
    (h : fieldsGet fs k ≠ .undef) :
    setField (.obj fs) k (fieldsGet fs k) = .obj fs := by
  simp [setField, fieldsSet_self _ _ h]

theorem getF_objMerge_aux (b : List (String × JSVal)) :
    ∀ (acc : List (String × JSVal)) (k : String), keysNodup b = true →
    fieldsGet (b.foldl (fun acc p => fieldsSet acc p.1 p.2) acc) k =
      if hasKey b k then fieldsGet b k else fieldsGet acc k := by
  induction b with
  | nil => intro acc k _; simp [hasKey, fieldsGet]
  | cons p b ih =>
      intro acc k hnd
      obtain ⟨k0, v0⟩ := p
      simp only [keysNodup, Bool.and_eq_true] at hnd
      obtain ⟨hn0, hnd⟩ := hnd
      have hn0' : hasKey b k0 = false := by
        unfold hasKey
        simpa using hn0
      by_cases hk : k0 = k
      · subst hk
        simp only [List.foldl_cons]
        rw [ih _ _ hnd, hn0']
        simp [hasKey, fieldsGet, fieldsGet_fieldsSet_same]
      · simp only [List.foldl_cons]
        rw [ih _ _ hnd]
        by_cases hc : hasKey b k
        · unfold hasKey at hc
          simp [hasKey, hc, hk, fieldsGet]
        · unfold hasKey at hc
          simp [hasKey, hc, hk, fieldsGet, fieldsGet_fieldsSet_other _ _ _ _ hk]

@[simp] theorem spreadObj_obj (fs : List (String × JSVal)) : spreadObj (.obj fs) = .obj fs := rfl

/-- Claim C7 (amended): with a non-nullish fetched value and a non-empty
schema key, mergeIntoData follows the merge policy — in merge mode two
arrays concatenate (existing then incoming), two plain objects shallow-merge
with incoming keys winning, any other combination (including a missing
existing value) is replaced by the incoming value, and without merge mode
the incoming value always replaces; a nullish fetched value leaves the data
map unchanged (the amendment). -/
theorem c7_merge_policy (cd : List (String × JSVal)) (fetchedData : JSVal)
    (schema : String) (merge : Bool)
    (hs : schema ≠ "") (hf : isNullish fetchedData = false) :
    (∀ xs ys, merge = true → getF (.obj cd) schema = .arr xs → fetchedData = .arr ys →
        getF (mergeIntoData (.obj cd) fetchedData schema merge) schema = .arr (xs ++ ys)) ∧
    (∀ a b, merge = true → getF (.obj cd) schema = .obj a → fetchedData = .obj b →
        keysNodup b = true →
        ∀ k, getF (getF (mergeIntoData (.obj cd) fetchedData schema merge) schema) k =
          if hasKey b k then fieldsGet b k else fieldsGet a k) ∧
    (merge = false →
        getF (mergeIntoData (.obj cd) fetchedData schema merge) schema = fetchedData) ∧
    (merge = true → isUndef (getF (.obj cd) schema) = true →
        getF (mergeIntoData (.obj cd) fetchedData schema merge) schema = fetchedData) ∧
    (merge = true → isUndef (getF (.obj cd) schema) = false →
        (isArr (getF (.obj cd) schema) = false ∨ isArr fetchedData = false) →
        (isPlainObj (getF (.obj cd) schema) = false ∨ isPlainObj fetchedData = false) →
        getF (mergeIntoData (.obj cd) fetchedData schema merge) schema = fetchedData) ∧
    (∀ g : JSVal, isNullish g = true → mergeIntoData (.obj cd) g schema merge = .obj cd) := by
  refine ⟨?_, ?_, ?_, ?_, ?_, ?_⟩
  · intro xs ys hm he hfd
    subst hm hfd
    unfold mergeIntoData
    simp [hs, he, isUndef, getF_setField_same]
  · intro a b hm he hfd hnd k
    subst hm hfd
    simp only [mergeIntoData, spreadObj_obj]
    rw [he]
    simp [hs, isNullish, isUndef, isPlainObj, objMerge, getF_setField_same, jsEntries,
      getF_objMerge_aux b a k hnd]
  · intro hm
    subst hm
    unfold mergeIntoData
    simp [hs, hf, getF_setField_same]
  · intro hm hu
    subst hm
    have hu2 : isUndef (fieldsGet cd schema) = true := by simpa using hu
    unfold mergeIntoData
    simp [hs, hf, hu2, getF_setField_same]
  · intro hm hu harr hobj
    subst hm
    have hu2 : isUndef (fieldsGet cd schema) = false := by simpa using hu
    have harr2 : isArr (fieldsGet cd schema) = false ∨ isArr fetchedData = false := by
      simpa using harr
    have hobj2 : isPlainObj (fieldsGet cd schema) = false ∨ isPlainObj fetchedData = false := by
      simpa using hobj
    unfold mergeIntoData
    simp only [spreadObj_obj, getF_obj]
    rw [if_neg (by simp [hf, hs])]
    rw [if_pos (by simp [hu2])]
    match he : fieldsGet cd schema, hfd : fetchedData with
    | .arr xs, .arr ys =>
        rcases harr2 with h | h <;> (try rw [he] at h) <;> simp [isArr] at h
    | .arr xs, .undef => simp [getF_setField_same, isPlainObj]
    | .arr xs, .null => simp [getF_setField_same, isPlainObj]
    | .arr xs, .bool c => simp [getF_setField_same, isPlainObj]
    | .arr xs, .num n => simp [getF_setField_same, isPlainObj]
    | .arr xs, .str t => simp [getF_setField_same, isPlainObj]
    | .arr xs, .obj fs2 => simp [getF_setField_same, isPlainObj]
    | .undef, w => simp [getF_setField_same, isPlainObj]
    | .null, w => simp [getF_setField_same, isPlainObj]
    | .bool c, w => simp [getF_setField_same, isPlainObj]
    | .num n, w => simp [getF_setField_same, isPlainObj]
    | .str t, w => simp [getF_setField_same, isPlainObj]
    | .obj fs1, w =>
        rcases hobj2 with h | h
        · rw [he] at h
          simp [isPlainObj] at h
        · rw [if_neg (by simp [h])]
          exact getF_setField_same _ _ _
  · intro g hg
    unfold mergeIntoData
    simp [hg]

/-- Claim C7 counterexample: with existing data team x, a null fetched value
and key team (merge off), mergeIntoData returns the map unchanged, the key
still holding x; the claim as stated requires the incoming value (null) to
replace the existing one in this type combination. -/
theorem c7_counterexample :
    mergeIntoData (.obj [("team", .str "x")]) .null "team" false =
      .obj [("team", .str "x")] ∧
    getF (mergeIntoData (.obj [("team", .str "x")]) .null "team" false) "team" =
      .str "x" ∧
    JSVal.str "x" ≠ JSVal.null := by
  refine ⟨rfl, rfl, by simp⟩

/-- Claim C7 witness: the spec scenario — merge mode with existing
team Ann and fetched Bo concatenates to Ann then Bo. -/
theorem c7_merge_policy_witness :
    getF (mergeIntoData (.obj [("team", .arr [.obj [("name", .str "Ann")]])])
        (.arr [.obj [("name", .str "Bo")]]) "team" true) "team" =
      .arr [.obj [("name", .str "Ann")], .obj [("name", .str "Bo")]] := by
  have h := c7_merge_policy [("team", .arr [.obj [("name", .str "Ann")]])]
      (.arr [.obj [("name", .str "Bo")]]) "team" true (by decide) (by rfl)
  exact h.1 [.obj [("name", .str "Ann")]] [.obj [("name", .str "Bo")]] rfl rfl rfl

/-! ### Claim C8: entity data only fills gaps -/

theorem isUndef_iff (v : JSVal) : isUndef v = true ↔ v = .undef := by
  cases v <;> simp [isUndef]

theorem getF_setField_ne (m : JSVal) (key k : String) (v : JSVal) (h : key ≠ k) :
    getF (setField m key v) k = getF m k := by
  cases m with
  | obj fs => simp [setField, fieldsGet_fieldsSet_other _ _ _ _ h]
  | undef => rfl
  | null => rfl
  | bool b => rfl
  | num n => rfl
  | str s => rfl
  | arr xs => rfl

theorem setField_isObj (m : JSVal) (key : String) (v : JSVal) (h : isObjV m = true) :
    isObjV (setField m key v) = true := by
  cases m <;> simp_all [setField, isObjV]

theorem c8loop_preserve (ed : JSVal) : ∀ (keys : List String) (m : JSVal) (k : String),
    isUndef (getF m k) = false →
    getF (keys.foldl
      (fun merged key =>
        if isUndef (getF merged key) then setField merged key (getF ed key) else merged) m) k
      = getF m k := by
  intro keys
  induction keys with
  | nil => intro m k h; rfl
  | cons key rest ih =>
      intro m k h
      simp only [List.foldl_cons]
      by_cases hk : key = k
      · subst hk
        rw [if_neg (by simp [h])]
        exact ih m _ h
      · by_cases hu : isUndef (getF m key) = true
        · rw [if_pos hu]
          have h2 : isUndef (getF (setField m key (getF ed key)) k) = false := by
            rw [getF_setField_ne _ _ _ _ hk]; exact h
          rw [ih _ _ h2, getF_setField_ne _ _ _ _ hk]
        · rw [if_neg hu]
          exact ih m k h

theorem c8loop_untouched (ed : JSVal) : ∀ (keys : List String) (m : JSVal) (k : String),
    k ∉ keys →
    getF (keys.foldl
      (fun merged key =>
        if isUndef (getF merged key) then setField merged key (getF ed key) else merged) m) k
      = getF m k := by
  intro keys
  induction keys with
  | nil => intro m k _; rfl
  | cons key rest ih =>
      intro m k hmem
      simp only [List.mem_cons, not_or] at hmem
      simp only [List.foldl_cons]
      by_cases hu : isUndef (getF m key) = true
      · rw [if_pos hu, ih _ _ hmem.2, getF_setField_ne _ _ _ _ (fun e => hmem.1 e.symm)]
      · rw [if_neg hu]
        exact ih _ _ hmem.2

theorem c8loop_fill (ed : JSVal) : ∀ (keys : List String) (m : JSVal) (k : String),
    isObjV m = true → keys.Nodup → k ∈ keys → isUndef (getF m k) = true →
    getF (keys.foldl
      (fun merged key =>
        if isUndef (getF merged key) then setField merged key (getF ed key) else merged) m) k
      = getF ed k := by
  intro keys
  induction keys with
  | nil => intro m k _ _ hmem _; simp at hmem
  | cons key rest ih =>
      intro m k hobj hnd hmem hu
      simp only [List.nodup_cons] at hnd
      simp only [List.foldl_cons]
      by_cases hk : key = k
      · subst hk
        rw [if_pos hu]
        obtain ⟨fs, hfs⟩ : ∃ fs, m = .obj fs := by
          cases m with
          | obj fs => exact ⟨fs, rfl⟩
          | undef => simp [isObjV] at hobj
          | null => simp [isObjV] at hobj
          | bool b => simp [isObjV] at hobj
          | num n => simp [isObjV] at hobj
          | str s => simp [isObjV] at hobj
          | arr xs => simp [isObjV] at hobj
        subst hfs
        rw [c8loop_untouched ed rest _ _ hnd.1]
        exact getF_setField_same _ _ _
      · have hmem2 : k ∈ rest := by
          rcases List.mem_cons.mp hmem with h | h
          · exact absurd h.symm hk
          · exact h
        by_cases hu2 : isUndef (getF m key) = true
        · rw [if_pos hu2]
          refine ih _ _ (setField_isObj _ _ _ hobj) hnd.2 hmem2 ?_
          rw [getF_setField_ne _ _ _ _ hk]
          exact hu
        · rw [if_neg hu2]
          exact ih _ _ hobj hnd.2 hmem2 hu

theorem keysNodup_nodup : ∀ (fs : List (String × JSVal)), keysNodup fs = true →
    (fs.map Prod.fst).Nodup := by
  intro fs
  induction fs with
  | nil => intro _; simp
  | cons p fs ih =>
      intro h
      simp only [keysNodup, Bool.and_eq_true] at h
      simp only [List.map_cons, List.nodup_cons]
      refine ⟨?_, ih h.2⟩
      intro hmem
      have := h.1
      simp only [Bool.not_eq_true'] at this
      rw [List.any_eq_false] at this
      simp only [List.mem_map] at hmem
      obtain ⟨q, hq, hqe⟩ := hmem
      have := this q hq
      simp_all

theorem fieldsGet_not_mem (fs : List (String × JSVal)) (k : String)
    (h : k ∉ fs.map Prod.fst) : fieldsGet fs k = .undef := by
  induction fs with
  | nil => rfl
  | cons p fs ih =>
      simp only [List.map_cons, List.mem_cons, not_or] at h
      obtain ⟨k0, v0⟩ := p
      simp only [fieldsGet]
      rw [if_neg (fun e => h.1 (by simp [e])), ih h.2]

/-- Claim C8: merging entity-resolved data into a normalized content data map
never overwrites a present (non-undefined) key — authored keys win — and
fills exactly the keys that are undefined with the entity value. -/
theorem c8_entity_merge_precedence (cd eds : List (String × JSVal))
    (hnd : keysNodup eds = true) (k : String) :
    (isUndef (getF (.obj cd) k) = false →
       getF (mergeEntityData (.obj cd) (.obj eds)) k = getF (.obj cd) k) ∧
    (isUndef (getF (.obj cd) k) = true →
       getF (mergeEntityData (.obj cd) (.obj eds)) k = getF (.obj eds) k) := by
  constructor
  · intro h
    unfold mergeEntityData
    simp only [truthy, if_pos]
    exact c8loop_preserve _ _ _ _ h
  · intro h
    unfold mergeEntityData
    simp only [truthy, if_pos]
    by_cases hmem : k ∈ (jsEntries (JSVal.obj eds)).map Prod.fst
    · rw [c8loop_fill (.obj eds) _ _ _ (by rfl) (by simpa [jsEntries] using keysNodup_nodup _ hnd) hmem (by simpa using h)]
    · rw [c8loop_untouched _ _ _ _ hmem]
      have h2 : fieldsGet eds k = .undef := fieldsGet_not_mem _ _ (by simpa [jsEntries] using hmem)
      have h3 : fieldsGet cd k = .undef := (isUndef_iff _).mp (by simpa using h)
      simp [h2, h3]

/-- Claim C8 witness: an authored key survives the merge and a missing key
is filled from the entity data. -/
theorem c8_entity_merge_precedence_witness :
    getF (mergeEntityData (.obj [("team", .str "authored")])
        (.obj [("team", .str "fetched"), ("extra", .num 1)])) "team" = .str "authored" ∧
    getF (mergeEntityData (.obj [("team", .str "authored")])
        (.obj [("team", .str "fetched"), ("extra", .num 1)])) "extra" = .num 1 := by
  have h1 := c8_entity_merge_precedence [("team", .str "authored")]
      [("team", .str "fetched"), ("extra", .num 1)] (by decide) "team"
  have h2 := c8_entity_merge_precedence [("team", .str "authored")]
      [("team", .str "fetched"), ("extra", .num 1)] (by decide) "extra"
  exact ⟨(h1.1 (by rfl)).trans (by rfl), (h2.2 (by rfl)).trans (by rfl)⟩

/-- Claim C1 counterexample: the input with title 42, a truthy non-string,
normalizes successfully to a content object whose title is still 42 — not a
string — refuting that every string field of the result is a string for
every raw input. -/
theorem c1_counterexample :
    (guaranteeContentStructure (.obj [("title", .num 42)])).map
        (fun c => getF c "title") = some (.num 42) ∧
    isStrV (.num 42) = false := ⟨rfl, rfl⟩

/-- Claim C1 witness: the amended theorem applied to a concrete parsed
content with a title and one item. -/
theorem c1_normalized_content_guarantee_witness :
    contentClaimPresent ((guaranteeContentStructure (.obj [("title", .str "Hi"),
        ("items", .arr [.obj [("subtitle", .str "A")]])])).getD .undef) = true ∧
    contentInputOK (.obj [("title", .str "Hi"),
        ("items", .arr [.obj [("subtitle", .str "A")]])]) = true ∧
    contentClaimTyped ((guaranteeContentStructure (.obj [("title", .str "Hi"),
        ("items", .arr [.obj [("subtitle", .str "A")]])])).getD .undef) = true := by
  have h := c1_normalized_content_guarantee
      (.obj [("title", .str "Hi"), ("items", .arr [.obj [("subtitle", .str "A")]])])
      ((guaranteeContentStructure (.obj [("title", .str "Hi"),
        ("items", .arr [.obj [("subtitle", .str "A")]])])).getD .undef)
      (by rfl)
  exact ⟨h.1, rfl, h.2 rfl⟩

/-! ### Claims C4 and C5: Website construction -/

theorem built_pages_route (l : List PageData) :
    ((l.enum.map (fun q => Page.make q.2 q.1)).map (fun p => p.route)) =
      l.map (fun p => p.route) := by
  rw [List.map_map]
  rw [show ((fun p : Page => p.route) ∘ fun q : Nat × PageData => Page.make q.2 q.1) =
      ((fun p : PageData => p.route) ∘ Prod.snd) from rfl]
  rw [← List.map_map, List.enum_map_snd]

theorem built_pages_id (l : List PageData) :
    ((l.enum.map (fun q => Page.make q.2 q.1)).map (fun p => p.id)) =
      List.range l.length := by
  rw [List.map_map]
  rw [show ((fun p : Page => p.id) ∘ fun q : Nat × PageData => Page.make q.2 q.1) =
      Prod.fst from rfl]
  rw [List.enum_map_fst]

/-- Claim C4 (amended): the Website constructor partitions the page list by
the reserved markers, builds Page objects from the remaining pages in their
given order with positional ids, and selects as active the first page routed
slash or slash-index, or else the first page; with no pages (config.pages
absent) it builds an empty website without throwing, and then no page is
active — exactly one page is active precisely when at least one regular page
exists. -/
theorem c4_website_construction (wd : WebsiteData) :
    (Website.make wd).headerPage =
      (wd.pages.getD []).find? (fun p => p.route = "/@header") ∧
    (Website.make wd).footerPage =
      (wd.pages.getD []).find? (fun p => p.route = "/@footer") ∧
    (Website.make wd).pages.map (fun p => p.route) =
      ((wd.pages.getD []).filter
        (fun p => p.route ≠ "/@header" ∧ p.route ≠ "/@footer")).map (fun p => p.route) ∧
    (Website.make wd).pages.map (fun p => p.id) =
      List.range ((wd.pages.getD []).filter
        (fun p => p.route ≠ "/@header" ∧ p.route ≠ "/@footer")).length ∧
    (∀ p, (Website.make wd).activePage = some p → p ∈ (Website.make wd).pages) ∧
    ((Website.make wd).pages ≠ [] → ∃ p, (Website.make wd).activePage = some p) ∧
    ((Website.make wd).pages = [] → (Website.make wd).activePage = none) ∧
    (∀ p, (Website.make wd).activePage = some p →
      (p.route = "/" ∨ p.route = "/index") ∨
      ((∀ q ∈ (Website.make wd).pages, q.route ≠ "/" ∧ q.route ≠ "/index") ∧
        (Website.make wd).pages.head? = some p)) ∧
    (wd.pages = none → (Website.make wd).pages = []) := by
  refine ⟨rfl, rfl, built_pages_route _, built_pages_id _, ?_, ?_, ?_, ?_, ?_⟩
  · intro p hp
    simp only [Website.make] at hp ⊢
    match hf : ((wd.pages.getD []).filter
        (fun p => p.route ≠ "/@header" ∧ p.route ≠ "/@footer")).enum.map
        (fun q => Page.make q.2 q.1) |>.find? (fun p => p.route = "/" ∨ p.route = "/index") with
    | some q =>
        rw [hf] at hp
        simp only [Option.orElse] at hp
        cases hp
        exact List.mem_of_find?_eq_some hf
    | none =>
        rw [hf] at hp
        simp only [Option.orElse] at hp
        exact List.mem_of_mem_head? hp
  · intro hne
    simp only [Website.make] at hne ⊢
    match hf : ((wd.pages.getD []).filter
        (fun p => p.route ≠ "/@header" ∧ p.route ≠ "/@footer")).enum.map
        (fun q => Page.make q.2 q.1) |>.find? (fun p => p.route = "/" ∨ p.route = "/index") with
    | some q => rw [hf]; exact ⟨q, rfl⟩
    | none =>
        rw [hf]
        simp only [Option.orElse]
        match hh : ((wd.pages.getD []).filter
            (fun p => p.route ≠ "/@header" ∧ p.route ≠ "/@footer")).enum.map
            (fun q => Page.make q.2 q.1) |>.head? with
        | some q => exact ⟨q, hh⟩
        | none => exact absurd (List.head?_eq_none_iff.mp hh) hne
  · intro he
    simp only [Website.make] at he ⊢
    rw [he]
    rfl
  · intro p hp
    simp only [Website.make] at hp
    match hf : ((wd.pages.getD []).filter
        (fun p => p.route ≠ "/@header" ∧ p.route ≠ "/@footer")).enum.map
        (fun q => Page.make q.2 q.1) |>.find? (fun p => p.route = "/" ∨ p.route = "/index") with
    | some q =>
        rw [hf] at hp
        simp only [Option.orElse] at hp
        cases hp
        left
        have := List.find?_some hf
        simpa using this
    | none =>
        rw [hf] at hp
        simp only [Option.orElse] at hp
        right
        refine ⟨?_, ?_⟩
        · intro q hq
          have := List.find?_eq_none.mp hf q hq
          simpa using this
        · simpa [Website.make, hf] using hp
  · intro hn
    simp [Website.make, hn]

/-- Claim C4 counterexample: with no pages at all the constructed website has
no active page (so the invariant that exactly one page is always active
fails on the empty website); and with pages routed /a and /index (no / page)
the active page is the /index page, not the first page /a as the claim
states. -/
theorem c4_counterexample :
    (Website.make ⟨none, .obj [], none⟩).activePage = none ∧
    ((Website.make ⟨some [⟨"/a", none, none, []⟩, ⟨"/index", none, none, []⟩],
        .obj [], none⟩).activePage.map (fun p => p.route)) = some "/index" ∧
    ((Website.make ⟨some [⟨"/a", none, none, []⟩, ⟨"/index", none, none, []⟩],
        .obj [], none⟩).pages.head?.map (fun p => p.route)) = some "/a" ∧
    ("/index" : String) ≠ "/" := by
  refine ⟨rfl, rfl, rfl, by decide⟩

/-- Claim C4 witness: the amended theorem applied to a concrete site
configuration with a header page and a regular page. -/
theorem c4_website_construction_witness :
    (Website.make ⟨some [⟨"/", none, none, []⟩, ⟨"/@header", none, none, []⟩],
        .obj [], none⟩).pages.map (fun p => p.route) = ["/"] ∧
    ((Website.make ⟨some [⟨"/", none, none, []⟩, ⟨"/@header", none, none, []⟩],
        .obj [], none⟩).activePage).isSome = true := by
  have h := c4_website_construction
      ⟨some [⟨"/", none, none, []⟩, ⟨"/@header", none, none, []⟩], .obj [], none⟩
  refine ⟨(h.2.2.1).trans (by rfl), ?_⟩
  obtain ⟨p, hp⟩ := h.2.2.2.2.2.1 (by
    rw [show (Website.make ⟨some [⟨"/", none, none, []⟩, ⟨"/@header", none, none, []⟩],
        .obj [], none⟩).pages = [Page.make ⟨"/", none, none, []⟩ 0] from rfl]
    simp)
  rw [hp]
  rfl

theorem countP_enumFrom {α : Type} (Q : α → Bool) :
    ∀ (l : List α) (n : Nat),
      (List.enumFrom n l).countP (fun q => Q q.2) = l.countP Q := by
  intro l
  induction l with
  | nil => intro n; rfl
  | cons x xs ih =>
      intro n
      simp only [List.enumFrom, List.countP_cons, ih]

theorem two_le_countP {α : Type} (l : List α) (P : α → Bool) (i j : Nat)
    (hij : i < j) (hj : j < l.length)
    (hPi : P (l.get ⟨i, lt_trans hij hj⟩) = true)
    (hPj : P (l.get ⟨j, hj⟩) = true) : 2 ≤ l.countP P := by
  have hsplit : l.take j ++ l.drop j = l := List.take_append_drop j l
  have h1 : 0 < (l.take j).countP P := by
    rw [List.countP_pos_iff]
    refine ⟨l.get ⟨i, lt_trans hij hj⟩, ?_, hPi⟩
    rw [List.mem_iff_getElem]
    refine ⟨i, ?_, ?_⟩
    · simpa [List.length_take] using ⟨hij, lt_trans hij hj⟩
    · simp [List.getElem_take]
  have h2 : 0 < (l.drop j).countP P := by
    rw [List.countP_pos_iff]
    refine ⟨l.get ⟨j, hj⟩, ?_, hPj⟩
    rw [List.mem_iff_getElem]
    refine ⟨0, ?_, ?_⟩
    · simpa [List.length_drop] using hj
    · simp [List.getElem_drop]
  calc 2 ≤ (l.take j).countP P + (l.drop j).countP P := by omega
    _ = l.countP P := by rw [← List.countP_append, hsplit]

theorem built_id_at (l : List PageData) (idx : Nat)
    (h : idx < (l.enum.map (fun q => Page.make q.2 q.1)).length) :
    ((l.enum.map (fun q => Page.make q.2 q.1))[idx]).id = idx := by
  have h2 : idx < l.enum.length := by simpa using h
  have h3 : idx < l.length := by simpa using h2
  rw [List.getElem_map, List.getElem_enum]
  rfl

/-- Claim C5: a site configuration whose page list has two pages sharing a
non-reserved route drops neither — both reach the built page list — and
lookup by that route is deterministic first-wins: getPage returns a page
with that route whose positional id is minimal among all pages carrying the
route. -/
theorem c5_duplicate_routes (wd : WebsiteData) (l : List PageData) (i j : Nat) (r : String)
    (hl : wd.pages = some l) (hij : i < j) (hj : j < l.length)
    (hri : (l.get ⟨i, lt_trans hij hj⟩).route = r)
    (hrj : (l.get ⟨j, hj⟩).route = r)
    (hm1 : r ≠ "/@header") (hm2 : r ≠ "/@footer") :
    2 ≤ ((Website.make wd).pages.filter (fun p => p.route = r)).length ∧
    ((Website.make wd).getPage r).isSome = true ∧
    (∀ p, (Website.make wd).getPage r = some p → p.route = r ∧
       ∀ q ∈ (Website.make wd).pages, q.route = r → p.id ≤ q.id) := by
  have hcount : 2 ≤ ((Website.make wd).pages.filter (fun p => p.route = r)).length := by
    rw [← List.countP_eq_length_filter]
    simp only [Website.make, hl, Option.getD_some]
    rw [List.countP_map]
    rw [show ((fun p : Page => decide (p.route = r)) ∘ fun q : Nat × PageData =>
        Page.make q.2 q.1) = (fun q : Nat × PageData => decide (q.2.route = r)) from rfl]
    rw [show (l.filter (fun p => p.route ≠ "/@header" ∧ p.route ≠ "/@footer")).enum =
        List.enumFrom 0 (l.filter (fun p => p.route ≠ "/@header" ∧ p.route ≠ "/@footer"))
        from rfl]
    rw [countP_enumFrom (fun pd : PageData => decide (pd.route = r))]
    rw [List.countP_filter]
    refine two_le_countP l _ i j hij hj ?_ ?_
    · have h1 : l[i].route = r := by simpa using hri
      simp [h1, hm1, hm2]
    · have h1 : l[j].route = r := by simpa using hrj
      simp [h1, hm1, hm2]
  have hpos : 0 < ((Website.make wd).pages.filter (fun p => p.route = r)).length := by omega
  have hmem : ∃ p ∈ (Website.make wd).pages, p.route = r := by
    rw [← List.countP_eq_length_filter] at hpos
    rw [List.countP_pos_iff] at hpos
    obtain ⟨p, hp, hpr⟩ := hpos
    exact ⟨p, hp, by simpa using hpr⟩
  have hsome : ((Website.make wd).getPage r).isSome = true := by
    obtain ⟨p, hp, hpr⟩ := hmem
    unfold Website.getPage
    rw [List.find?_isSome]
    exact ⟨p, hp, by simpa using hpr⟩
  refine ⟨hcount, hsome, ?_⟩
  intro p hp
  have hroute : p.route = r := by
    have := List.find?_some hp
    simpa using this
  refine ⟨hroute, ?_⟩
  intro q hq hqr
  unfold Website.getPage at hp
  rw [List.find?_eq_some] at hp
  obtain ⟨hpp, as, bs, hsplit, has⟩ := hp
  have hid : ∀ idx (h : idx < (Website.make wd).pages.length),
      ((Website.make wd).pages[idx]).id = idx := by
    intro idx h
    simp only [Website.make] at h ⊢
    exact built_id_at _ idx h
  have hpid : p.id = as.length := by
    have hlen : as.length < (Website.make wd).pages.length := by
      rw [hsplit]
      simp
    have hge : (Website.make wd).pages[as.length] = p := by
      rw [List.getElem_of_eq hsplit hlen]
      rw [List.getElem_append_right (le_refl as.length)]
      simp
    have hidv := hid as.length hlen
    rw [hge] at hidv
    exact hidv
  rw [hsplit] at hq
  rcases List.mem_append.mp hq with hqa | hqb
  · exfalso
    have := has q hqa
    simp [hqr] at this
  · rcases List.mem_cons.mp hqb with hqp | hqbs
    · subst hqp
      exact le_refl _
    · obtain ⟨m, hm, hmq⟩ := List.mem_iff_getElem.mp hqbs
      have hlen2 : as.length + 1 + m < (Website.make wd).pages.length := by
        rw [hsplit]
        simp only [List.length_append, List.length_cons]
        omega
      have hge : (Website.make wd).pages[as.length + 1 + m] = q := by
        rw [List.getElem_of_eq hsplit hlen2]
        rw [List.getElem_append_right (by omega : as.length ≤ as.length + 1 + m)]
        simp only [show as.length + 1 + m - as.length = m + 1 from by omega]
        simp only [List.getElem_cons_succ]
        exact hmq
      have hidv := hid (as.length + 1 + m) hlen2
      rw [hge] at hidv
      rw [hpid, hidv]
      omega

/-! ### Claim C6: localize -/

/-- Claim C6 counterexample: the mapping with an empty entry for the active
language en makes localize return the default value, not the (empty) entry
for the requested language as the claim states. -/
theorem c6_counterexample :
    (Website.make ⟨none, .obj [], none⟩).localize (.obj [("en", .str "")])
        (.str "dflt") "" false = .str "dflt" ∧
    getF (.obj [("en", .str "")]) "en" = .str "" ∧
    (Website.make ⟨none, .obj [], none⟩).activeLang = "en" ∧
    JSVal.str "dflt" ≠ JSVal.str "" := by
  refine ⟨rfl, rfl, rfl, by simp⟩

/-- Claim C6 (amended): a plain string (one that does not look like a JSON
encoding) is returned unchanged; a mapping object yields the entry for the
requested (or active) language when that entry is truthy (non-empty), an
absent or empty entry falls back to the default language entry only when
fallbackToDefaultLang is set and otherwise to the default value; a
JSON-encoded mapping behaves exactly like the mapping itself; and a string
that starts like JSON but fails to parse is returned as a literal string. -/
theorem c6_localize_policy (w : Website) (defaultVal : JSVal) (givenLang : String)
    (fb : Bool) :
    (∀ s : String, strHeadIs s '\x7b' = false → strHeadIs s '"' = false →
        w.localize (.str s) defaultVal givenLang fb = .str s) ∧
    (∀ fs, truthy (getF (.obj fs) (effLang w givenLang)) = true →
        w.localize (.obj fs) defaultVal givenLang fb =
          getF (.obj fs) (effLang w givenLang)) ∧
    (∀ fs, truthy (getF (.obj fs) (effLang w givenLang)) = false → fb = false →
        w.localize (.obj fs) defaultVal givenLang fb = defaultVal) ∧
    (∀ fs, truthy (getF (.obj fs) (effLang w givenLang)) = false → fb = true →
        w.localize (.obj fs) defaultVal givenLang fb =
          orDefault (getF (.obj fs) (defaultLangOf w)) defaultVal) ∧
    (∀ (s : String) fs, (strHeadIs s '\x7b' = true ∨ strHeadIs s '"' = true) →
        jsonParse s = some (.obj fs) →
        w.localize (.str s) defaultVal givenLang fb =
          w.localize (.obj fs) defaultVal givenLang fb) ∧
    (∀ s : String, strHeadIs s '\x7b' = true → jsonParse s = none →
        w.localize (.str s) defaultVal givenLang fb = .str s) := by
  refine ⟨?_, ?_, ?_, ?_, ?_, ?_⟩
  · intro s h1 h2
    simp [Website.localize, h1, h2]
  · intro fs h
    have h' : truthy (fieldsGet fs (effLang w givenLang)) = true := by simpa using h
    cases fb <;> simp [Website.localize, getFC, isNullish, orDefault, h']
  · intro fs h hfb
    subst hfb
    have h' : truthy (fieldsGet fs (effLang w givenLang)) = false := by simpa using h
    simp [Website.localize, getFC, isNullish, orDefault, h']
  · intro fs h hfb
    subst hfb
    have h' : truthy (fieldsGet fs (effLang w givenLang)) = false := by simpa using h
    simp [Website.localize, getFC, isNullish, orDefault, h']
  · intro s fs hstart hp
    rcases hstart with h | h <;>
      simp [Website.localize, h, hp, getFC]
  · intro s h hp
    simp [Website.localize, h, hp]

/-- Claim C6 witness: the spec scenarios — active language fr picks Bonjour,
active language de with fallback picks the default language entry Hello, and
the JSON-encoded mapping behaves like the mapping. -/
theorem c6_localize_policy_witness :
    (Website.make ⟨none, .obj [], some ⟨some "fr", none⟩⟩).localize
        (.obj [("en", .str "Hello"), ("fr", .str "Bonjour")]) (.str "") "" false =
      .str "Bonjour" ∧
    (Website.make ⟨none, .obj [], some ⟨some "de", none⟩⟩).localize
        (.obj [("en", .str "Hello"), ("fr", .str "Bonjour")]) (.str "") "" true =
      .str "Hello" ∧
    (Website.make ⟨none, .obj [], some ⟨some "fr", none⟩⟩).localize
        (.str "\x7b\"en\":\"Hello\",\"fr\":\"Bonjour\"\x7d") (.str "") "" false =
      .str "Bonjour" := by
  refine ⟨?_, ?_, ?_⟩
  · have h := (c6_localize_policy (Website.make ⟨none, .obj [], some ⟨some "fr", none⟩⟩)
        (.str "") "" false).2.1 [("en", .str "Hello"), ("fr", .str "Bonjour")] (by rfl)
    exact h.trans (by rfl)
  · have h := (c6_localize_policy (Website.make ⟨none, .obj [], some ⟨some "de", none⟩⟩)
        (.str "") "" true).2.2.2.1 [("en", .str "Hello"), ("fr", .str "Bonjour")]
        (by rfl) rfl
    exact h.trans (by rfl)
  · have h := (c6_localize_policy (Website.make ⟨none, .obj [], some ⟨some "fr", none⟩⟩)
        (.str "") "" false).2.2.2.2.1 "\x7b\"en\":\"Hello\",\"fr\":\"Bonjour\"\x7d"
        [("en", .str "Hello"), ("fr", .str "Bonjour")] (Or.inl (by rfl)) (by rfl)
    exact h.trans (by rfl)

/-! ### Claim C9: single-flight fetch coordination (spec-modelled) -/

theorem storeGet_storeSet_same (s : EStore) (k : String) (e : EntryState) :
    storeGet (storeSet s k e) k = some e := by
  induction s with
  | nil => simp [storeSet, storeGet]
  | cons p s ih =>
      obtain ⟨k0, e0⟩ := p
      by_cases h : k0 = k
      · subst h; simp [storeSet, storeGet]
      · simp [storeSet, storeGet, h, ih]

theorem storeGet_storeSet_other (s : EStore) (k k' : String) (e : EntryState)
    (h : k ≠ k') : storeGet (storeSet s k e) k' = storeGet s k' := by
  induction s with
  | nil => simp [storeSet, storeGet, h]
  | cons p s ih =>
      obtain ⟨k0, e0⟩ := p
      by_cases h0 : k0 = k
      · subst h0; simp [storeSet, storeGet, h]
      · simp [storeSet, storeGet, h0, ih]

theorem storeGet_storeDrop_same (s : EStore) (k : String) :
    storeGet (storeDrop s k) k = none := by
  induction s with
  | nil => rfl
  | cons p s ih =>
      obtain ⟨k0, e0⟩ := p
      by_cases h : k0 = k
      · subst h; simp [storeDrop, ih]
      · simp [storeDrop, storeGet, h, ih]

theorem storeGet_storeDrop_other (s : EStore) (k k' : String) (h : k ≠ k') :
    storeGet (storeDrop s k) k' = storeGet s k' := by
  induction s with
  | nil => rfl
  | cons p s ih =>
      obtain ⟨k0, e0⟩ := p
      by_cases h0 : k0 = k
      · subst h0; simp [storeDrop, storeGet, h, ih]
      · simp [storeDrop, storeGet, h0, ih]

theorem launchCount_map_delivered (key k : String) (res : FetchResult) (ws : List Nat) :
    launchCount key (ws.map (fun r => EObs.delivered r k res)) = 0 := by
  induction ws with
  | nil => rfl
  | cons w ws ih => simpa [launchCount] using ih

theorem settledCount_map_delivered (key k : String) (res : FetchResult) (ws : List Nat) :
    settledCount key (ws.map (fun r => EObs.delivered r k res)) = 0 := by
  induction ws with
  | nil => rfl
  | cons w ws ih => simpa [settledCount] using ih

theorem launchCount_append (key : String) (a b : List EObs) :
    launchCount key (a ++ b) = launchCount key a + launchCount key b := by
  induction a with
  | nil => simp [launchCount]
  | cons o a ih =>
      cases o <;> simp [launchCount, ih] <;> omega

theorem settledCount_append (key : String) (a b : List EObs) :
    settledCount key (a ++ b) = settledCount key a + settledCount key b := by
  induction a with
  | nil => simp [settledCount]
  | cons o a ih =>
      cases o <;> simp [settledCount, ih] <;> omega

theorem entityStep_balance (s : EStore) (a : EAction) (key : String) :
    launchCount key (entityStep s a).2 + inFlight s key =
      settledCount key (entityStep s a).2 + inFlight (entityStep s a).1 key := by
  cases a with
  | request rid k =>
      simp only [entityStep]
      match hg : storeGet s k with
      | some (.pending ws) =>
          simp only [launchCount, settledCount]
          by_cases hk : k = key
          · subst hk
            simp [inFlight, hg, storeGet_storeSet_same]
          · simp [inFlight, storeGet_storeSet_other _ _ _ _ hk]
      | some (.ready d) =>
          simp [launchCount, settledCount]
      | none =>
          by_cases hk : k = key
          · subst hk
            simp [launchCount, settledCount, inFlight, hg,
              storeGet_storeSet_same]
          · simp [launchCount, settledCount, hk, inFlight,
              storeGet_storeSet_other _ _ _ _ hk]
  | complete k res =>
      simp only [entityStep]
      match hg : storeGet s k with
      | some (.pending ws) =>
          cases res with
          | ok d =>
              by_cases hk : k = key
              · subst hk
                simp [launchCount, settledCount,
                  launchCount_map_delivered, settledCount_map_delivered,
                  inFlight, hg, storeGet_storeSet_same]
              · simp [launchCount, settledCount,
                  launchCount_map_delivered, settledCount_map_delivered,
                  hk, inFlight, storeGet_storeSet_other _ _ _ _ hk]
          | fail e =>
              by_cases hk : k = key
              · subst hk
                simp [launchCount, settledCount,
                  launchCount_map_delivered, settledCount_map_delivered,
                  inFlight, hg, storeGet_storeDrop_same]
              · simp [launchCount, settledCount,
                  launchCount_map_delivered, settledCount_map_delivered,
                  hk, inFlight, storeGet_storeDrop_other _ _ _ hk]
      | some (.ready d) => simp [launchCount, settledCount]
      | none => simp [launchCount, settledCount]

theorem entityRun_balance (key : String) :
    ∀ (acts : List EAction) (s : EStore),
      launchCount key (entityRun s acts).2 + inFlight s key =
        settledCount key (entityRun s acts).2 + inFlight (entityRun s acts).1 key := by
  intro acts
  induction acts with
  | nil => intro s; simp [entityRun, launchCount, settledCount]
  | cons a rest ih =>
      intro s
      simp only [entityRun]
      have hstep := entityStep_balance s a key
      have hrest := ih (entityStep s a).1
      rw [launchCount_append, settledCount_append]
      omega

theorem inFlight_le_one (s : EStore) (key : String) : inFlight s key ≤ 1 := by
  unfold inFlight
  split <;> omega

/-- Claim C9: in the fetch coordinator, at most one underlying retrieval per
cache key is in flight at any time — along every prefix of every run the
launches for a key never exceed the settled retrievals by more than one — a
request arriving while a retrieval is pending attaches to it without
launching another, and a completion delivers the one shared result to every
attached requester. -/
theorem c9_single_flight (acts : List EAction) (key : String) :
    (∀ n, launchCount key (entityRun [] (acts.take n)).2 ≤
        settledCount key (entityRun [] (acts.take n)).2 + 1) ∧
    (∀ (s : EStore) (rid : Nat) (ws : List Nat), storeGet s key = some (.pending ws) →
        entityStep s (.request rid key) = (storeSet s key (.pending (rid :: ws)), [])) ∧
    (∀ (s : EStore) (res : FetchResult) (ws : List Nat),
        storeGet s key = some (.pending ws) →
        (entityStep s (.complete key res)).2 =
          .settled key :: ws.map (fun r => EObs.delivered r key res)) := by
  refine ⟨?_, ?_, ?_⟩
  · intro n
    have h := entityRun_balance key (acts.take n) []
    have h1 : inFlight [] key = 0 := rfl
    have h2 := inFlight_le_one (entityRun [] (acts.take n)).1 key
    omega
  · intro s rid ws hg
    simp [entityStep, hg]
  · intro s res ws hg
    cases res <;> simp [entityStep, hg]

/-- Claim C9 witness: two requesters share one retrieval; after completion a
third requester is served from the cache with no further launch. -/
theorem c9_single_flight_witness :
    launchCount "team" (entityRun [] [.request 1 "team", .request 2 "team",
        .complete "team" (.ok (.num 5)), .request 3 "team"]).2 = 1 ∧
    (entityRun [] [.request 1 "team", .request 2 "team",
        .complete "team" (.ok (.num 5)), .request 3 "team"]).2 =
      [.launched "team", .settled "team",
       .delivered 2 "team" (.ok (.num 5)), .delivered 1 "team" (.ok (.num 5)),
       .delivered 3 "team" (.ok (.num 5))] ∧
    (launchCount "team" (entityRun [] ([EAction.request 1 "team", .request 2 "team",
        .complete "team" (.ok (.num 5)), .request 3 "team"].take 2)).2 ≤
      settledCount "team" (entityRun [] ([EAction.request 1 "team", .request 2 "team",
        .complete "team" (.ok (.num 5)), .request 3 "team"].take 2)).2 + 1) ∧
    entityStep [("team", EntryState.pending [1])] (.request 2 "team") =
      (storeSet [("team", EntryState.pending [1])] "team" (.pending [2, 1]), []) := by
  refine ⟨rfl, rfl, ?_, ?_⟩
  · exact (c9_single_flight [.request 1 "team", .request 2 "team",
      .complete "team" (.ok (.num 5)), .request 3 "team"] "team").1 2
  · exact (c9_single_flight [] "team").2.1 [("team", EntryState.pending [1])] 2 [1] rfl

/-! ### Claim C10: two-phase layout protocol -/

theorem layoutTrace_split (gc : String → Option CompDef)
    (header body footer left right : Option (List RBlock)) :
    layoutTrace gc header body footer left right =
      ((initializeAllBlocks gc [header, body, footer, left, right]).flatMap
        (fun g => (g.getD []).map (fun b => LayoutEvent.initB b))) ++
      ((initializeAllBlocks gc [header, body, footer, left, right]).flatMap
        (fun g => (g.getD []).map (fun b => LayoutEvent.renderB b))) := rfl

theorem mem_initPhase_shape (gc : String → Option CompDef) (gs : List (Option (List RBlock)))
    (e : LayoutEvent)
    (he : e ∈ (initializeAllBlocks gc gs).flatMap
      (fun g => (g.getD []).map (fun b => LayoutEvent.initB b))) :
    ∃ b, e = LayoutEvent.initB b := by
  simp only [List.mem_flatMap, List.mem_map] at he
  obtain ⟨g, _, b, _, hbe⟩ := he
  exact ⟨b, hbe.symm⟩

theorem mem_renderPhase_shape (gc : String → Option CompDef) (gs : List (Option (List RBlock)))
    (e : LayoutEvent)
    (he : e ∈ (initializeAllBlocks gc gs).flatMap
      (fun g => (g.getD []).map (fun b => LayoutEvent.renderB b))) :
    ∃ b, e = LayoutEvent.renderB b := by
  simp only [List.mem_flatMap, List.mem_map] at he
  obtain ⟨g, _, b, _, hbe⟩ := he
  exact ⟨b, hbe.symm⟩

/-- Claim C10: Layout follows the two-phase protocol — in its event trace
every initialization event (one per section of every area: header, body,
footer, left, right) precedes every render event; every section of every
area is initialized in phase one, with its component resolved through the
registry and its declared default local state captured; and every rendered
section is one of the initialized sections. -/
theorem c10_two_phase_layout (gc : String → Option CompDef)
    (header body footer left right : Option (List RBlock)) :
    (∀ i j (hi : i < (layoutTrace gc header body footer left right).length)
        (hj : j < (layoutTrace gc header body footer left right).length) (b b' : RBlock),
        (layoutTrace gc header body footer left right)[i] = LayoutEvent.renderB b →
        (layoutTrace gc header body footer left right)[j] = LayoutEvent.initB b' →
        j < i) ∧
    (∀ g ∈ [header, body, footer, left, right], ∀ b0 ∈ g.getD [],
        LayoutEvent.initB (RBlock.initComponent gc b0) ∈
          layoutTrace gc header body footer left right) ∧
    (∀ b, LayoutEvent.renderB b ∈ layoutTrace gc header body footer left right →
        ∃ g ∈ [header, body, footer, left, right], ∃ b0 ∈ g.getD [],
          b = RBlock.initComponent gc b0) ∧
    (∀ b0 : RBlock, b0.Component = none →
        (RBlock.initComponent gc b0).Component = gc b0.component) ∧
    (∀ (b0 : RBlock) (c : CompDef), b0.Component = none → gc b0.component = some c →
        (RBlock.initComponent gc b0).startState =
          (if truthy (getF (orDefault c.blockDefaults (.obj [("state", c.blockState)])) "state")
           then spreadObj (getF (orDefault c.blockDefaults (.obj [("state", c.blockState)])) "state")
           else JSVal.null)) := by
  refine ⟨?_, ?_, ?_, ?_, ?_⟩
  · intro i j hi hj b b' hri hrj
    have hT := layoutTrace_split gc header body footer left right
    set A := ((initializeAllBlocks gc [header, body, footer, left, right]).flatMap
        (fun g => (g.getD []).map (fun b => LayoutEvent.initB b))) with hA
    set B := ((initializeAllBlocks gc [header, body, footer, left, right]).flatMap
        (fun g => (g.getD []).map (fun b => LayoutEvent.renderB b))) with hB
    have hiAB : i < (A ++ B).length := by rw [← hT]; exact hi
    have hjAB : j < (A ++ B).length := by rw [← hT]; exact hj
    have hgeti : (A ++ B)[i] = LayoutEvent.renderB b := by
      rw [← List.getElem_of_eq hT hi]
      exact hri
    have hgetj : (A ++ B)[j] = LayoutEvent.initB b' := by
      rw [← List.getElem_of_eq hT hj]
      exact hrj
    have hiA : ¬ i < A.length := by
      intro hlt
      have heq : (A ++ B)[i] = A[i] := List.getElem_append_left hlt
      rw [heq] at hgeti
      have hmem : A[i] ∈ A := List.getElem_mem _
      rw [hgeti] at hmem
      obtain ⟨b2, hb2⟩ := mem_initPhase_shape gc _ _ hmem
      exact LayoutEvent.noConfusion hb2
    have hjA : j < A.length := by
      by_contra hge
      push_neg at hge
      have hjb : j - A.length < B.length := by
        simp only [List.length_append] at hjAB
        omega
      have heq : (A ++ B)[j] = B[j - A.length] := List.getElem_append_right hge
      rw [heq] at hgetj
      have hmem : B[j - A.length] ∈ B := List.getElem_mem _
      rw [hgetj] at hmem
      obtain ⟨b2, hb2⟩ := mem_renderPhase_shape gc _ _ hmem
      exact LayoutEvent.noConfusion hb2
    omega
  · intro g hg b0 hb0
    rw [layoutTrace_split]
    refine List.mem_append_left _ ?_
    simp only [List.mem_flatMap, List.mem_map]
    refine ⟨Option.map (List.map (RBlock.initComponent gc)) g, ?_,
      RBlock.initComponent gc b0, ?_, rfl⟩
    · simp only [initializeAllBlocks]
      exact List.mem_map_of_mem _ hg
    · match g with
      | none => simp at hb0
      | some l =>
          simp only [Option.map_some', Option.getD_some]
          exact List.mem_map_of_mem _ hb0
  · intro b hb
    rw [layoutTrace_split] at hb
    rcases List.mem_append.mp hb with hb | hb
    · obtain ⟨b2, hb2⟩ := mem_initPhase_shape gc _ _ hb
      exact LayoutEvent.noConfusion hb2
    · simp only [initializeAllBlocks, List.mem_flatMap, List.mem_map] at hb
      obtain ⟨g2, ⟨g, hg, hgm⟩, b2, hb2, hbe⟩ := hb
      subst hgm
      match g with
      | none => simp at hb2
      | some l =>
          simp only [Option.map_some', Option.getD_some] at hb2
          obtain ⟨b0, hb0, hb0e⟩ := List.mem_map.mp hb2
          refine ⟨some l, hg, b0, by simpa using hb0, ?_⟩
          cases hbe
          exact hb0e.symm
  · intro b0 h
    unfold RBlock.initComponent
    rw [h]
    match hgc : gc b0.component with
    | none => simpa using h
    | some c => simp
  · intro b0 c h hgc
    unfold RBlock.initComponent
    rw [h, hgc]

/-- Claim C10 witness: with one header block, the trace initializes it
(resolving its component) before rendering it. -/
theorem c10_two_phase_layout_witness :
    LayoutEvent.initB (RBlock.initComponent
        (fun n => if n = "Hero" then
          some ⟨.obj [("state", .obj [("open", .bool false)])], .undef⟩ else none)
        ⟨"Hero", none, .null⟩) ∈
      layoutTrace
        (fun n => if n = "Hero" then
          some ⟨.obj [("state", .obj [("open", .bool false)])], .undef⟩ else none)
        (some [⟨"Hero", none, .null⟩]) none none none none ∧
    (RBlock.initComponent
        (fun n => if n = "Hero" then
          some ⟨.obj [("state", .obj [("open", .bool false)])], .undef⟩ else none)
        ⟨"Hero", none, .null⟩).Component =
      some ⟨.obj [("state", .obj [("open", .bool false)])], .undef⟩ ∧
    (RBlock.initComponent
        (fun n => if n = "Hero" then
          some ⟨.obj [("state", .obj [("open", .bool false)])], .undef⟩ else none)
        ⟨"Hero", none, .null⟩).startState = spreadObj (.obj [("open", .bool false)]) ∧
    (0 : Nat) < 1 := by
  refine ⟨?_, ?_, ?_, ?_⟩
  · exact (c10_two_phase_layout _ _ _ _ _ _).2.1 (some [⟨"Hero", none, .null⟩])
      (by simp) ⟨"Hero", none, .null⟩ (by simp)
  · exact ((c10_two_phase_layout
        (fun n => if n = "Hero" then
          some ⟨.obj [("state", .obj [("open", .bool false)])], .undef⟩ else none)
        (some [⟨"Hero", none, .null⟩]) none none none none).2.2.2.1
      ⟨"Hero", none, .null⟩ rfl).trans (by rfl)
  · exact ((c10_two_phase_layout
        (fun n => if n = "Hero" then
          some ⟨.obj [("state", .obj [("open", .bool false)])], .undef⟩ else none)
        (some [⟨"Hero", none, .null⟩]) none none none none).2.2.2.2
      ⟨"Hero", none, .null⟩ ⟨.obj [("state", .obj [("open", .bool false)])], .undef⟩
      rfl (by rfl)).trans (by rfl)
  · exact (c10_two_phase_layout
        (fun n => if n = "Hero" then
          some ⟨.obj [("state", .obj [("open", .bool false)])], .undef⟩ else none)
        (some [⟨"Hero", none, .null⟩]) none none none none).1 1 0
      (by decide) (by decide)
      (RBlock.initComponent
        (fun n => if n = "Hero" then
          some ⟨.obj [("state", .obj [("open", .bool false)])], .undef⟩ else none)
        ⟨"Hero", none, .null⟩)
      (RBlock.initComponent
        (fun n => if n = "Hero" then
          some ⟨.obj [("state", .obj [("open", .bool false)])], .undef⟩ else none)
        ⟨"Hero", none, .null⟩)
      rfl rfl

/-- Claim C5 witness: two pages share route /x; both survive construction and
getPage returns the first. -/
theorem c5_duplicate_routes_witness :
    2 ≤ ((Website.make ⟨some [⟨"/x", some "first", none, []⟩,
        ⟨"/x", some "second", none, []⟩], .obj [], none⟩).pages.filter
        (fun p => p.route = "/x")).length ∧
    ((Website.make ⟨some [⟨"/x", some "first", none, []⟩,
        ⟨"/x", some "second", none, []⟩], .obj [], none⟩).getPage "/x").map
      (fun p => p.title) = some "first" := by
  have h := c5_duplicate_routes
      ⟨some [⟨"/x", some "first", none, []⟩, ⟨"/x", some "second", none, []⟩], .obj [], none⟩
      [⟨"/x", some "first", none, []⟩, ⟨"/x", some "second", none, []⟩]
      0 1 "/x" rfl (by omega) (by simp) rfl rfl (by decide) (by decide)
  exact ⟨h.1, rfl⟩

/-! ### Schema application: characterization lemmas -/

theorem fieldsSet_fieldsSet (fs : List (String × JSVal)) (k : String) (a b : JSVal) :
    fieldsSet (fieldsSet fs k a) k b = fieldsSet fs k b := by
  induction fs with
  | nil => simp [fieldsSet]
  | cons p fs ih =>
      obtain ⟨k0, v0⟩ := p
      by_cases h : k0 = k
      · subst h; simp [fieldsSet]
      · simp [fieldsSet, h, ih]

theorem setField_setField (m : JSVal) (k : String) (a b : JSVal) :
    setField (setField m k a) k b = setField m k b := by
  cases m <;> simp [setField, fieldsSet_fieldsSet]

theorem procField_nonnull (rec : JSVal → JSVal → Option JSVal) (robj : JSVal)
    (fld : String) (fd : JSVal) (hfd : fd ≠ .null) :
    procField rec robj (fld, fd) =
      (pfVal rec fd (getF robj fld)).map
        (fun p => if p.2 then setField robj fld p.1 else robj) := by
  cases fd <;> first | exact absurd rfl hfd | rfl

theorem AF_zero (v s : JSVal) : AF 0 v s = none := rfl

theorem AF_nonobj (f : Nat) (v s : JSVal) (h : isObjV v = false) :
    AF (f + 1) v s = some v := by
  cases v <;> simp_all [AF, isObjV]

theorem AF_obj (f : Nat) (fs : List (String × JSVal)) (s : JSVal) :
    AF (f + 1) (.obj fs) s = List.foldlM (procField (AF f)) (.obj fs) (jsEntries s) := rfl

theorem procField_some {rec : JSVal → JSVal → Option JSVal} {robj : JSVal}
    {fld : String} {fd r : JSVal} (h : procField rec robj (fld, fd) = some r) :
    fd ≠ .null ∧ ∃ vf wr, pfVal rec fd (getF robj fld) = some (vf, wr) ∧
      r = (if wr then setField robj fld vf else robj) := by
  by_cases hfd : fd = .null
  · subst hfd
    exact absurd h (by simp [procField])
  · refine ⟨hfd, ?_⟩
    rw [procField_nonnull rec robj fld fd hfd] at h
    match hp : pfVal rec fd (getF robj fld) with
    | none => rw [hp] at h; simp at h
    | some p =>
        rw [hp] at h
        simp only [Option.map_some'] at h
        simp only [Option.some_inj] at h
        exact ⟨p.1, p.2, rfl, h.symm⟩

/-! ### Schema defaulting: helper lemmas towards stability and idempotence -/

theorem WFJS_nodup {v : JSVal} (h : WFJS v) : keysNodup (jsEntries v) = true := by
  cases h with | mk _ h1 _ => exact h1

theorem WFJS_entry {v : JSVal} (h : WFJS v) {p : String × JSVal}
    (hp : p ∈ jsChildren v) : WFJS p.2 := by
  cases h with | mk _ _ h2 => exact h2 p hp

theorem getF_truthy_obj {v : JSVal} (k : String) (h : truthy (getF v k) = true) :
    isObjV v = true := by
  cases v <;> simp_all [getF, truthy, isObjV]

theorem WFJS_entry_obj {v : JSVal} (h : WFJS v) {p : String × JSVal}
    (hp : p ∈ jsEntries v) (hobj : isObjV p.2 = true) : WFJS p.2 := by
  cases v with
  | obj fs => exact WFJS_entry h hp
  | arr xs => exact WFJS_entry h hp
  | str t =>
      exfalso
      simp only [jsEntries, List.mem_map] at hp
      obtain ⟨q, -, he⟩ := hp
      have : p.2 = .str (String.mk [q.2]) := by rw [← he]
      rw [this] at hobj
      simp [isObjV] at hobj
  | undef => simp [jsEntries] at hp
  | null => simp [jsEntries] at hp
  | bool b => simp [jsEntries] at hp
  | num n => simp [jsEntries] at hp

theorem WFJS_undef : WFJS .undef :=
  WFJS.mk _ rfl (by intro p hp; simp [jsChildren] at hp)

theorem fieldsGet_mem (fs : List (String × JSVal)) (k : String)
    (h : fieldsGet fs k ≠ .undef) : (k, fieldsGet fs k) ∈ fs := by
  induction fs with
  | nil => simp [fieldsGet] at h
  | cons p fs ih =>
      obtain ⟨k0, v0⟩ := p
      by_cases h0 : k0 = k
      · subst h0; simp [fieldsGet]
      · simp only [fieldsGet, if_neg h0] at h
        simp only [fieldsGet, if_neg h0]
        exact List.mem_cons_of_mem _ (ih h)

theorem WFJS_getF {v : JSVal} (h : WFJS v) (k : String) : WFJS (getF v k) := by
  cases v with
  | obj fs =>
      by_cases hu : fieldsGet fs k = .undef
      · rw [getF_obj, hu]; exact WFJS_undef
      · have hm : (k, fieldsGet fs k) ∈ jsChildren (.obj fs) := fieldsGet_mem fs k hu
        rw [getF_obj]
        exact WFJS_entry h hm
  | undef => exact WFJS_undef
  | null => exact WFJS_undef
  | bool b => exact WFJS_undef
  | num n => exact WFJS_undef
  | str s => exact WFJS_undef
  | arr xs => exact WFJS_undef

theorem jsEqSVZ_arr (x : JSVal) (ys : List JSVal) : jsEqSVZ x (.arr ys) = false := by
  cases x <;> rfl

theorem jsEqSVZ_obj (x : JSVal) (fs : List (String × JSVal)) :
    jsEqSVZ x (.obj fs) = false := by
  cases x <;> rfl

theorem jsIncludes_arr (os : List JSVal) (ys : List JSVal) :
    jsIncludes os (.arr ys) = false := by
  simp [jsIncludes, List.any_eq_false, jsEqSVZ_arr]

theorem jsIncludes_obj (os : List JSVal) (fs : List (String × JSVal)) :
    jsIncludes os (.obj fs) = false := by
  simp [jsIncludes, List.any_eq_false, jsEqSVZ_obj]

theorem truthy_of_isObj {w : JSVal} (h : isObjV w = true) : truthy w = true := by
  cases w <;> simp_all [isObjV, truthy]

theorem foldlM_nil_opt {α β : Type} (f : β → α → Option β) (b : β) :
    List.foldlM f b [] = some b := rfl

theorem foldlM_cons_some {α β : Type} {f : β → α → Option β} {b : β} {a : α}
    {as : List α} {w : β} (h : List.foldlM f b (a :: as) = some w) :
    ∃ b1, f b a = some b1 ∧ List.foldlM f b1 as = some w := by
  rw [List.foldlM_cons] at h
  cases hr : f b a with
  | none => rw [hr] at h; simp at h
  | some b1 =>
      rw [hr] at h
      simp only [Option.bind_eq_bind, Option.some_bind] at h
      exact ⟨b1, rfl, h⟩

theorem foldlM_cons_step {α β : Type} (f : β → α → Option β) {b b1 : β} {a : α}
    (as : List α) (h1 : f b a = some b1) :
    List.foldlM f b (a :: as) = List.foldlM f b1 as := by
  rw [List.foldlM_cons, h1]
  simp only [Option.bind_eq_bind, Option.some_bind]

theorem foldlM_congr_opt {α β : Type} {f g : β → α → Option β} :
    ∀ (as : List α) (b : β), (∀ r, ∀ a ∈ as, f r a = g r a) →
    List.foldlM f b as = List.foldlM g b as := by
  intro as
  induction as with
  | nil => intro b _; rfl
  | cons a as ih =>
      intro b h
      rw [List.foldlM_cons, List.foldlM_cons, h b a (List.mem_cons_self a as)]
      cases g b a with
      | none => rfl
      | some b1 =>
          simp only [Option.bind_eq_bind, Option.some_bind]
          exact ih b1 (fun r a' ha' => h r a' (List.mem_cons_of_mem _ ha'))

theorem foldlM_const_opt {α β : Type} {f : β → α → Option β} {m : β} :
    ∀ (as : List α), (∀ a ∈ as, f m a = some m) → List.foldlM f m as = some m := by
  intro as
  induction as with
  | nil => intro _; rfl
  | cons a as ih =>
      intro h
      rw [foldlM_cons_step f as (h a (List.mem_cons_self a as))]
      exact ih (fun a' ha' => h a' (List.mem_cons_of_mem _ ha'))

theorem keysNodup_cons {k : String} {v : JSVal} {fs : List (String × JSVal)}
    (h : keysNodup ((k, v) :: fs) = true) :
    (∀ e ∈ fs, e.1 ≠ k) ∧ keysNodup fs = true := by
  simp only [keysNodup, Bool.and_eq_true, Bool.not_eq_true'] at h
  refine ⟨?_, h.2⟩
  intro e he hek
  have := List.any_eq_false.mp h.1 e he
  simp [hek] at this

theorem fieldsGet_of_mem_nodup : ∀ (fs : List (String × JSVal)) (k : String) (v : JSVal),
    keysNodup fs = true → (k, v) ∈ fs → fieldsGet fs k = v := by
  intro fs
  induction fs with
  | nil => intro k v _ hm; simp at hm
  | cons p fs ih =>
      intro k v hnd hm
      obtain ⟨k0, v0⟩ := p
      obtain ⟨hks, hnd'⟩ := keysNodup_cons hnd
      rcases List.mem_cons.mp hm with he | hm'
      · obtain ⟨h1, h2⟩ := Prod.mk.injEq .. ▸ he
        injection he with he1
        rw [← h1, ← h2]
        simp [fieldsGet]
      · have hne : k0 ≠ k := by
          intro hk; exact hks (k, v) hm' (by rw [hk])
        simp only [fieldsGet, if_neg hne]
        exact ih k v hnd' hm'

theorem hasKey_of_mem {fs : List (String × JSVal)} {k : String} {v : JSVal}
    (h : (k, v) ∈ fs) : hasKey fs k = true := by
  simp only [hasKey, List.any_eq_true]
  exact ⟨(k, v), h, by simp⟩

theorem fieldsSet_self_hasKey : ∀ (fs : List (String × JSVal)) (k : String),
    hasKey fs k = true → fieldsSet fs k (fieldsGet fs k) = fs := by
  intro fs
  induction fs with
  | nil => intro k h; simp [hasKey] at h
  | cons p fs ih =>
      intro k h
      obtain ⟨k0, v0⟩ := p
      by_cases h0 : k0 = k
      · subst h0; simp [fieldsGet, fieldsSet]
      · simp only [fieldsGet, fieldsSet, if_neg h0]
        simp only [hasKey, List.any_eq_true] at h
        obtain ⟨q, hq, hqk⟩ := h
        rcases List.mem_cons.mp hq with he | hq'
        · exfalso; apply h0; rw [he] at hqk; simpa using hqk
        · rw [ih k (by simp only [hasKey, List.any_eq_true]; exact ⟨q, hq', hqk⟩)]

theorem orDefault_idem (x d : JSVal) : orDefault (orDefault x d) d = orDefault x d := by
  by_cases hx : truthy x = true
  · simp [orDefault, hx]
  · simp only [orDefault, if_neg hx]
    split <;> rfl

theorem orDefault_of_truthy {v : JSVal} (d : JSVal) (h : truthy v = true) :
    orDefault v d = v := by
  simp [orDefault, h]

theorem truthy_orDefault_obj (v : JSVal) (fs : List (String × JSVal)) :
    truthy (orDefault v (.obj fs)) = true := by
  by_cases hv : truthy v = true
  · rw [orDefault_of_truthy _ hv]; exact hv
  · simp only [orDefault, if_neg hv]
    rfl

theorem isStrEqV_object_array {ty : JSVal} (h : isStrEqV ty "object" = true) :
    isStrEqV ty "array" = false := by
  cases ty with
  | str t =>
      simp only [isStrEqV, decide_eq_true_eq] at h
      subst h
      decide
  | undef => rfl
  | null => rfl
  | bool b => rfl
  | num n => rfl
  | arr xs => rfl
  | obj fs => rfl

theorem isStrEqV_array_object {ty : JSVal} (h : isStrEqV ty "array" = true) :
    isStrEqV ty "object" = false := by
  cases ty with
  | str t =>
      simp only [isStrEqV, decide_eq_true_eq] at h
      subst h
      decide
  | undef => rfl
  | null => rfl
  | bool b => rfl
  | num n => rfl
  | arr xs => rfl
  | obj fs => rfl

theorem pfDefOpts_fill (fd : JSVal) (hd : isUndef (getF fd "default") = false) :
    pfDefOpts fd .undef = (getF fd "default", true) := by
  simp only [pfDefOpts, show isUndef JSVal.undef = true from rfl, hd, Bool.not_false,
    Bool.and_self, if_true]
  cases hop : getF fd "options" with
  | arr os => split <;> simp
  | undef => rfl
  | null => rfl
  | bool b => rfl
  | num n => rfl
  | str t => rfl
  | obj fs => rfl

theorem pfDefOpts_keep_noopts (fd v : JSVal) (hv : isUndef v = false)
    (hop : getF fd "options" = .undef) : pfDefOpts fd v = (v, false) := by
  simp only [pfDefOpts, hv, Bool.false_and, Bool.false_eq_true, if_false, hop]

theorem pfDefOpts_reset (fd v : JSVal) {os : List JSVal} (hv : isUndef v = false)
    (hop : getF fd "options" = .arr os) (hni : jsIncludes os v = false)
    (hd : isUndef (getF fd "default") = false) :
    pfDefOpts fd v = (getF fd "default", true) := by
  simp only [pfDefOpts, hv, Bool.false_and, Bool.false_eq_true, if_false, hop,
    hni, hd, Bool.not_false, Bool.and_self, if_true]

theorem pfDefOpts_pass2 (fd u : JSVal) (hu : isUndef u = false) :
    pfDefOpts fd u = (u, false) ∨
    (∃ os, getF fd "options" = .arr os ∧ jsIncludes os u = false ∧
      isUndef (getF fd "default") = false ∧
      pfDefOpts fd u = (getF fd "default", true)) := by
  simp only [pfDefOpts, hu, Bool.false_and, Bool.false_eq_true, if_false]
  cases hop : getF fd "options" with
  | arr os =>
      by_cases hni : jsIncludes os u = true
      · left; simp [hni]
      · replace hni : jsIncludes os u = false := by
          cases hni2 : jsIncludes os u
          · rfl
          · exact absurd hni2 hni
        by_cases hd : isUndef (getF fd "default") = true
        · left; simp [hd]
        · replace hd : isUndef (getF fd "default") = false := by
            cases hd2 : isUndef (getF fd "default")
            · rfl
            · exact absurd hd2 hd
          right
          exact ⟨os, rfl, hni, hd, by simp [hni, hd]⟩
  | undef => left; rfl
  | null => left; rfl
  | bool b => left; rfl
  | num n => left; rfl
  | str t => left; rfl
  | obj fs => left; rfl

theorem pfDefOpts_cases (fd v : JSVal) :
    pfDefOpts fd v = (v, false) ∨
    (pfDefOpts fd v = (getF fd "default", true) ∧
      isUndef (getF fd "default") = false) := by
  by_cases hb : (isUndef v && !(isUndef (getF fd "default"))) = true
  · right
    have hd : isUndef (getF fd "default") = false := by
      simp only [Bool.and_eq_true, Bool.not_eq_true'] at hb
      exact hb.2
    refine ⟨?_, hd⟩
    simp only [pfDefOpts, hb, if_true]
    cases hop : getF fd "options" with
    | arr os => split <;> simp
    | undef => rfl
    | null => rfl
    | bool b => rfl
    | num n => rfl
    | str t => rfl
    | obj fs => rfl
  · have hb' : (isUndef v && !(isUndef (getF fd "default"))) = false := by
      cases hx : (isUndef v && !(isUndef (getF fd "default")))
      · rfl
      · exact absurd hx hb
    simp only [pfDefOpts, hb', Bool.false_eq_true, if_false]
    cases hop : getF fd "options" with
    | arr os =>
        by_cases hc : (!(isUndef v) && !(jsIncludes os v) &&
            !(isUndef (getF fd "default"))) = true
        · right
          have hd : isUndef (getF fd "default") = false := by
            simp only [Bool.and_eq_true, Bool.not_eq_true'] at hc
            exact hc.2
          exact ⟨by simp [hc], hd⟩
        · left; simp [hc]
    | undef => left; rfl
    | null => left; rfl
    | bool b => left; rfl
    | num n => left; rfl
    | str t => left; rfl
    | obj fs => left; rfl

theorem pfDefOpts_flag_true {fd v x : JSVal} (h : pfDefOpts fd v = (x, true)) :
    x = getF fd "default" ∧ isUndef (getF fd "default") = false := by
  rcases pfDefOpts_cases fd v with he | ⟨he, hd⟩
  · rw [he] at h
    simp only [Prod.mk.injEq] at h
    exact absurd h.2 (by simp)
  · rw [he] at h
    simp only [Prod.mk.injEq] at h
    exact ⟨h.1.symm, hd⟩

theorem pfDefOpts_flag_false {fd v x : JSVal} (h : pfDefOpts fd v = (x, false)) :
    x = v := by
  rcases pfDefOpts_cases fd v with he | ⟨he, hd⟩
  · rw [he] at h
    simp only [Prod.mk.injEq] at h
    exact h.1.symm
  · rw [he] at h
    simp only [Prod.mk.injEq] at h
    exact absurd h.2 (by simp)

theorem pfDefOpts_inv (fd v : JSVal) {os : List JSVal} {v2 : JSVal} {b2 : Bool}
    (hop : getF fd "options" = .arr os) (hd : isUndef (getF fd "default") = false)
    (h : pfDefOpts fd v = (v2, b2)) (hnu : isUndef v2 = false) :
    jsIncludes os v2 = true ∨ v2 = getF fd "default" := by
  by_cases hb : (isUndef v && !(isUndef (getF fd "default"))) = true
  · rcases pfDefOpts_cases fd v with he | ⟨he, -⟩
    · rw [he] at h
      simp only [Prod.mk.injEq] at h
      have hvv : isUndef v = true := by
        simp only [Bool.and_eq_true] at hb
        exact hb.1
      rw [← h.1] at hnu
      exact absurd hvv (by rw [hnu]; simp)
    · rw [he] at h
      simp only [Prod.mk.injEq] at h
      right; exact h.1.symm
  · have hb' : (isUndef v && !(isUndef (getF fd "default"))) = false := by
      cases hx : (isUndef v && !(isUndef (getF fd "default")))
      · rfl
      · exact absurd hx hb
    by_cases hc : (!(isUndef v) && !(jsIncludes os v) &&
        !(isUndef (getF fd "default"))) = true
    · have he : pfDefOpts fd v = (getF fd "default", true) := by
        simp only [pfDefOpts, hb', Bool.false_eq_true, if_false, hop, hc, if_true]
      rw [he] at h
      simp only [Prod.mk.injEq] at h
      right; exact h.1.symm
    · have hc' : (!(isUndef v) && !(jsIncludes os v) &&
          !(isUndef (getF fd "default"))) = false := by
        cases hx : (!(isUndef v) && !(jsIncludes os v) && !(isUndef (getF fd "default")))
        · rfl
        · exact absurd hx hc
      have he : pfDefOpts fd v = (v, false) := by
        simp only [pfDefOpts, hb', Bool.false_eq_true, if_false, hop, hc', if_false]
      rw [he] at h
      simp only [Prod.mk.injEq] at h
      obtain ⟨hv2, -⟩ := h
      subst hv2
      left
      simp only [hnu, hd, Bool.not_false, Bool.true_and, Bool.and_true] at hc'
      simpa using hc'

theorem truthy_arr (xs : List JSVal) : truthy (.arr xs) = true := rfl

theorem truthy_obj (fs : List (String × JSVal)) : truthy (.obj fs) = true := rfl

theorem jsTypeofObj_obj (fs : List (String × JSVal)) :
    jsTypeofObj (.obj fs) = true := rfl

theorem isUndef_of_truthy {v : JSVal} (h : truthy v = true) : isUndef v = false := by
  cases v <;> simp_all [truthy, isUndef]

theorem pfNest_keep {rec : JSVal → JSVal → Option JSVal} {fd x : JSVal} {b : Bool}
    (h1 : (isStrEqV (getF fd "type") "object" && truthy (getF fd "schema") &&
      truthy x) = false)
    (h2 : (isStrEqV (getF fd "type") "array" && truthy (getF fd "of") &&
      truthy x) = false) :
    pfNest rec fd (x, b) = some (x, b) := by
  simp only [pfNest, h1, Bool.false_eq_true, if_false, Option.bind_eq_bind,
    Option.some_bind, h2]

theorem pfNest_obj {rec : JSVal → JSVal → Option JSVal} {fd x w : JSVal} {b : Bool}
    (ht : isStrEqV (getF fd "type") "object" = true)
    (hs : truthy (getF fd "schema") = true) (hx : truthy x = true)
    (hr : rec x (getF fd "schema") = some w) :
    pfNest rec fd (x, b) = some (w, true) := by
  have ha := isStrEqV_object_array ht
  simp only [pfNest, ht, hs, hx, Bool.and_self, if_true, hr, Option.map_some',
    Option.bind_eq_bind, Option.some_bind, ha, Bool.false_and, Bool.false_eq_true,
    if_false, Bool.true_and]

theorem pfNest_arr {rec : JSVal → JSVal → Option JSVal} {fd : JSVal} {b : Bool}
    {xs ys : List JSVal}
    (ht : isStrEqV (getF fd "type") "array" = true)
    (ho : truthy (getF fd "of") = true)
    (hto : jsTypeofObj (getF fd "of") = true)
    (hm : mapOpt (fun it => rec it (getF fd "of")) xs = some ys) :
    pfNest rec fd (.arr xs, b) = some (.arr ys, true) := by
  have hno := isStrEqV_array_object ht
  simp only [pfNest, hno, Bool.false_and, Bool.false_eq_true, if_false,
    Option.bind_eq_bind, Option.some_bind, ht, ho, truthy_arr, Bool.and_self, if_true,
    Bool.true_and, hto, hm, Option.map_some']

theorem pfNest_arr_keep {rec : JSVal → JSVal → Option JSVal} {fd x : JSVal} {b : Bool}
    (ht : isStrEqV (getF fd "type") "array" = true)
    (ho : truthy (getF fd "of") = true) (hx : truthy x = true)
    (hto : jsTypeofObj (getF fd "of") = false) :
    pfNest rec fd (x, b) = some (x, b) := by
  have hno := isStrEqV_array_object ht
  simp only [pfNest, hno, Bool.false_and, Bool.false_eq_true, if_false,
    Option.bind_eq_bind, Option.some_bind, ht, ho, hx, Bool.and_self, if_true,
    Bool.true_and, hto]

theorem pfNest_inv {rec : JSVal → JSVal → Option JSVal} {fd x y : JSVal} {b c : Bool}
    (h : pfNest rec fd (x, b) = some (y, c)) :
    ((isStrEqV (getF fd "type") "object" && truthy (getF fd "schema") &&
        truthy x) = true ∧
      rec x (getF fd "schema") = some y ∧ c = true) ∨
    ((isStrEqV (getF fd "type") "object" && truthy (getF fd "schema") &&
        truthy x) = false ∧
      (isStrEqV (getF fd "type") "array" && truthy (getF fd "of") &&
        truthy x) = true ∧
      jsTypeofObj (getF fd "of") = true ∧
      (∃ xs ys, x = .arr xs ∧ mapOpt (fun it => rec it (getF fd "of")) xs = some ys ∧
        y = .arr ys ∧ c = true)) ∨
    ((isStrEqV (getF fd "type") "object" && truthy (getF fd "schema") &&
        truthy x) = false ∧
      ((isStrEqV (getF fd "type") "array" && truthy (getF fd "of") &&
          truthy x) = false ∨
        jsTypeofObj (getF fd "of") = false) ∧
      y = x ∧ c = b) := by
  by_cases h1 : (isStrEqV (getF fd "type") "object" && truthy (getF fd "schema") &&
      truthy x) = true
  · left
    have hto : isStrEqV (getF fd "type") "object" = true := by
      simp only [Bool.and_eq_true] at h1; exact h1.1.1
    have ha := isStrEqV_object_array hto
    simp only [pfNest, h1, if_true] at h
    cases hr : rec x (getF fd "schema") with
    | none => rw [hr] at h; simp at h
    | some w =>
        rw [hr] at h
        simp only [Option.map_some', Option.bind_eq_bind, Option.some_bind, ha,
          Bool.false_and, Bool.false_eq_true, if_false, Option.some_inj,
          Prod.mk.injEq] at h
        exact ⟨h1, congrArg some h.1, h.2.symm⟩
  · have h1' : (isStrEqV (getF fd "type") "object" && truthy (getF fd "schema") &&
        truthy x) = false := by
      cases hx : (isStrEqV (getF fd "type") "object" && truthy (getF fd "schema") &&
        truthy x)
      · rfl
      · exact absurd hx h1
    by_cases h2 : (isStrEqV (getF fd "type") "array" && truthy (getF fd "of") &&
        truthy x) = true
    · by_cases hto : jsTypeofObj (getF fd "of") = true
      · simp only [pfNest, h1', Bool.false_eq_true, if_false, Option.bind_eq_bind,
          Option.some_bind, h2, if_true, hto] at h
        cases x with
        | arr xs =>
            replace h : Option.map (fun ys => (JSVal.arr ys, true))
                (mapOpt (fun it => rec it (getF fd "of")) xs) = some (y, c) := h
            cases hm : mapOpt (fun it => rec it (getF fd "of")) xs with
            | none => rw [hm] at h; simp at h
            | some ys =>
                rw [hm] at h
                simp only [Option.map_some', Option.some_inj, Prod.mk.injEq] at h
                exact Or.inr (Or.inl ⟨h1', h2, hto, xs, ys, rfl, hm, h.1.symm, h.2.symm⟩)
        | undef => exact Option.noConfusion h
        | null => exact Option.noConfusion h
        | bool bb => exact Option.noConfusion h
        | num n => exact Option.noConfusion h
        | str t => exact Option.noConfusion h
        | obj fs => exact Option.noConfusion h
      · have hto' : jsTypeofObj (getF fd "of") = false := by
          cases hx : jsTypeofObj (getF fd "of")
          · rfl
          · exact absurd hx hto
        simp only [pfNest, h1', Bool.false_eq_true, if_false, Option.bind_eq_bind,
          Option.some_bind, h2, if_true, hto', Option.some_inj, Prod.mk.injEq] at h
        exact Or.inr (Or.inr ⟨h1', Or.inr hto', h.1.symm, h.2.symm⟩)
    · have h2' : (isStrEqV (getF fd "type") "array" && truthy (getF fd "of") &&
          truthy x) = false := by
        cases hx : (isStrEqV (getF fd "type") "array" && truthy (getF fd "of") &&
          truthy x)
        · rfl
        · exact absurd hx h2
      simp only [pfNest, h1', Bool.false_eq_true, if_false, Option.bind_eq_bind,
        Option.some_bind, h2', Option.some_inj, Prod.mk.injEq] at h
      exact Or.inr (Or.inr ⟨h1', Or.inl h2', h.1.symm, h.2.symm⟩)

theorem pfVal_eq (rec : JSVal → JSVal → Option JSVal) (fd v : JSVal) :
    pfVal rec fd v = pfNest rec fd (pfDefOpts fd v) := rfl

theorem pfVal_flag_false {rec : JSVal → JSVal → Option JSVal} {fd v vv : JSVal}
    (h : pfVal rec fd v = some (vv, false)) : vv = v := by
  cases hp : pfDefOpts fd v with
  | mk x b =>
      rw [pfVal_eq, hp] at h
      rcases pfNest_inv h with ⟨-, -, hc⟩ | ⟨-, -, -, xs, ys, -, -, -, hc⟩ |
        ⟨-, -, hyx, hcb⟩
      · exact absurd hc (by simp)
      · exact absurd hc (by simp)
      · rw [hyx]
        exact pfDefOpts_flag_false (by rw [hp, ← hcb])

theorem pfVal_true_ne_undef {rec : JSVal → JSVal → Option JSVal} {fd v vf : JSVal}
    (Hout : ∀ a t b, rec a t = some b →
      (isObjV a = false → b = a) ∧ (isObjV a = true → isObjV b = true))
    (h : pfVal rec fd v = some (vf, true)) : isUndef vf = false := by
  cases hp : pfDefOpts fd v with
  | mk x b =>
      rw [pfVal_eq, hp] at h
      rcases pfNest_inv h with ⟨hcnd, hr, -⟩ | ⟨-, -, -, xs, ys, -, -, hy, -⟩ |
        ⟨-, -, hyx, hcb⟩
      · have hx : truthy x = true := by
          simp only [Bool.and_eq_true] at hcnd; exact hcnd.2
        by_cases ho : isObjV x = true
        · have hw := (Hout x _ vf hr).2 ho
          cases vf <;> simp_all [isObjV, isUndef]
        · have hxo : isObjV x = false := by
            cases hz : isObjV x
            · rfl
            · exact absurd hz ho
          rw [(Hout x _ vf hr).1 hxo]
          exact isUndef_of_truthy hx
      · rw [hy]; rfl
      · obtain ⟨hxd, hd⟩ := pfDefOpts_flag_true (show pfDefOpts fd v = (x, true) by
          rw [hp, ← hcb])
        rw [hyx, hxd]; exact hd

theorem foldPF_obj {rec : JSVal → JSVal → Option JSVal} :
    ∀ (entries : List (String × JSVal)) {robj w : JSVal},
    isObjV robj = true → List.foldlM (procField rec) robj entries = some w →
    isObjV w = true := by
  intro entries
  induction entries with
  | nil =>
      intro robj w hobj h
      rw [foldlM_nil_opt] at h
      rw [← Option.some_inj.mp h]
      exact hobj
  | cons e es ih =>
      intro robj w hobj h
      obtain ⟨r1, h1, h2⟩ := foldlM_cons_some h
      obtain ⟨k, fd⟩ := e
      obtain ⟨hfd, vf, wr, hpf, hr1⟩ := procField_some h1
      have hro1 : isObjV r1 = true := by
        rw [hr1]; split
        · exact setField_isObj _ _ _ hobj
        · exact hobj
      exact ih hro1 h2

theorem foldPF_untouched {rec : JSVal → JSVal → Option JSVal} :
    ∀ (entries : List (String × JSVal)) {robj w : JSVal} {k : String},
    (∀ e ∈ entries, e.1 ≠ k) →
    List.foldlM (procField rec) robj entries = some w →
    getF w k = getF robj k := by
  intro entries
  induction entries with
  | nil =>
      intro robj w k _ h
      rw [foldlM_nil_opt] at h
      rw [← Option.some_inj.mp h]
  | cons e es ih =>
      intro robj w k hks h
      obtain ⟨r1, h1, h2⟩ := foldlM_cons_some h
      obtain ⟨k0, fd⟩ := e
      obtain ⟨hfd, vf, wr, hpf, hr1⟩ := procField_some h1
      have hne : k0 ≠ k := hks (k0, fd) (List.mem_cons_self _ _)
      have hg1 : getF r1 k = getF robj k := by
        rw [hr1]; split
        · exact getF_setField_ne robj k0 k vf hne
        · rfl
      rw [ih (fun e' he' => hks e' (List.mem_cons_of_mem _ he')) h2, hg1]

theorem AF_out : ∀ {f : Nat} {v s w : JSVal}, AF f v s = some w →
    (isObjV v = false → w = v) ∧ (isObjV v = true → isObjV w = true) := by
  intro f v s w h
  cases f with
  | zero => rw [AF_zero] at h; exact Option.noConfusion h
  | succ f =>
      by_cases hov : isObjV v = true
      · refine ⟨fun hc => absurd hov (by rw [hc]; simp), fun _ => ?_⟩
        cases v <;> simp [isObjV] at hov
        rw [AF_obj] at h
        exact foldPF_obj _ (show isObjV (JSVal.obj _) = true from rfl) h
      · have hov' : isObjV v = false := by
          cases hz : isObjV v
          · rfl
          · exact absurd hz hov
        rw [AF_nonobj f v s hov'] at h
        exact ⟨fun _ => (Option.some_inj.mp h).symm, fun hc => absurd hc (by simp [hov'])⟩

theorem mapOpt_cons_some {g : JSVal → Option JSVal} {x : JSVal} {xs zs : List JSVal}
    (h : mapOpt g (x :: xs) = some zs) :
    ∃ y ys, g x = some y ∧ mapOpt g xs = some ys ∧ zs = y :: ys := by
  simp only [mapOpt, Option.bind_eq_bind] at h
  cases hy : g x with
  | none => rw [hy] at h; simp at h
  | some y =>
      rw [hy] at h
      simp only [Option.some_bind] at h
      cases hys : mapOpt g xs with
      | none => rw [hys] at h; simp at h
      | some ys =>
          rw [hys] at h
          simp only [Option.some_bind, Option.pure_def, Option.some_inj] at h
          exact ⟨y, ys, rfl, rfl, h.symm⟩

theorem mapOpt_cons_eq (g : JSVal → Option JSVal) {x y : JSVal} {xs ys : List JSVal}
    (hy : g x = some y) (hys : mapOpt g xs = some ys) :
    mapOpt g (x :: xs) = some (y :: ys) := by
  simp only [mapOpt, Option.bind_eq_bind, hy, Option.some_bind, hys,
    Option.pure_def]

theorem mapOpt_idem {g : JSVal → Option JSVal}
    (hg : ∀ a b, g a = some b → g b = some b) :
    ∀ {xs ys : List JSVal}, mapOpt g xs = some ys → mapOpt g ys = some ys := by
  intro xs
  induction xs with
  | nil =>
      intro ys h
      simp only [mapOpt, Option.some_inj] at h
      rw [← h]
      rfl
  | cons x xs ih =>
      intro ys h
      obtain ⟨y, ys', hy, hxs, rfl⟩ := mapOpt_cons_some h
      exact mapOpt_cons_eq g (hg _ _ hy) (ih hxs)

theorem mapOpt_congr {g g' : JSVal → Option JSVal} :
    ∀ (xs : List JSVal), (∀ x ∈ xs, g x = g' x) → mapOpt g xs = mapOpt g' xs := by
  intro xs
  induction xs with
  | nil => intro _; rfl
  | cons x xs ih =>
      intro h
      simp only [mapOpt, Option.bind_eq_bind, h x (List.mem_cons_self x xs),
        ih (fun x' hx' => h x' (List.mem_cons_of_mem _ hx'))]

theorem pfVal_stable {rec : JSVal → JSVal → Option JSVal} {fd v vf : JSVal} {wr : Bool}
    (Hout : ∀ a t b, rec a t = some b →
      (isObjV a = false → b = a) ∧ (isObjV a = true → isObjV b = true))
    (HS : truthy (getF fd "schema") = true →
      ∀ a b, rec a (getF fd "schema") = some b → rec b (getF fd "schema") = some b)
    (HO : truthy (getF fd "of") = true →
      ∀ a b, rec a (getF fd "of") = some b → rec b (getF fd "of") = some b)
    (h : pfVal rec fd v = some (vf, wr)) :
    ∃ wr', pfVal rec fd vf = some (vf, wr') := by
  have h0 := h
  by_cases hvfu : isUndef vf = true
  · -- an undefined result means every stage kept the incoming value, so the
    -- second pass is the very same computation
    rw [isUndef_iff] at hvfu
    subst hvfu
    cases hp : pfDefOpts fd v with
    | mk x b =>
        rw [pfVal_eq, hp] at h
        rcases pfNest_inv h with ⟨hcnd, hr, -⟩ | ⟨-, -, -, xs, ys, -, -, hy, -⟩ |
          ⟨-, -, hyx, hcb⟩
        · simp only [Bool.and_eq_true] at hcnd
          obtain ⟨⟨hto, hsub⟩, hx⟩ := hcnd
          by_cases ho : isObjV x = true
          · have hbad := (Hout x _ _ hr).2 ho
            simp [isObjV] at hbad
          · have hxo : isObjV x = false := by
              cases hz : isObjV x
              · rfl
              · exact absurd hz ho
            have hxu := (Hout x _ _ hr).1 hxo
            rw [← hxu] at hx
            simp [truthy] at hx
        · exact absurd hy (by simp)
        · by_cases hb : b = true
          · rw [hb] at hp
            obtain ⟨hxd, hd⟩ := pfDefOpts_flag_true hp
            rw [hxd] at hyx
            exact absurd hd (by rw [← hyx]; simp [isUndef])
          · have hb' : b = false := by
              cases b
              · rfl
              · exact absurd rfl hb
            rw [hb'] at hp
            have hxv := pfDefOpts_flag_false hp
            have hv : v = .undef := by rw [← hxv, ← hyx]
            refine ⟨wr, ?_⟩
            rw [← hv] at h0 ⊢
            exact h0
  · have hvf : isUndef vf = false := by
      cases hz : isUndef vf
      · rfl
      · exact absurd hz hvfu
    cases hp : pfDefOpts fd v with
    | mk x b =>
    rw [pfVal_eq, hp] at h
    rcases pfNest_inv h with ⟨hcnd, hr, -⟩ |
      ⟨-, hcnd2, hto2, xs, ys, hxeq, hmap, hyeq, -⟩ | ⟨hc1, hc2or, hyx, hcb⟩
    · -- pass one ran the nested object sub-schema
      simp only [Bool.and_eq_true] at hcnd
      obtain ⟨⟨hto, hsub⟩, hx⟩ := hcnd
      have htv : truthy vf = true := by
        by_cases ho : isObjV x = true
        · exact truthy_of_isObj ((Hout x _ _ hr).2 ho)
        · have hxo : isObjV x = false := by
            cases hz : isObjV x
            · rfl
            · exact absurd hz ho
          rw [(Hout x _ _ hr).1 hxo]
          exact hx
      rcases pfDefOpts_pass2 fd vf hvf with hkeep | ⟨os, hop, hni, hd, hreset⟩
      · refine ⟨true, ?_⟩
        rw [pfVal_eq, hkeep]
        exact pfNest_obj hto hsub htv (HS hsub x vf hr)
      · have hxd : x = getF fd "default" := by
          rcases pfDefOpts_inv fd v hop hd hp (isUndef_of_truthy hx) with hinc | hxd
          · exfalso
            by_cases ho : isObjV x = true
            · cases x <;> simp [isObjV] at ho
              rw [jsIncludes_obj] at hinc
              exact Bool.noConfusion hinc
            · have hxo : isObjV x = false := by
                cases hz : isObjV x
                · rfl
                · exact absurd hz ho
              rw [← (Hout x _ _ hr).1 hxo] at hinc
              rw [hni] at hinc
              exact Bool.noConfusion hinc
          · exact hxd
        refine ⟨true, ?_⟩
        rw [pfVal_eq, hreset, ← hxd]
        exact pfNest_obj hto hsub hx hr
    · -- pass one mapped the array element sub-schema
      simp only [Bool.and_eq_true] at hcnd2
      obtain ⟨⟨hta, hof⟩, hx⟩ := hcnd2
      subst hyeq
      rcases pfDefOpts_pass2 fd (.arr ys) (by rfl) with hkeep | ⟨os, hop, hni, hd, hreset⟩
      · refine ⟨true, ?_⟩
        rw [pfVal_eq, hkeep]
        exact pfNest_arr hta hof hto2 (mapOpt_idem (HO hof) hmap)
      · have hxd : x = getF fd "default" := by
          rcases pfDefOpts_inv fd v hop hd hp (isUndef_of_truthy hx) with hinc | hxd
          · rw [hxeq, jsIncludes_arr] at hinc
            exact Bool.noConfusion hinc
          · exact hxd
        refine ⟨true, ?_⟩
        rw [pfVal_eq, hreset, ← hxd, hxeq]
        exact pfNest_arr hta hof hto2 hmap
    · -- pass one kept the value
      subst hyx
      have heval : ∀ b', pfNest rec fd (vf, b') = some (vf, b') := by
        intro b'
        rcases hc2or with hc2 | hto'
        · exact pfNest_keep hc1 hc2
        · by_cases hc2 : (isStrEqV (getF fd "type") "array" && truthy (getF fd "of") &&
              truthy vf) = true
          · simp only [Bool.and_eq_true] at hc2
            obtain ⟨⟨hta, hof⟩, hx⟩ := hc2
            exact pfNest_arr_keep hta hof hx hto'
          · have hc2' : (isStrEqV (getF fd "type") "array" && truthy (getF fd "of") &&
                truthy vf) = false := by
              cases hz : (isStrEqV (getF fd "type") "array" && truthy (getF fd "of") &&
                truthy vf)
              · rfl
              · exact absurd hz hc2
            exact pfNest_keep hc1 hc2'
      rcases pfDefOpts_pass2 fd vf hvf with hkeep | ⟨os, hop, hni, hd, hreset⟩
      · refine ⟨false, ?_⟩
        rw [pfVal_eq, hkeep]
        exact heval false
      · have hxd : vf = getF fd "default" := by
          rcases pfDefOpts_inv fd v hop hd hp hvf with hinc | hxd
          · rw [hni] at hinc
            exact Bool.noConfusion hinc
          · exact hxd
        refine ⟨true, ?_⟩
        rw [pfVal_eq, hreset, ← hxd]
        exact heval true

theorem foldPF_idem {rec : JSVal → JSVal → Option JSVal}
    (Hout : ∀ a t b, rec a t = some b →
      (isObjV a = false → b = a) ∧ (isObjV a = true → isObjV b = true)) :
    ∀ (entries : List (String × JSVal)) (robj w : JSVal),
    keysNodup entries = true →
    (∀ e ∈ entries,
      (truthy (getF e.2 "schema") = true →
        ∀ a b, rec a (getF e.2 "schema") = some b →
          rec b (getF e.2 "schema") = some b) ∧
      (truthy (getF e.2 "of") = true →
        ∀ a b, rec a (getF e.2 "of") = some b → rec b (getF e.2 "of") = some b)) →
    isObjV robj = true →
    List.foldlM (procField rec) robj entries = some w →
    List.foldlM (procField rec) w entries = some w := by
  intro entries
  induction entries with
  | nil =>
      intro robj w _ _ _ _
      rfl
  | cons e es ih =>
      intro robj w hnd hent hobj h
      obtain ⟨k, fd⟩ := e
      obtain ⟨r1, h1, h2⟩ := foldlM_cons_some h
      obtain ⟨hfd, vf, wr, hpf, hr1⟩ := procField_some h1
      obtain ⟨hks, hnd'⟩ := keysNodup_cons hnd
      have hro1 : isObjV r1 = true := by
        rw [hr1]; split
        · exact setField_isObj _ _ _ hobj
        · exact hobj
      have hwobj : isObjV w = true := foldPF_obj _ hro1 h2
      have hwk : getF w k = vf := by
        have hu : getF w k = getF r1 k := foldPF_untouched es hks h2
        rw [hu, hr1]
        cases hwr : wr with
        | true =>
            simp only [if_true]
            cases robj <;> simp [isObjV] at hobj
            exact getF_setField_same _ k vf
        | false =>
            simp only [Bool.false_eq_true, if_false]
            exact (pfVal_flag_false (by rw [← hwr]; exact hpf)).symm
      have hstep : procField rec w (k, fd) = some w := by
        rw [procField_nonnull rec w k fd hfd]
        cases hwr : wr with
        | false =>
            have hv : vf = getF robj k := pfVal_flag_false (by rw [← hwr]; exact hpf)
            rw [hwk, hv, hpf]
            rw [hwr]
            simp
        | true =>
            obtain ⟨he1, he2⟩ := hent (k, fd) (List.mem_cons_self _ _)
            obtain ⟨wr', hst⟩ := pfVal_stable Hout he1 he2
              (show pfVal rec fd (getF robj k) = some (vf, true) by
                rw [← hwr]; exact hpf)
            have hvfne : isUndef vf = false := pfVal_true_ne_undef Hout
              (by rw [← hwr]; exact hpf)
            rw [hwk, hst]
            simp only [Option.map_some']
            congr 1
            by_cases hwr' : wr' = true
            · rw [if_pos hwr']
              cases w <;> simp [isObjV] at hwobj
              rename_i ws
              have hg : fieldsGet ws k = vf := by simpa [getF] using hwk
              have hne : fieldsGet ws k ≠ .undef := by
                rw [hg]
                intro hE
                rw [hE] at hvfne
                simp [isUndef] at hvfne
              rw [← hg]
              exact setField_self ws k hne
            · rw [if_neg hwr']
      rw [foldlM_cons_step _ es hstep]
      exact ih r1 w hnd' (fun e' he' => hent e' (List.mem_cons_of_mem _ he')) hro1 h2

theorem AF_idem : ∀ (f : Nat) (s : JSVal), WFJS s → ∀ (v w : JSVal),
    AF f v s = some w → AF f w s = some w := by
  intro f
  induction f with
  | zero =>
      intro s _ v w h
      rw [AF_zero] at h
      exact Option.noConfusion h
  | succ f ih =>
      intro s hs v w h
      by_cases hov : isObjV v = true
      · cases v <;> simp [isObjV] at hov
        rename_i fs
        rw [AF_obj] at h
        have hwobj : isObjV w = true :=
          foldPF_obj _ (show isObjV (JSVal.obj _) = true from rfl) h
        have hfold := @foldPF_idem (AF f) (fun a t b hab => AF_out hab)
          (jsEntries s) (.obj fs) w (WFJS_nodup hs)
          (fun e he =>
            ⟨fun htr a b hab => ih (getF e.2 "schema")
                (WFJS_getF (WFJS_entry_obj hs he (getF_truthy_obj _ htr)) _) a b hab,
              fun htr a b hab => ih (getF e.2 "of")
                (WFJS_getF (WFJS_entry_obj hs he (getF_truthy_obj _ htr)) _) a b hab⟩)
          rfl h
        cases w <;> simp [isObjV] at hwobj
        rw [AF_obj]
        exact hfold
      · have hov' : isObjV v = false := by
          cases hz : isObjV v
          · rfl
          · exact absurd hz hov
        rw [AF_nonobj f v s hov'] at h
        have hwv : w = v := (Option.some_inj.mp h).symm
        subst hwv
        exact AF_nonobj f w s hov'

theorem applySchemaToObject_idem {s v w : JSVal} (hs : WFJS s)
    (h : applySchemaToObject v s = some w) : applySchemaToObject w s = some w :=
  AF_idem _ s hs v w h

theorem applySchemaToValue_idem {s v w : JSVal} (hs : WFJS s)
    (h : applySchemaToValue v s = some w) : applySchemaToValue w s = some w := by
  cases v with
  | arr xs =>
      simp only [applySchemaToValue] at h
      cases hm : mapOpt (fun it => applySchemaToObject it s) xs with
      | none => rw [hm] at h; simp at h
      | some ys =>
          rw [hm] at h
          simp only [Option.map_some', Option.some_inj] at h
          rw [← h]
          simp only [applySchemaToValue]
          rw [mapOpt_idem (fun a b hab => applySchemaToObject_idem hs hab) hm]
          rfl
  | obj fs =>
      have hwobj : isObjV w = true := (AF_out h).2 rfl
      cases w <;> simp [isObjV] at hwobj
      exact applySchemaToObject_idem hs h
  | undef =>
      have hwv : w = .undef := (AF_out h).1 rfl
      subst hwv
      exact applySchemaToObject_idem hs h
  | null =>
      have hwv : w = .null := (AF_out h).1 rfl
      subst hwv
      exact applySchemaToObject_idem hs h
  | bool b =>
      have hwv : w = .bool b := (AF_out h).1 rfl
      subst hwv
      exact applySchemaToObject_idem hs h
  | num n =>
      have hwv : w = .num n := (AF_out h).1 rfl
      subst hwv
      exact applySchemaToObject_idem hs h
  | str t =>
      have hwv : w = .str t := (AF_out h).1 rfl
      subst hwv
      exact applySchemaToObject_idem hs h

theorem pfNest_obj_eval {rec : JSVal → JSVal → Option JSVal} {fd x : JSVal} {b : Bool}
    (ht : isStrEqV (getF fd "type") "object" = true)
    (hs : truthy (getF fd "schema") = true) (hx : truthy x = true) :
    pfNest rec fd (x, b) =
      (rec x (getF fd "schema")).map (fun w => (w, true)) := by
  cases hr : rec x (getF fd "schema") with
  | none =>
      have ha := isStrEqV_object_array ht
      simp only [pfNest, ht, hs, hx, Bool.and_self, if_true, Bool.true_and, hr,
        Option.map_none', Option.bind_eq_bind, Option.none_bind]
  | some w => rw [pfNest_obj ht hs hx hr]; rfl

theorem pfNest_arr_eval {rec : JSVal → JSVal → Option JSVal} {fd : JSVal} {b : Bool}
    {xs : List JSVal}
    (ht : isStrEqV (getF fd "type") "array" = true)
    (ho : truthy (getF fd "of") = true)
    (hto : jsTypeofObj (getF fd "of") = true) :
    pfNest rec fd (.arr xs, b) =
      (mapOpt (fun it => rec it (getF fd "of")) xs).map
        (fun ys => (JSVal.arr ys, true)) := by
  have hno := isStrEqV_array_object ht
  simp only [pfNest, hno, Bool.false_and, Bool.false_eq_true, if_false,
    Option.bind_eq_bind, Option.some_bind, ht, ho, truthy_arr, Bool.and_self, if_true,
    Bool.true_and, hto]

theorem pfNest_arr_nonarr {rec : JSVal → JSVal → Option JSVal} {fd x : JSVal} {b : Bool}
    (ht : isStrEqV (getF fd "type") "array" = true)
    (ho : truthy (getF fd "of") = true) (hx : truthy x = true)
    (hto : jsTypeofObj (getF fd "of") = true) (hna : isArr x = false) :
    pfNest rec fd (x, b) = none := by
  have hno := isStrEqV_array_object ht
  cases x <;> simp_all [pfNest, isArr, truthy]

theorem pfNest_congr {rec rec2 : JSVal → JSVal → Option JSVal} {fd : JSVal}
    (p : JSVal × Bool)
    (hS : truthy (getF fd "schema") = true →
      ∀ x, rec x (getF fd "schema") = rec2 x (getF fd "schema"))
    (hO : truthy (getF fd "of") = true →
      ∀ x, rec x (getF fd "of") = rec2 x (getF fd "of")) :
    pfNest rec fd p = pfNest rec2 fd p := by
  obtain ⟨x, b⟩ := p
  by_cases h1 : (isStrEqV (getF fd "type") "object" && truthy (getF fd "schema") &&
      truthy x) = true
  · simp only [Bool.and_eq_true] at h1
    obtain ⟨⟨ht, hs⟩, hx⟩ := h1
    rw [pfNest_obj_eval ht hs hx, pfNest_obj_eval ht hs hx, hS hs x]
  · have h1' : (isStrEqV (getF fd "type") "object" && truthy (getF fd "schema") &&
        truthy x) = false := by
      cases hz : (isStrEqV (getF fd "type") "object" && truthy (getF fd "schema") &&
        truthy x)
      · rfl
      · exact absurd hz h1
    by_cases h2 : (isStrEqV (getF fd "type") "array" && truthy (getF fd "of") &&
        truthy x) = true
    · simp only [Bool.and_eq_true] at h2
      obtain ⟨⟨ht, ho⟩, hx⟩ := h2
      by_cases hto : jsTypeofObj (getF fd "of") = true
      · cases x with
        | arr xs =>
            rw [pfNest_arr_eval ht ho hto, pfNest_arr_eval ht ho hto,
              mapOpt_congr xs (fun it _ => hO ho it)]
        | undef => rw [pfNest_arr_nonarr ht ho hx hto rfl,
            pfNest_arr_nonarr ht ho hx hto rfl]
        | null => rw [pfNest_arr_nonarr ht ho hx hto rfl,
            pfNest_arr_nonarr ht ho hx hto rfl]
        | bool bb => rw [pfNest_arr_nonarr ht ho hx hto rfl,
            pfNest_arr_nonarr ht ho hx hto rfl]
        | num n => rw [pfNest_arr_nonarr ht ho hx hto rfl,
            pfNest_arr_nonarr ht ho hx hto rfl]
        | str t => rw [pfNest_arr_nonarr ht ho hx hto rfl,
            pfNest_arr_nonarr ht ho hx hto rfl]
        | obj fs => rw [pfNest_arr_nonarr ht ho hx hto rfl,
            pfNest_arr_nonarr ht ho hx hto rfl]
      · have hto' : jsTypeofObj (getF fd "of") = false := by
          cases hz : jsTypeofObj (getF fd "of")
          · rfl
          · exact absurd hz hto
        rw [pfNest_arr_keep ht ho hx hto', pfNest_arr_keep ht ho hx hto']
    · have h2' : (isStrEqV (getF fd "type") "array" && truthy (getF fd "of") &&
          truthy x) = false := by
        cases hz : (isStrEqV (getF fd "type") "array" && truthy (getF fd "of") &&
          truthy x)
        · rfl
        · exact absurd hz h2
      rw [pfNest_keep h1' h2', pfNest_keep h1' h2']

theorem pfVal_congr {rec rec2 : JSVal → JSVal → Option JSVal} {fd : JSVal} (v : JSVal)
    (hS : truthy (getF fd "schema") = true →
      ∀ x, rec x (getF fd "schema") = rec2 x (getF fd "schema"))
    (hO : truthy (getF fd "of") = true →
      ∀ x, rec x (getF fd "of") = rec2 x (getF fd "of")) :
    pfVal rec fd v = pfVal rec2 fd v := by
  rw [pfVal_eq, pfVal_eq, pfNest_congr (pfDefOpts fd v) hS hO]

theorem procField_congr {rec rec2 : JSVal → JSVal → Option JSVal} (robj : JSVal)
    {k : String} {fd : JSVal}
    (hS : truthy (getF fd "schema") = true →
      ∀ x, rec x (getF fd "schema") = rec2 x (getF fd "schema"))
    (hO : truthy (getF fd "of") = true →
      ∀ x, rec x (getF fd "of") = rec2 x (getF fd "of")) :
    procField rec robj (k, fd) = procField rec2 robj (k, fd) := by
  by_cases hfd : fd = .null
  · subst hfd; rfl
  · rw [procField_nonnull rec robj k fd hfd, procField_nonnull rec2 robj k fd hfd,
      pfVal_congr (getF robj k) hS hO]

theorem jsSize_pos (v : JSVal) : 1 ≤ jsSize v := by
  cases v <;> simp [jsSize] <;> omega

theorem jsSizeF_mem : ∀ {fs : List (String × JSVal)} {k : String} {v : JSVal},
    (k, v) ∈ fs → jsSize v < 1 + jsSizeF fs := by
  intro fs
  induction fs with
  | nil => intro k v h; simp at h
  | cons p fs ih =>
      intro k v h
      obtain ⟨k0, v0⟩ := p
      rcases List.mem_cons.mp h with he | hm
      · injection he with he1 he2
        rw [he2]
        simp only [jsSizeF]
        omega
      · have := ih hm
        simp only [jsSizeF]
        omega

theorem jsSizeL_mem : ∀ {xs : List JSVal} {x : JSVal},
    x ∈ xs → jsSize x < 1 + jsSizeL xs := by
  intro xs
  induction xs with
  | nil => intro x h; simp at h
  | cons y ys ih =>
      intro x h
      rcases List.mem_cons.mp h with he | hm
      · rw [he]
        simp only [jsSizeL]
        omega
      · have := ih hm
        simp only [jsSizeL]
        omega

theorem mem_enumFrom_snd {α : Type} : ∀ (xs : List α) (n : Nat) (p : Nat × α),
    p ∈ List.enumFrom n xs → p.2 ∈ xs := by
  intro xs
  induction xs with
  | nil => intro n p h; simp [List.enumFrom] at h
  | cons x xs ih =>
      intro n p h
      simp only [List.enumFrom, List.mem_cons] at h
      rcases h with he | hm
      · rw [he]; exact List.mem_cons_self _ _
      · exact List.mem_cons_of_mem _ (ih (n + 1) p hm)

theorem getF_size {fd : JSVal} (key : String) (h : truthy (getF fd key) = true) :
    jsSize (getF fd key) < jsSize fd := by
  cases fd with
  | obj gs =>
      rw [getF_obj] at h ⊢
      have hne : fieldsGet gs key ≠ .undef := by
        intro hE; rw [hE] at h; simp [truthy] at h
      have := jsSizeF_mem (fieldsGet_mem gs key hne)
      simpa [jsSize] using this
  | undef => simp [getF, truthy] at h
  | null => simp [getF, truthy] at h
  | bool b => simp [getF, truthy] at h
  | num n => simp [getF, truthy] at h
  | str t => simp [getF, truthy] at h
  | arr xs => simp [getF, truthy] at h

theorem entry_sub_size {s fd : JSVal} {k key : String} (hm : (k, fd) ∈ jsEntries s)
    (h : truthy (getF fd key) = true) : jsSize (getF fd key) + 1 < jsSize s := by
  have h2 : jsSize (getF fd key) < jsSize fd := getF_size key h
  cases s with
  | obj fs =>
      have h1 : jsSize fd < 1 + jsSizeF fs := jsSizeF_mem hm
      simp only [jsSize]
      omega
  | arr xs =>
      simp only [jsEntries, List.mem_map] at hm
      obtain ⟨q, hq, he⟩ := hm
      have hfd : fd = q.2 := by
        injection he with he1 he2
        exact he2.symm
      have hqm : q.2 ∈ xs := mem_enumFrom_snd xs 0 q hq
      have h1 : jsSize fd < 1 + jsSizeL xs := by rw [hfd]; exact jsSizeL_mem hqm
      simp only [jsSize]
      omega
  | str t =>
      simp only [jsEntries, List.mem_map] at hm
      obtain ⟨q, hq, he⟩ := hm
      have hfd : fd = .str (String.mk [q.2]) := by
        injection he with he1 he2
        exact he2.symm
      rw [hfd] at h
      simp [getF, truthy] at h
  | undef => simp [jsEntries] at hm
  | null => simp [jsEntries] at hm
  | bool b => simp [jsEntries] at hm
  | num n => simp [jsEntries] at hm

theorem AF_fuel_eq : ∀ (n : Nat) (s : JSVal), jsSize s ≤ n →
    ∀ (f f2 : Nat), jsSize s < f → jsSize s < f2 →
    ∀ v, AF f v s = AF f2 v s := by
  intro n
  induction n with
  | zero =>
      intro s hs
      have := jsSize_pos s
      omega
  | succ n ih =>
      intro s hs f f2 hf hf2 v
      have hp := jsSize_pos s
      obtain ⟨fa, rfl⟩ : ∃ fa, f = fa + 1 := ⟨f - 1, by omega⟩
      obtain ⟨fb, rfl⟩ : ∃ fb, f2 = fb + 1 := ⟨f2 - 1, by omega⟩
      by_cases hov : isObjV v = true
      · cases v <;> simp [isObjV] at hov
        rw [AF_obj, AF_obj]
        apply foldlM_congr_opt
        intro r e he
        obtain ⟨k, fd⟩ := e
        apply procField_congr
        · intro hsub x
          have hsz := entry_sub_size he hsub
          exact ih (getF fd "schema") (by omega) fa fb (by omega) (by omega) x
        · intro hof x
          have hsz := entry_sub_size he hof
          exact ih (getF fd "of") (by omega) fa fb (by omega) (by omega) x
      · have hov2 : isObjV v = false := by
          cases hz : isObjV v
          · rfl
          · exact absurd hz hov
        rw [AF_nonobj fa v s hov2, AF_nonobj fb v s hov2]

theorem foldPF_at_key {rec : JSVal → JSVal → Option JSVal} :
    ∀ (entries : List (String × JSVal)) {robj w : JSVal} {k : String} {fd : JSVal},
    keysNodup entries = true → (k, fd) ∈ entries → isObjV robj = true →
    List.foldlM (procField rec) robj entries = some w →
    ∃ p : JSVal × Bool, pfVal rec fd (getF robj k) = some p ∧
      getF w k = (if p.2 then p.1 else getF robj k) := by
  intro entries
  induction entries with
  | nil => intro robj w k fd _ hm _ _; simp at hm
  | cons e es ih =>
      intro robj w k fd hnd hm hobj h
      obtain ⟨k0, fd0⟩ := e
      obtain ⟨hks, hnd2⟩ := keysNodup_cons hnd
      obtain ⟨r1, h1, h2⟩ := foldlM_cons_some h
      rcases List.mem_cons.mp hm with he | hm2
      · injection he with he1 he2
        subst he1
        subst he2
        obtain ⟨hfd, vf, wr, hpf, hr1⟩ := procField_some h1
        refine ⟨(vf, wr), hpf, ?_⟩
        have hu : getF w k = getF r1 k := foldPF_untouched es hks h2
        rw [hu, hr1]
        cases hwr : wr with
        | true =>
            cases robj <;> simp [isObjV] at hobj
            simp [getF_setField_same]
        | false => simp
      · obtain ⟨hfd0, vf0, wr0, hpf0, hr10⟩ := procField_some h1
        have hne : k0 ≠ k := fun hE => hks (k, fd) hm2 hE.symm
        have hg1 : getF r1 k = getF robj k := by
          rw [hr10]
          split
          · exact getF_setField_ne robj k0 k vf0 hne
          · rfl
        have hro1 : isObjV r1 = true := by
          rw [hr10]; split
          · exact setField_isObj _ _ _ hobj
          · exact hobj
        obtain ⟨p, hp1, hp2⟩ := ih hnd2 hm2 hro1 h2
        rw [hg1] at hp1 hp2
        exact ⟨p, hp1, hp2⟩

theorem applySchemas_eq (data schemas : JSVal) :
    applySchemas data schemas =
      if !(truthy schemas) || !(truthy data) || !(jsTypeofObj data) then
        some (orDefault data (.obj []))
      else List.foldlM (schStep schemas) (spreadObj data) (jsEntries data) := rfl

theorem schStep_skip {schemas : JSVal} (result : JSVal) {p : String × JSVal}
    (h : truthy (getF schemas p.1) = false) :
    schStep schemas result p = some result := by
  simp [schStep, h]

theorem schStep_proc {schemas : JSVal} (result : JSVal) {p : String × JSVal} {v : JSVal}
    (h : truthy (getF schemas p.1) = true)
    (hv : applySchemaToValue p.2 (getF schemas p.1) = some v) :
    schStep schemas result p = some (setField result p.1 v) := by
  simp [schStep, h, hv]

theorem schStep_some {schemas result : JSVal} {p : String × JSVal} {r : JSVal}
    (h : schStep schemas result p = some r) :
    (truthy (getF schemas p.1) = false ∧ r = result) ∨
    (truthy (getF schemas p.1) = true ∧
      ∃ v, applySchemaToValue p.2 (getF schemas p.1) = some v ∧
        r = setField result p.1 v) := by
  by_cases hg : truthy (getF schemas p.1) = true
  · right
    refine ⟨hg, ?_⟩
    simp only [schStep, hg, Bool.not_true, Bool.false_eq_true, if_false,
      Option.bind_eq_bind] at h
    cases hv : applySchemaToValue p.2 (getF schemas p.1) with
    | none => rw [hv] at h; simp at h
    | some v =>
        rw [hv] at h
        simp only [Option.some_bind, Option.pure_def, Option.some_inj] at h
        exact ⟨v, rfl, h.symm⟩
  · left
    have hg2 : truthy (getF schemas p.1) = false := by
      cases hz : truthy (getF schemas p.1)
      · rfl
      · exact absurd hz hg
    rw [schStep_skip result hg2] at h
    exact ⟨hg2, (Option.some_inj.mp h).symm⟩

theorem foldSch_obj {schemas : JSVal} :
    ∀ (entries : List (String × JSVal)) {robj w : JSVal},
    isObjV robj = true → List.foldlM (schStep schemas) robj entries = some w →
    isObjV w = true := by
  intro entries
  induction entries with
  | nil =>
      intro robj w hobj h
      rw [foldlM_nil_opt] at h
      rw [← Option.some_inj.mp h]
      exact hobj
  | cons e es ih =>
      intro robj w hobj h
      obtain ⟨r1, h1, h2⟩ := foldlM_cons_some h
      have hro1 : isObjV r1 = true := by
        rcases schStep_some h1 with ⟨-, hr⟩ | ⟨-, v, -, hr⟩
        · rw [hr]; exact hobj
        · rw [hr]; exact setField_isObj _ _ _ hobj
      exact ih hro1 h2

theorem foldSch_guard_untouched {schemas : JSVal} (k : String)
    (hk : truthy (getF schemas k) = false) :
    ∀ (entries : List (String × JSVal)) {robj w : JSVal},
    List.foldlM (schStep schemas) robj entries = some w →
    getF w k = getF robj k := by
  intro entries
  induction entries with
  | nil =>
      intro robj w h
      rw [foldlM_nil_opt] at h
      rw [← Option.some_inj.mp h]
  | cons e es ih =>
      intro robj w h
      obtain ⟨r1, h1, h2⟩ := foldlM_cons_some h
      have hg1 : getF r1 k = getF robj k := by
        rcases schStep_some h1 with ⟨-, hr⟩ | ⟨hg, v, -, hr⟩
        · rw [hr]
        · have hne : e.1 ≠ k := by
            intro hE; rw [hE] at hg; rw [hg] at hk; exact Bool.noConfusion hk
          rw [hr]
          exact getF_setField_ne robj e.1 k v hne
      rw [ih h2, hg1]

theorem foldSch_keys_untouched {schemas : JSVal} :
    ∀ (entries : List (String × JSVal)) {robj w : JSVal} {k : String},
    (∀ e ∈ entries, e.1 ≠ k) →
    List.foldlM (schStep schemas) robj entries = some w →
    getF w k = getF robj k := by
  intro entries
  induction entries with
  | nil =>
      intro robj w k _ h
      rw [foldlM_nil_opt] at h
      rw [← Option.some_inj.mp h]
  | cons e es ih =>
      intro robj w k hks h
      obtain ⟨r1, h1, h2⟩ := foldlM_cons_some h
      have hne : e.1 ≠ k := hks e (List.mem_cons_self _ _)
      have hg1 : getF r1 k = getF robj k := by
        rcases schStep_some h1 with ⟨-, hr⟩ | ⟨-, v, -, hr⟩
        · rw [hr]
        · rw [hr]; exact getF_setField_ne robj e.1 k v hne
      rw [ih (fun e2 he2 => hks e2 (List.mem_cons_of_mem _ he2)) h2, hg1]

theorem foldSch_at_key {schemas : JSVal} :
    ∀ (entries : List (String × JSVal)) {robj w : JSVal} {k : String} {vv : JSVal},
    keysNodup entries = true → (k, vv) ∈ entries → isObjV robj = true →
    List.foldlM (schStep schemas) robj entries = some w →
    (truthy (getF schemas k) = false → getF w k = getF robj k) ∧
    (truthy (getF schemas k) = true →
      ∃ pv, applySchemaToValue vv (getF schemas k) = some pv ∧ getF w k = pv) := by
  intro entries
  induction entries with
  | nil => intro robj w k vv _ hm _ _; simp at hm
  | cons e es ih =>
      intro robj w k vv hnd hm hobj h
      obtain ⟨k0, v0⟩ := e
      obtain ⟨hks, hnd2⟩ := keysNodup_cons hnd
      obtain ⟨r1, h1, h2⟩ := foldlM_cons_some h
      rcases List.mem_cons.mp hm with he | hm2
      · injection he with he1 he2
        subst he1
        subst he2
        have hu : getF w k = getF r1 k := foldSch_keys_untouched es hks h2
        constructor
        · intro hg
          rcases schStep_some h1 with ⟨-, hr⟩ | ⟨hg2, -, -, -⟩
          · rw [hu, hr]
          · rw [hg] at hg2; exact Bool.noConfusion hg2
        · intro hg
          rcases schStep_some h1 with ⟨hg2, -⟩ | ⟨-, v, hv, hr⟩
          · rw [hg] at hg2; exact Bool.noConfusion hg2
          · refine ⟨v, hv, ?_⟩
            rw [hu, hr]
            cases robj <;> simp [isObjV] at hobj
            exact getF_setField_same _ k v
      · have hne : k0 ≠ k := fun hE => hks (k, vv) hm2 hE.symm
        have hg1 : getF r1 k = getF robj k := by
          rcases schStep_some h1 with ⟨-, hr⟩ | ⟨-, v, -, hr⟩
          · rw [hr]
          · rw [hr]; exact getF_setField_ne robj k0 k v hne
        have hro1 : isObjV r1 = true := by
          rcases schStep_some h1 with ⟨-, hr⟩ | ⟨-, v, -, hr⟩
          · rw [hr]; exact hobj
          · rw [hr]; exact setField_isObj _ _ _ hobj
        obtain ⟨ha, hb⟩ := ih hnd2 hm2 hro1 h2
        exact ⟨fun hg => by rw [ha hg, hg1], hb⟩

theorem fieldsSet_keys : ∀ (fs : List (String × JSVal)) (k : String) (v : JSVal),
    hasKey fs k = true →
    (fieldsSet fs k v).map Prod.fst = fs.map Prod.fst := by
  intro fs
  induction fs with
  | nil => intro k v h; simp [hasKey] at h
  | cons p fs ih =>
      intro k v h
      obtain ⟨k0, v0⟩ := p
      by_cases h0 : k0 = k
      · subst h0
        simp [fieldsSet]
      · simp only [fieldsSet, if_neg h0, List.map_cons]
        have htl : hasKey fs k = true := by
          simp only [hasKey, List.any_eq_true] at h ⊢
          obtain ⟨q, hq, hqk⟩ := h
          rcases List.mem_cons.mp hq with he | hq2
          · exfalso; apply h0; rw [he] at hqk; simpa using hqk
          · exact ⟨q, hq2, hqk⟩
        rw [ih k v htl]

theorem hasKey_eq_map : ∀ (fs : List (String × JSVal)) (k : String),
    hasKey fs k = (fs.map Prod.fst).any (fun s => s = k) := by
  intro fs
  induction fs with
  | nil => intro k; rfl
  | cons p fs ih =>
      intro k
      obtain ⟨k0, v0⟩ := p
      simp only [hasKey, List.map_cons, List.any_cons]
      show (decide (k0 = k) || hasKey fs k) =
        (decide (k0 = k) || (fs.map Prod.fst).any fun s => decide (s = k))
      rw [ih k]

theorem hasKey_congr {fs gs : List (String × JSVal)}
    (h : fs.map Prod.fst = gs.map Prod.fst) (k : String) :
    hasKey fs k = hasKey gs k := by
  rw [hasKey_eq_map, hasKey_eq_map, h]

theorem keysNodup_map : ∀ {fs gs : List (String × JSVal)},
    fs.map Prod.fst = gs.map Prod.fst → keysNodup fs = keysNodup gs := by
  intro fs
  induction fs with
  | nil =>
      intro gs h
      cases gs with
      | nil => rfl
      | cons q gs => simp at h
  | cons p fs ih =>
      intro gs h
      cases gs with
      | nil => simp at h
      | cons q gs =>
          obtain ⟨k0, v0⟩ := p
          obtain ⟨k1, v1⟩ := q
          simp only [List.map_cons, List.cons.injEq] at h
          obtain ⟨hk, hmap⟩ := h
          subst hk
          show (!(hasKey fs k0) && keysNodup fs) = (!(hasKey gs k0) && keysNodup gs)
          rw [hasKey_congr hmap, ih hmap]

theorem mem_of_hasKey {fs : List (String × JSVal)} {k : String}
    (h : hasKey fs k = true) : ∃ v, (k, v) ∈ fs := by
  simp only [hasKey, List.any_eq_true] at h
  obtain ⟨q, hq, hqk⟩ := h
  refine ⟨q.2, ?_⟩
  have hk : q.1 = k := by simpa using hqk
  rw [← hk]
  exact hq

theorem foldSch_keys {schemas : JSVal} :
    ∀ (entries : List (String × JSVal)) {gs : List (String × JSVal)} {w : JSVal},
    (∀ e ∈ entries, hasKey gs e.1 = true) →
    List.foldlM (schStep schemas) (.obj gs) entries = some w →
    ∃ hs2, w = .obj hs2 ∧ hs2.map Prod.fst = gs.map Prod.fst := by
  intro entries
  induction entries with
  | nil =>
      intro gs w _ h
      rw [foldlM_nil_opt] at h
      exact ⟨gs, (Option.some_inj.mp h).symm, rfl⟩
  | cons e es ih =>
      intro gs w hk h
      obtain ⟨r1, h1, h2⟩ := foldlM_cons_some h
      rcases schStep_some h1 with ⟨-, hr⟩ | ⟨-, v, -, hr⟩
      · subst hr
        exact ih (fun e2 he2 => hk e2 (List.mem_cons_of_mem _ he2)) h2
      · have hkh : hasKey gs e.1 = true := hk e (List.mem_cons_self _ _)
        have hrr : r1 = .obj (fieldsSet gs e.1 v) := by rw [hr]; rfl
        subst hrr
        have hmf := fieldsSet_keys gs e.1 v hkh
        obtain ⟨hs2, hw, hmf2⟩ := ih
          (fun e2 he2 => by
            rw [hasKey_congr hmf e2.1]
            exact hk e2 (List.mem_cons_of_mem _ he2)) h2
        exact ⟨hs2, hw, hmf2.trans hmf⟩

theorem applySchemas_truthy {data schemas d : JSVal}
    (h : applySchemas data schemas = some d) : truthy d = true := by
  rw [applySchemas_eq] at h
  split at h
  · rw [← Option.some_inj.mp h]
    exact truthy_orDefault_obj data []
  · exact truthy_of_isObj
      (foldSch_obj _ (show isObjV (spreadObj data) = true from rfl) h)

theorem applySchemas_idem {data schemas d : JSVal}
    (hnd : keysNodup (jsEntries data) = true) (hS : WFJS schemas)
    (h : applySchemas data schemas = some d) : applySchemas d schemas = some d := by
  rw [applySchemas_eq] at h
  by_cases hg : (!(truthy schemas) || !(truthy data) || !(jsTypeofObj data)) = true
  · rw [if_pos hg] at h
    have hd : d = orDefault data (.obj []) := (Option.some_inj.mp h).symm
    have hdt : truthy d = true := by rw [hd]; exact truthy_orDefault_obj data []
    by_cases hsch : truthy schemas = true
    · by_cases hdatat : truthy data = true
      · have hto : jsTypeofObj data = false := by
          simp only [hsch, hdatat, Bool.not_true, Bool.false_or] at hg
          simpa using hg
        have hdd : d = data := by rw [hd, orDefault_of_truthy _ hdatat]
        rw [applySchemas_eq, hdd, if_pos (by simp [hto]),
          orDefault_of_truthy _ hdatat]
      · have hdataf : truthy data = false := by
          cases hz : truthy data
          · rfl
          · exact absurd hz hdatat
        have hdo : d = .obj [] := by
          rw [hd]
          simp [orDefault, hdataf]
        rw [applySchemas_eq, hdo]
        rw [if_neg (by simp [hsch, truthy_obj, jsTypeofObj_obj])]
        rfl
    · have hsch2 : truthy schemas = false := by
        cases hz : truthy schemas
        · rfl
        · exact absurd hz hsch
      rw [applySchemas_eq, if_pos (by simp [hsch2]), orDefault_of_truthy _ hdt]
  · have hgf : (!(truthy schemas) || !(truthy data) || !(jsTypeofObj data)) = false := by
      cases hz : (!(truthy schemas) || !(truthy data) || !(jsTypeofObj data))
      · rfl
      · exact absurd hz hg
    rw [if_neg hg] at h
    simp only [Bool.or_eq_false_iff, Bool.not_eq_false'] at hgf
    obtain ⟨⟨hsch, hdat⟩, hto⟩ := hgf
    have hsp : spreadObj data = .obj (jsEntries data) := rfl
    rw [hsp] at h
    have hkeys : ∀ e ∈ jsEntries data, hasKey (jsEntries data) e.1 = true :=
      fun e he => hasKey_of_mem he
    obtain ⟨hs2, rfl, hmf⟩ := foldSch_keys (jsEntries data) hkeys h
    have hnd2 : keysNodup hs2 = true := by rw [keysNodup_map hmf]; exact hnd
    rw [applySchemas_eq]
    rw [if_neg (by simp [hsch, truthy_obj, jsTypeofObj_obj])]
    apply foldlM_const_opt
    intro e he
    obtain ⟨k, vv⟩ := e
    by_cases hgk : truthy (getF schemas k) = true
    · have hk2 : hasKey hs2 k = true := hasKey_of_mem he
      have hkin : hasKey (jsEntries data) k = true := by
        rw [← hasKey_congr hmf k]
        exact hk2
      obtain ⟨vv0, hvv0⟩ := mem_of_hasKey hkin
      have hat := foldSch_at_key (jsEntries data) hnd hvv0
        (show isObjV (JSVal.obj (jsEntries data)) = true from rfl) h
      obtain ⟨pv, hpv, hwk⟩ := hat.2 hgk
      have hvk : fieldsGet hs2 k = vv := fieldsGet_of_mem_nodup hs2 k vv hnd2 he
      have hveq : vv = pv := by
        rw [getF_obj] at hwk
        rw [← hvk, hwk]
      have hidem : applySchemaToValue vv (getF schemas k) = some vv := by
        rw [hveq]
        exact applySchemaToValue_idem (WFJS_getF hS k) hpv
      rw [schStep_proc _ hgk hidem]
      congr 1
      rw [← hvk]
      show JSVal.obj (fieldsSet hs2 k (fieldsGet hs2 k)) = JSVal.obj hs2
      rw [fieldsSet_self_hasKey hs2 k hk2]
    · have hgk2 : truthy (getF schemas k) = false := by
        cases hz : truthy (getF schemas k)
        · rfl
        · exact absurd hz hgk
      exact schStep_skip _ hgk2

theorem gIS_idem {a b : JSVal} (h : guaranteeItemStructure a = some b) :
    guaranteeItemStructure b = some b := by
  by_cases hn : isNullish a = true
  · simp [guaranteeItemStructure, hn] at h
  · have hn2 : isNullish a = false := by
      cases hz : isNullish a
      · rfl
      · exact absurd hz hn
    simp only [guaranteeItemStructure, hn2, Bool.false_eq_true, if_false,
      Option.some_inj] at h
    rw [← h]
    simp [guaranteeItemStructure, itemFieldNames, fieldsGet, isNullish,
      orDefault_idem]

theorem mapAsArr_inv {f : JSVal → Option JSVal} {v w : JSVal}
    (h : mapAsArr f v = some w) :
    ∃ xs ys, mapOpt f xs = some ys ∧ w = .arr ys := by
  unfold mapAsArr at h
  split at h
  · next xs e =>
      cases hm : mapOpt f xs with
      | none => rw [hm] at h; simp at h
      | some ys =>
          rw [hm] at h
          simp only [Option.map_some', Option.some_inj] at h
          exact ⟨xs, ys, hm, h.symm⟩
  · simp at h

theorem mapAsArr_idem {f : JSVal → Option JSVal}
    (hf : ∀ a b, f a = some b → f b = some b) {v w : JSVal}
    (h : mapAsArr f v = some w) : mapAsArr f w = some w := by
  obtain ⟨xs, ys, hm, rfl⟩ := mapAsArr_inv h
  have h2 : mapOpt f ys = some ys := mapOpt_idem hf hm
  simp [mapAsArr, orDefault, h2, truthy_arr]

theorem WFJS_obj_nil : WFJS (.obj []) :=
  WFJS.mk _ rfl (by intro p hp; simp [jsChildren] at hp)

theorem WFJS_orDefault {v : JSVal} (d : JSVal) (hv : WFJS v) (hd : WFJS d) :
    WFJS (orDefault v d) := by
  unfold orDefault
  split
  · exact hv
  · exact hd

theorem gCS_inv {pc c : JSVal} (h : guaranteeContentStructure pc = some c) :
    ∃ items, mapAsArr guaranteeItemStructure
        (getF (orDefault pc (.obj [])) "items") = some items ∧
      c = .obj
        [ ("title", orDefault (getF (orDefault pc (.obj [])) "title") (.str "")),
          ("pretitle", orDefault (getF (orDefault pc (.obj [])) "pretitle") (.str "")),
          ("subtitle", orDefault (getF (orDefault pc (.obj [])) "subtitle") (.str "")),
          ("subtitle2", orDefault (getF (orDefault pc (.obj [])) "subtitle2") (.str "")),
          ("alignment", orDefault (getF (orDefault pc (.obj [])) "alignment") (.null)),
          ("paragraphs", orDefault (getF (orDefault pc (.obj [])) "paragraphs") (.arr [])),
          ("links", orDefault (getF (orDefault pc (.obj [])) "links") (.arr [])),
          ("imgs", orDefault (getF (orDefault pc (.obj [])) "imgs") (.arr [])),
          ("lists", orDefault (getF (orDefault pc (.obj [])) "lists") (.arr [])),
          ("icons", orDefault (getF (orDefault pc (.obj [])) "icons") (.arr [])),
          ("videos", orDefault (getF (orDefault pc (.obj [])) "videos") (.arr [])),
          ("insets", orDefault (getF (orDefault pc (.obj [])) "insets") (.arr [])),
          ("buttons", orDefault (getF (orDefault pc (.obj [])) "buttons") (.arr [])),
          ("data", orDefault (getF (orDefault pc (.obj [])) "data") (.obj [])),
          ("cards", orDefault (getF (orDefault pc (.obj [])) "cards") (.arr [])),
          ("documents", orDefault (getF (orDefault pc (.obj [])) "documents") (.arr [])),
          ("forms", orDefault (getF (orDefault pc (.obj [])) "forms") (.arr [])),
          ("quotes", orDefault (getF (orDefault pc (.obj [])) "quotes") (.arr [])),
          ("headings", orDefault (getF (orDefault pc (.obj [])) "headings") (.arr [])),
          ("items", items),
          ("sequence", orDefault (getF (orDefault pc (.obj [])) "sequence") (.arr [])),
          ("raw", getF (orDefault pc (.obj [])) "raw") ] := by
  simp only [guaranteeContentStructure, Option.bind_eq_bind] at h
  cases hit : mapAsArr guaranteeItemStructure
      (getF (orDefault pc (.obj [])) "items") with
  | none => rw [hit] at h; simp at h
  | some items =>
      rw [hit] at h
      simp only [Option.some_bind, Option.pure_def, Option.some_inj] at h
      exact ⟨items, rfl, h.symm⟩

theorem gCS_form (pc0 dv items : JSVal) (hdv : truthy dv = true)
    (hself : mapAsArr guaranteeItemStructure items = some items) :
    guaranteeContentStructure (.obj
      [ ("title", orDefault (getF pc0 "title") (.str "")),
          ("pretitle", orDefault (getF pc0 "pretitle") (.str "")),
          ("subtitle", orDefault (getF pc0 "subtitle") (.str "")),
          ("subtitle2", orDefault (getF pc0 "subtitle2") (.str "")),
          ("alignment", orDefault (getF pc0 "alignment") (.null)),
          ("paragraphs", orDefault (getF pc0 "paragraphs") (.arr [])),
          ("links", orDefault (getF pc0 "links") (.arr [])),
          ("imgs", orDefault (getF pc0 "imgs") (.arr [])),
          ("lists", orDefault (getF pc0 "lists") (.arr [])),
          ("icons", orDefault (getF pc0 "icons") (.arr [])),
          ("videos", orDefault (getF pc0 "videos") (.arr [])),
          ("insets", orDefault (getF pc0 "insets") (.arr [])),
          ("buttons", orDefault (getF pc0 "buttons") (.arr [])),
          ("data", dv),
          ("cards", orDefault (getF pc0 "cards") (.arr [])),
          ("documents", orDefault (getF pc0 "documents") (.arr [])),
          ("forms", orDefault (getF pc0 "forms") (.arr [])),
          ("quotes", orDefault (getF pc0 "quotes") (.arr [])),
          ("headings", orDefault (getF pc0 "headings") (.arr [])),
          ("items", items),
          ("sequence", orDefault (getF pc0 "sequence") (.arr [])),
          ("raw", getF pc0 "raw") ]) = some (.obj
      [ ("title", orDefault (getF pc0 "title") (.str "")),
          ("pretitle", orDefault (getF pc0 "pretitle") (.str "")),
          ("subtitle", orDefault (getF pc0 "subtitle") (.str "")),
          ("subtitle2", orDefault (getF pc0 "subtitle2") (.str "")),
          ("alignment", orDefault (getF pc0 "alignment") (.null)),
          ("paragraphs", orDefault (getF pc0 "paragraphs") (.arr [])),
          ("links", orDefault (getF pc0 "links") (.arr [])),
          ("imgs", orDefault (getF pc0 "imgs") (.arr [])),
          ("lists", orDefault (getF pc0 "lists") (.arr [])),
          ("icons", orDefault (getF pc0 "icons") (.arr [])),
          ("videos", orDefault (getF pc0 "videos") (.arr [])),
          ("insets", orDefault (getF pc0 "insets") (.arr [])),
          ("buttons", orDefault (getF pc0 "buttons") (.arr [])),
          ("data", dv),
          ("cards", orDefault (getF pc0 "cards") (.arr [])),
          ("documents", orDefault (getF pc0 "documents") (.arr [])),
          ("forms", orDefault (getF pc0 "forms") (.arr [])),
          ("quotes", orDefault (getF pc0 "quotes") (.arr [])),
          ("headings", orDefault (getF pc0 "headings") (.arr [])),
          ("items", items),
          ("sequence", orDefault (getF pc0 "sequence") (.arr [])),
          ("raw", getF pc0 "raw") ]) := by
  have hdvr : orDefault dv (.obj []) = dv := orDefault_of_truthy _ hdv
  simp [guaranteeContentStructure, fieldsGet, orDefault_idem, hself, hdvr,
    orDefault_of_truthy _ (truthy_obj _)]

theorem preparePropsContent_idem {pc schemas c : JSVal} (hW : WFJS pc) (hS : WFJS schemas)
    (h : preparePropsContent pc schemas = some c) :
    preparePropsContent c schemas = some c := by
  simp only [preparePropsContent, Option.bind_eq_bind] at h ⊢
  cases hg : guaranteeContentStructure pc with
  | none => rw [hg] at h; simp at h
  | some content =>
      rw [hg] at h
      simp only [Option.some_bind] at h
      obtain ⟨items, hit, hceq⟩ := gCS_inv hg
      have hself : mapAsArr guaranteeItemStructure items = some items :=
        mapAsArr_idem (fun a b hab => gIS_idem hab) hit
      have hdc : getF content "data" =
          orDefault (getF (orDefault pc (.obj [])) "data") (.obj []) := by
        rw [hceq]
        simp [fieldsGet]
      have hdct : truthy (getF content "data") = true := by
        rw [hdc]
        exact truthy_orDefault_obj _ _
      by_cases hsch : truthy schemas = true
      · have hguard : (truthy schemas && truthy (getF content "data")) = true := by
          rw [hsch, hdct]
          rfl
        rw [hguard] at h
        simp only [if_true] at h
        cases ha : applySchemas (getF content "data") schemas with
        | none => rw [ha] at h; simp at h
        | some d =>
            rw [ha] at h
            simp only [Option.some_bind, Option.pure_def, Option.some_inj] at h
            rw [← h]
            have hdt : truthy d = true := applySchemas_truthy ha
            have hsetlit : setField content "data" d = .obj
                [ ("title", orDefault (getF (orDefault pc (.obj [])) "title") (.str "")),
                  ("pretitle", orDefault (getF (orDefault pc (.obj [])) "pretitle") (.str "")),
                  ("subtitle", orDefault (getF (orDefault pc (.obj [])) "subtitle") (.str "")),
                  ("subtitle2", orDefault (getF (orDefault pc (.obj [])) "subtitle2") (.str "")),
                  ("alignment", orDefault (getF (orDefault pc (.obj [])) "alignment") (.null)),
                  ("paragraphs", orDefault (getF (orDefault pc (.obj [])) "paragraphs") (.arr [])),
                  ("links", orDefault (getF (orDefault pc (.obj [])) "links") (.arr [])),
                  ("imgs", orDefault (getF (orDefault pc (.obj [])) "imgs") (.arr [])),
                  ("lists", orDefault (getF (orDefault pc (.obj [])) "lists") (.arr [])),
                  ("icons", orDefault (getF (orDefault pc (.obj [])) "icons") (.arr [])),
                  ("videos", orDefault (getF (orDefault pc (.obj [])) "videos") (.arr [])),
                  ("insets", orDefault (getF (orDefault pc (.obj [])) "insets") (.arr [])),
                  ("buttons", orDefault (getF (orDefault pc (.obj [])) "buttons") (.arr [])),
                  ("data", d),
                  ("cards", orDefault (getF (orDefault pc (.obj [])) "cards") (.arr [])),
                  ("documents", orDefault (getF (orDefault pc (.obj [])) "documents") (.arr [])),
                  ("forms", orDefault (getF (orDefault pc (.obj [])) "forms") (.arr [])),
                  ("quotes", orDefault (getF (orDefault pc (.obj [])) "quotes") (.arr [])),
                  ("headings", orDefault (getF (orDefault pc (.obj [])) "headings") (.arr [])),
                  ("items", items),
                  ("sequence", orDefault (getF (orDefault pc (.obj [])) "sequence") (.arr [])),
                  ("raw", getF (orDefault pc (.obj [])) "raw") ] := by
              rw [hceq]
              simp [setField, fieldsSet]
            have hg2 : guaranteeContentStructure (setField content "data" d) =
                some (setField content "data" d) := by
              rw [hsetlit]
              exact gCS_form _ d items hdt hself
            rw [hg2]
            simp only [Option.some_bind]
            have hgd : getF (setField content "data" d) "data" = d := by
              rw [hceq]
              exact getF_setField_same _ "data" d
            have hguard2 : (truthy schemas &&
                truthy (getF (setField content "data" d) "data")) = true := by
              rw [hsch, hgd, hdt]
              rfl
            rw [hguard2]
            simp only [if_true]
            have hWdc : WFJS (getF content "data") := by
              rw [hdc]
              exact WFJS_orDefault _ (WFJS_getF (WFJS_orDefault _ hW WFJS_obj_nil) _)
                WFJS_obj_nil
            have ha2 : applySchemas d schemas = some d :=
              applySchemas_idem (WFJS_nodup hWdc) hS ha
            rw [hgd, ha2]
            simp only [Option.some_bind, Option.pure_def, Option.some_inj]
            exact setField_setField content "data" d d
      · have hsch2 : truthy schemas = false := by
          cases hz : truthy schemas
          · rfl
          · exact absurd hz hsch
        have hguard : (truthy schemas && truthy (getF content "data")) = false := by
          rw [hsch2]
          rfl
        rw [hguard] at h
        simp only [Bool.false_eq_true, if_false, Option.pure_def, Option.some_inj] at h
        rw [← h]
        have hg2 : guaranteeContentStructure content = some content := by
          rw [hceq]
          exact gCS_form _ _ items (truthy_orDefault_obj _ _) hself
        rw [hg2]
        simp only [Option.some_bind]
        rw [hguard]
        simp

theorem WFJS_num (n : Int) : WFJS (.num n) :=
  WFJS.mk _ rfl (by intro p hp; simp [jsChildren] at hp)

/-- C3: normalization is idempotent. For JS-representable parsed content and
schema map, a successful output of preparePropsContent (guaranteeContentStructure
followed by applySchemas on the data map with the same schemas) is a fixed point
of preparePropsContent: running normalization a second time returns the first
output unchanged, so nothing accumulates across calls. -/
theorem c3_normalization_idempotent (pc schemas c : JSVal)
    (hW : WFJS pc) (hS : WFJS schemas)
    (h : preparePropsContent pc schemas = some c) :
    preparePropsContent c schemas = some c :=
  preparePropsContent_idem hW hS h

theorem c3_normalization_idempotent_witness :
    WFJS (JSVal.obj [("data", .obj [("team", .obj [])])]) ∧
    WFJS (JSVal.obj [("team", .obj [("x", .obj [("default", .num 5)])])]) ∧
    preparePropsContent (JSVal.obj [("data", .obj [("team", .obj [])])])
        (JSVal.obj [("team", .obj [("x", .obj [("default", .num 5)])])]) =
      some (JSVal.obj
        [ ("title", .str ""), ("pretitle", .str ""), ("subtitle", .str ""),
          ("subtitle2", .str ""), ("alignment", .null), ("paragraphs", .arr []),
          ("links", .arr []), ("imgs", .arr []), ("lists", .arr []),
          ("icons", .arr []), ("videos", .arr []), ("insets", .arr []),
          ("buttons", .arr []),
          ("data", .obj [("team", .obj [("x", .num 5)])]),
          ("cards", .arr []), ("documents", .arr []), ("forms", .arr []),
          ("quotes", .arr []), ("headings", .arr []), ("items", .arr []),
          ("sequence", .arr []), ("raw", .undef) ]) ∧
    preparePropsContent (JSVal.obj
        [ ("title", .str ""), ("pretitle", .str ""), ("subtitle", .str ""),
          ("subtitle2", .str ""), ("alignment", .null), ("paragraphs", .arr []),
          ("links", .arr []), ("imgs", .arr []), ("lists", .arr []),
          ("icons", .arr []), ("videos", .arr []), ("insets", .arr []),
          ("buttons", .arr []),
          ("data", .obj [("team", .obj [("x", .num 5)])]),
          ("cards", .arr []), ("documents", .arr []), ("forms", .arr []),
          ("quotes", .arr []), ("headings", .arr []), ("items", .arr []),
          ("sequence", .arr []), ("raw", .undef) ])
        (JSVal.obj [("team", .obj [("x", .obj [("default", .num 5)])])]) =
      some (JSVal.obj
        [ ("title", .str ""), ("pretitle", .str ""), ("subtitle", .str ""),
          ("subtitle2", .str ""), ("alignment", .null), ("paragraphs", .arr []),
          ("links", .arr []), ("imgs", .arr []), ("lists", .arr []),
          ("icons", .arr []), ("videos", .arr []), ("insets", .arr []),
          ("buttons", .arr []),
          ("data", .obj [("team", .obj [("x", .num 5)])]),
          ("cards", .arr []), ("documents", .arr []), ("forms", .arr []),
          ("quotes", .arr []), ("headings", .arr []), ("items", .arr []),
          ("sequence", .arr []), ("raw", .undef) ]) := by
  have hdata : WFJS (JSVal.obj [("team", .obj [])]) :=
    WFJS.mk _ (by decide) (by
      intro p hp
      simp only [jsChildren, List.mem_singleton] at hp
      rw [hp]
      exact WFJS_obj_nil)
  have hW : WFJS (JSVal.obj [("data", .obj [("team", .obj [])])]) :=
    WFJS.mk _ (by decide) (by
      intro p hp
      simp only [jsChildren, List.mem_singleton] at hp
      rw [hp]
      exact hdata)
  have hfdx : WFJS (JSVal.obj [("default", .num 5)]) :=
    WFJS.mk _ (by decide) (by
      intro p hp
      simp only [jsChildren, List.mem_singleton] at hp
      rw [hp]
      exact WFJS_num 5)
  have hx : WFJS (JSVal.obj [("x", .obj [("default", .num 5)])]) :=
    WFJS.mk _ (by decide) (by
      intro p hp
      simp only [jsChildren, List.mem_singleton] at hp
      rw [hp]
      exact hfdx)
  have hS : WFJS (JSVal.obj [("team", .obj [("x", .obj [("default", .num 5)])])]) :=
    WFJS.mk _ (by decide) (by
      intro p hp
      simp only [jsChildren, List.mem_singleton] at hp
      rw [hp]
      exact hx)
  exact ⟨hW, hS, rfl, c3_normalization_idempotent _ _ _ hW hS rfl⟩

theorem applySchemas_untouched {schemas result : JSVal} (gs : List (String × JSVal))
    (hA : applySchemas (.obj gs) schemas = some result)
    (k : String) (hg : truthy (getF schemas k) = false) :
    getF result k = getF (.obj gs) k := by
  rw [applySchemas_eq] at hA
  split at hA
  · rw [← Option.some_inj.mp hA, orDefault_of_truthy _ (truthy_obj gs)]
  · exact foldSch_guard_untouched k hg (jsEntries (.obj gs)) hA

theorem not_hasKey_ne {fs : List (String × JSVal)} {k : String}
    (h : hasKey fs k = false) : ∀ e ∈ fs, e.1 ≠ k := by
  intro e he hek
  have hm : (e.1, e.2) ∈ fs := he
  rw [hek] at hm
  rw [hasKey_of_mem hm] at h
  exact Bool.noConfusion h

/-- C2: schema defaulting is a partial, additive transform. At the applySchemas
level, keys of the data map without a truthy schema entry are left untouched.
At the applySchemaToObject level, for a JS-representable schema: fields of the
object not declared in the schema are preserved; a declared plain field missing
a value receives the schema default; a declared one-of field whose value is not
among the options is reset to the schema default; a declared nested object
sub-schema is applied recursively to a truthy value, and a declared array
sub-schema is applied recursively to every element. -/
theorem c2_schema_defaulting
    (schemas data result : JSVal) (gs : List (String × JSVal))
    (hdata : data = .obj gs)
    (hA : applySchemas data schemas = some result)
    (s v w : JSVal) (fs : List (String × JSVal)) (hv : v = .obj fs)
    (hs : WFJS s) (hw : applySchemaToObject v s = some w) :
    (∀ k, truthy (getF schemas k) = false → getF result k = getF data k) ∧
    (∀ k, hasKey (jsEntries s) k = false → getF w k = getF v k) ∧
    (∀ k fd, (k, fd) ∈ jsEntries s →
      getF v k = .undef → isUndef (getF fd "default") = false →
      (isStrEqV (getF fd "type") "object" && truthy (getF fd "schema")) = false →
      (isStrEqV (getF fd "type") "array" && truthy (getF fd "of")) = false →
      getF w k = getF fd "default") ∧
    (∀ k fd os, (k, fd) ∈ jsEntries s →
      getF fd "options" = .arr os → jsIncludes os (getF v k) = false →
      isUndef (getF v k) = false → isUndef (getF fd "default") = false →
      (isStrEqV (getF fd "type") "object" && truthy (getF fd "schema")) = false →
      (isStrEqV (getF fd "type") "array" && truthy (getF fd "of")) = false →
      getF w k = getF fd "default") ∧
    (∀ k fd, (k, fd) ∈ jsEntries s →
      isStrEqV (getF fd "type") "object" = true →
      truthy (getF fd "schema") = true →
      truthy (getF v k) = true → getF fd "options" = .undef →
      ∃ wk, applySchemaToObject (getF v k) (getF fd "schema") = some wk ∧
        getF w k = wk) ∧
    (∀ k fd xs, (k, fd) ∈ jsEntries s →
      isStrEqV (getF fd "type") "array" = true →
      truthy (getF fd "of") = true → jsTypeofObj (getF fd "of") = true →
      getF v k = .arr xs → getF fd "options" = .undef →
      ∃ ys, mapOpt (fun it => applySchemaToObject it (getF fd "of")) xs = some ys ∧
        getF w k = .arr ys) := by
  subst hdata
  subst hv
  have hfold : List.foldlM (procField (AF (jsSize s))) (.obj fs) (jsEntries s) =
      some w := by
    simp only [applySchemaToObject] at hw
    rw [AF_obj] at hw
    exact hw
  refine ⟨?_, ?_, ?_, ?_, ?_, ?_⟩
  · intro k hg
    exact applySchemas_untouched gs hA k hg
  · intro k hk
    exact foldPF_untouched (jsEntries s) (not_hasKey_ne hk) hfold
  · intro k fd hm hundef hd hno1 hno2
    obtain ⟨p, hp1, hp2⟩ := foldPF_at_key (jsEntries s) (WFJS_nodup hs) hm
      (show isObjV (JSVal.obj fs) = true from rfl) hfold
    rw [hundef] at hp1
    have hcomp : pfVal (AF (jsSize s)) fd .undef = some (getF fd "default", true) := by
      rw [pfVal_eq, pfDefOpts_fill fd hd]
      exact pfNest_keep (by rw [hno1, Bool.false_and]) (by rw [hno2, Bool.false_and])
    rw [hcomp] at hp1
    rw [← Option.some_inj.mp hp1] at hp2
    simpa using hp2
  · intro k fd os hm hop hni hvu hd hno1 hno2
    obtain ⟨p, hp1, hp2⟩ := foldPF_at_key (jsEntries s) (WFJS_nodup hs) hm
      (show isObjV (JSVal.obj fs) = true from rfl) hfold
    have hcomp : pfVal (AF (jsSize s)) fd (getF (.obj fs) k) =
        some (getF fd "default", true) := by
      rw [pfVal_eq, pfDefOpts_reset fd _ hvu hop hni hd]
      exact pfNest_keep (by rw [hno1, Bool.false_and]) (by rw [hno2, Bool.false_and])
    rw [hcomp] at hp1
    rw [← Option.some_inj.mp hp1] at hp2
    simpa using hp2
  · intro k fd hm ht hsub hvk hop
    obtain ⟨p, hp1, hp2⟩ := foldPF_at_key (jsEntries s) (WFJS_nodup hs) hm
      (show isObjV (JSVal.obj fs) = true from rfl) hfold
    rw [pfVal_eq, pfDefOpts_keep_noopts fd _ (isUndef_of_truthy hvk) hop] at hp1
    cases p with
    | mk pv pb =>
    rcases pfNest_inv hp1 with ⟨-, hr, hc⟩ | ⟨hc1, -, -, -⟩ | ⟨hc1, -, -, -⟩
    · have hsz := entry_sub_size hm hsub
      refine ⟨pv, ?_, ?_⟩
      · show AF (jsSize (getF fd "schema") + 1) (getF (.obj fs) k)
          (getF fd "schema") = some pv
        rw [AF_fuel_eq (jsSize (getF fd "schema")) _ le_rfl
          (jsSize (getF fd "schema") + 1) (jsSize s) (by omega) (by omega)]
        exact hr
      · rw [hp2, hc]
        simp
    · rw [ht, hsub, hvk] at hc1
      exact Bool.noConfusion hc1
    · rw [ht, hsub, hvk] at hc1
      exact Bool.noConfusion hc1
  · intro k fd xs hm ht hof hto hvarr hop
    obtain ⟨p, hp1, hp2⟩ := foldPF_at_key (jsEntries s) (WFJS_nodup hs) hm
      (show isObjV (JSVal.obj fs) = true from rfl) hfold
    rw [pfVal_eq, hvarr,
      pfDefOpts_keep_noopts fd _ (show isUndef (JSVal.arr xs) = false from rfl) hop]
      at hp1
    cases p with
    | mk pv pb =>
    rcases pfNest_inv hp1 with ⟨hc1, -, -⟩ |
      ⟨-, -, -, xs2, ys, hxeq, hmap, hyeq, hc⟩ | ⟨-, hc2or, -, -⟩
    · rw [isStrEqV_array_object ht, Bool.false_and, Bool.false_and] at hc1
      exact Bool.noConfusion hc1
    · injection hxeq with hxs
      subst hxs
      have hsz := entry_sub_size hm hof
      refine ⟨ys, ?_, ?_⟩
      · have hcg : mapOpt (fun it => applySchemaToObject it (getF fd "of")) xs =
            mapOpt (fun it => AF (jsSize s) it (getF fd "of")) xs :=
          mapOpt_congr xs (fun x _ =>
            AF_fuel_eq (jsSize (getF fd "of")) _ le_rfl
              (jsSize (getF fd "of") + 1) (jsSize s) (by omega) (by omega) x)
        rw [hcg]
        exact hmap
      · rw [hp2, hyeq, hc]
        simp
    · rcases hc2or with hc2 | hc2
      · rw [ht, hof, truthy_arr] at hc2
        exact Bool.noConfusion hc2
      · rw [hto] at hc2
        exact Bool.noConfusion hc2

theorem WFJS_objL {fs : List (String × JSVal)} (hnd : keysNodup fs = true)
    (h : ∀ p ∈ fs, WFJS p.2) : WFJS (.obj fs) :=
  WFJS.mk _ hnd h

theorem WFJS_arr {xs : List JSVal} (hnd : keysNodup (jsEntries (.arr xs)) = true)
    (h : ∀ x ∈ xs, WFJS x) : WFJS (.arr xs) :=
  WFJS.mk _ hnd (by
    intro p hp
    simp only [jsChildren, List.mem_map] at hp
    obtain ⟨q, hq, he⟩ := hp
    have h2 : p.2 = q.2 := by rw [← he]
    rw [h2]
    exact h q.2 (mem_enumFrom_snd xs 0 q hq))

theorem WFJS_str (t : String) (hnd : keysNodup (jsEntries (.str t)) = true) :
    WFJS (.str t) :=
  WFJS.mk _ hnd (by intro p hp; simp [jsChildren] at hp)

theorem c2_schema_defaulting_witness :
    WFJS (JSVal.obj
      [ ("a", .obj [("default", .num 9)]),
        ("b", .obj [("options", .arr [.num 1, .num 2]), ("default", .num 1)]),
        ("c", .obj [("type", .str "object"),
          ("schema", .obj [("z", .obj [("default", .num 3)])])]),
        ("d", .obj [("type", .str "array"),
          ("of", .obj [("w", .obj [("default", .num 4)])])]) ]) ∧
    applySchemas (.obj [("extra", .num 7)]) (.obj [("team", .obj [])]) =
      some (.obj [("extra", .num 7)]) ∧
    applySchemaToObject
      (.obj [("b", .num 7), ("c", .obj []), ("d", .arr [.obj []]),
        ("keep", .num 42)])
      (JSVal.obj
        [ ("a", .obj [("default", .num 9)]),
          ("b", .obj [("options", .arr [.num 1, .num 2]), ("default", .num 1)]),
          ("c", .obj [("type", .str "object"),
            ("schema", .obj [("z", .obj [("default", .num 3)])])]),
          ("d", .obj [("type", .str "array"),
            ("of", .obj [("w", .obj [("default", .num 4)])])]) ]) =
      some (.obj [("b", .num 1), ("c", .obj [("z", .num 3)]),
        ("d", .arr [.obj [("w", .num 4)]]), ("keep", .num 42), ("a", .num 9)]) ∧
    getF (.obj [("b", .num 1), ("c", .obj [("z", .num 3)]),
        ("d", .arr [.obj [("w", .num 4)]]), ("keep", .num 42), ("a", .num 9)])
      "keep" = .num 42 ∧
    getF (.obj [("b", .num 1), ("c", .obj [("z", .num 3)]),
        ("d", .arr [.obj [("w", .num 4)]]), ("keep", .num 42), ("a", .num 9)])
      "a" = .num 9 ∧
    getF (.obj [("b", .num 1), ("c", .obj [("z", .num 3)]),
        ("d", .arr [.obj [("w", .num 4)]]), ("keep", .num 42), ("a", .num 9)])
      "b" = .num 1 ∧
    (∃ wk, applySchemaToObject (.obj [])
        (.obj [("z", .obj [("default", .num 3)])]) = some wk ∧
      getF (.obj [("b", .num 1), ("c", .obj [("z", .num 3)]),
        ("d", .arr [.obj [("w", .num 4)]]), ("keep", .num 42), ("a", .num 9)])
        "c" = wk) ∧
    (∃ ys, mapOpt (fun it => applySchemaToObject it
        (.obj [("w", .obj [("default", .num 4)])])) [.obj []] = some ys ∧
      getF (.obj [("b", .num 1), ("c", .obj [("z", .num 3)]),
        ("d", .arr [.obj [("w", .num 4)]]), ("keep", .num 42), ("a", .num 9)])
        "d" = .arr ys) := by
  have hnum9 : WFJS (.num 9) := WFJS_num 9
  have hfdA : WFJS (.obj [("default", .num 9)]) :=
    WFJS_objL (by decide) (by
      intro p hp
      simp only [List.mem_singleton] at hp
      rw [hp]
      exact WFJS_num 9)
  have hopts : WFJS (.arr [.num 1, .num 2]) :=
    WFJS_arr (by decide) (by
      intro x hx
      simp only [List.mem_cons, List.not_mem_nil, or_false] at hx
      rcases hx with h | h
      · rw [h]; exact WFJS_num 1
      · rw [h]; exact WFJS_num 2)
  have hfdB : WFJS (.obj [("options", .arr [.num 1, .num 2]), ("default", .num 1)]) :=
    WFJS_objL (by decide) (by
      intro p hp
      simp only [List.mem_cons, List.not_mem_nil, or_false] at hp
      rcases hp with h | h
      · rw [h]; exact hopts
      · rw [h]; exact WFJS_num 1)
  have hfdz : WFJS (.obj [("default", .num 3)]) :=
    WFJS_objL (by decide) (by
      intro p hp
      simp only [List.mem_singleton] at hp
      rw [hp]
      exact WFJS_num 3)
  have hsubC : WFJS (.obj [("z", .obj [("default", .num 3)])]) :=
    WFJS_objL (by decide) (by
      intro p hp
      simp only [List.mem_singleton] at hp
      rw [hp]
      exact hfdz)
  have hfdC : WFJS (.obj [("type", .str "object"),
      ("schema", .obj [("z", .obj [("default", .num 3)])])]) :=
    WFJS_objL (by decide) (by
      intro p hp
      simp only [List.mem_cons, List.not_mem_nil, or_false] at hp
      rcases hp with h | h
      · rw [h]; exact WFJS_str "object" (by decide)
      · rw [h]; exact hsubC)
  have hfdw : WFJS (.obj [("default", .num 4)]) :=
    WFJS_objL (by decide) (by
      intro p hp
      simp only [List.mem_singleton] at hp
      rw [hp]
      exact WFJS_num 4)
  have hofD : WFJS (.obj [("w", .obj [("default", .num 4)])]) :=
    WFJS_objL (by decide) (by
      intro p hp
      simp only [List.mem_singleton] at hp
      rw [hp]
      exact hfdw)
  have hfdD : WFJS (.obj [("type", .str "array"),
      ("of", .obj [("w", .obj [("default", .num 4)])])]) :=
    WFJS_objL (by decide) (by
      intro p hp
      simp only [List.mem_cons, List.not_mem_nil, or_false] at hp
      rcases hp with h | h
      · rw [h]; exact WFJS_str "array" (by decide)
      · rw [h]; exact hofD)
  have hsW : WFJS (JSVal.obj
      [ ("a", .obj [("default", .num 9)]),
        ("b", .obj [("options", .arr [.num 1, .num 2]), ("default", .num 1)]),
        ("c", .obj [("type", .str "object"),
          ("schema", .obj [("z", .obj [("default", .num 3)])])]),
        ("d", .obj [("type", .str "array"),
          ("of", .obj [("w", .obj [("default", .num 4)])])]) ]) :=
    WFJS_objL (by decide) (by
      intro p hp
      simp only [List.mem_cons, List.not_mem_nil, or_false] at hp
      rcases hp with h | h | h | h
      · rw [h]; exact hfdA
      · rw [h]; exact hfdB
      · rw [h]; exact hfdC
      · rw [h]; exact hfdD)
  obtain ⟨h1, h2, h3, h4, h5, h6⟩ := c2_schema_defaulting
    (.obj [("team", .obj [])]) (.obj [("extra", .num 7)]) (.obj [("extra", .num 7)])
    [("extra", .num 7)] rfl rfl
    (JSVal.obj
      [ ("a", .obj [("default", .num 9)]),
        ("b", .obj [("options", .arr [.num 1, .num 2]), ("default", .num 1)]),
        ("c", .obj [("type", .str "object"),
          ("schema", .obj [("z", .obj [("default", .num 3)])])]),
        ("d", .obj [("type", .str "array"),
          ("of", .obj [("w", .obj [("default", .num 4)])])]) ])
    (.obj [("b", .num 7), ("c", .obj []), ("d", .arr [.obj []]), ("keep", .num 42)])
    (.obj [("b", .num 1), ("c", .obj [("z", .num 3)]),
      ("d", .arr [.obj [("w", .num 4)]]), ("keep", .num 42), ("a", .num 9)])
    [("b", .num 7), ("c", .obj []), ("d", .arr [.obj []]), ("keep", .num 42)]
    rfl hsW rfl
  refine ⟨hsW, rfl, rfl, ?_, ?_, ?_, ?_, ?_⟩
  · exact (h2 "keep" (by decide)).trans rfl
  · exact (h3 "a" (.obj [("default", .num 9)]) (List.mem_cons_self _ _)
      rfl rfl rfl rfl).trans rfl
  · exact (h4 "b" (.obj [("options", .arr [.num 1, .num 2]), ("default", .num 1)])
      [.num 1, .num 2]
      (List.mem_cons_of_mem _ (List.mem_cons_self _ _))
      rfl rfl rfl rfl rfl rfl).trans rfl
  · exact h5 "c" (.obj [("type", .str "object"),
      ("schema", .obj [("z", .obj [("default", .num 3)])])])
      (List.mem_cons_of_mem _ (List.mem_cons_of_mem _ (List.mem_cons_self _ _)))
      rfl rfl rfl rfl
  · exact h6 "d" (.obj [("type", .str "array"),
      ("of", .obj [("w", .obj [("default", .num 4)])])]) [.obj []]
      (List.mem_cons_of_mem _ (List.mem_cons_of_mem _
        (List.mem_cons_of_mem _ (List.mem_cons_self _ _))))
      rfl rfl rfl rfl rfl
